import Mathlib

/-!
ETF (table-driven rejection sampling): embedding of the C++ sources.

Conventions of the embedding.

* `RealType` is embedded as `ℚ` (exact arithmetic).  A C++ division by zero
  yields a non-finite value; here `x / 0 = 0`, so statements that depend on a
  quotient carry the hypothesis that makes its divisor non-zero.
* Unsigned machine integers are `Nat`; where a value passes through a type of
  `bits` bits the reduction `% 2 ^ bits` is written out.
* A C++ input iterator without an end (`finf_first`, `fsup_first`) is a stream
  `Nat → ℚ`: the `i`-th read returns the `i`-th value.
* `std::vector` is `List`; `v[i]` is `v.getD i 0`, `v[i] = a` is `v.set i a`.
  A loop that assigns `v[i]` for `i = 0, 1, …` in this order may instead return
  the list of the assigned values.
* A run that yields no value (exception, access outside a vector, template
  recursion without end) is an error result or `none`.
* Template parameters (`W`, `N`, the shape, the category) are ordinary
  arguments.
* A generator `g` passed by reference is a stream of draws `Nat → Nat` and the
  position of the next unread draw; a call that reads draws returns the new
  position.  A loop `while (true)` is a function of a number of passes
  (`fuel`).
* The code that calls `std::exp`, `std::log` or `std::pow` (`weibull_pdf`,
  `right_pvalue`) is embedded over `ℝ` with the real exponential, logarithm
  and power; these definitions are not executable.
* Where the value of a stored integer depends on the rounding of `RealType`
  (the truncated product `fratio*outer_switch` of `build`), the code is also
  embedded with a rounding function applied to the exact result of each
  operation (`build_rounded`, `build_datum_rounded`); `round_to_digits 53` is
  the rounding of `double`.
* Where a statement is about the accesses of a loop, the loop is also embedded
  pass by pass with each access checked against the size of its vector
  (`back_substitution_loop`, `prepartition_total_loop`); it agrees with the
  closed form of the loop whenever the accesses are inside the vectors.
-/

namespace etf

/-! ## `implementation.hpp` : the table builder -/

/-- The three sampler shapes (`asymmetric`, `central`, `symmetric`). -/
inductive Shape where
  | asymmetric
  | central
  | symmetric
  deriving DecidableEq, Repr

/-- The three categories (`bounded`, `composite`, `rejection_composite`). -/
inductive Category where
  | bounded
  | composite
  | rejection_composite
  deriving DecidableEq, Repr

/-- Static member `IsSymmetric` of the shape classes. -/
def Shape.IsSymmetric : Shape → Bool
  | .asymmetric => false
  | .central => true
  | .symmetric => true

/-- Static member `HasOuter` of the category classes. -/
def Category.HasOuter : Category → Bool
  | .bounded => false
  | .composite => true
  | .rejection_composite => true

/-- Static member `HasRejection` of the category classes. -/
def Category.HasRejection : Category → Bool
  | .bounded => false
  | .composite => false
  | .rejection_composite => true

/-- One record of `data_` (struct `Datum`). -/
structure Datum where
  scaled_fratio : Nat
  scaled_fsup : ℚ
  scaled_dx : ℚ
  deriving DecidableEq, Repr

/-- The members filled by `builder::build`: the breakpoints `x_`, the records
`data_`, and the value of the local variable `outer_switch` (which
`define_outer_switch` stores for the categories that have an outer
distribution). -/
structure Table where
  x_ : List ℚ
  data_ : List Datum
  outer_switch : Nat
  deriving DecidableEq, Repr

/-- The exception of `exceptions.hpp`. -/
inductive BuildError where
  | invalid_table_size
  deriving DecidableEq, Repr

/-- The function `std::round`: nearest integer, halfway cases away from zero. -/
def std_round (q : ℚ) : ℤ :=
  if 0 ≤ q then ⌊q + 1 / 2⌋ else -⌊-q + 1 / 2⌋

/-- The conversion `static_cast<UIntType>(r)` of a real: the fractional part is
discarded.  (A negative or too large `r` is undefined in C++; here a negative
`r` gives `0`.) -/
def to_uint (q : ℚ) : Nat :=
  Int.toNat ⌊q⌋

/-- The loop of `build` that accumulates `upper_quadrature_area`. -/
def upper_quadrature_area (n : Nat) (x : List ℚ) (fsup : Nat → ℚ) : ℚ :=
  (List.range n).foldl
    (fun acc i => acc + (x.getD (i + 1) 0 - x.getD i 0) * fsup i) 0

/-- The value given to the local variable `outer_switch` of `build`. -/
def compute_outer_switch (W N : Nat) (shape : Shape) (cat : Category)
    (x : List ℚ) (fsup : Nat → ℚ) (outer_area : ℚ) : Nat :=
  let S := if shape.IsSymmetric then 1 else 0
  let n := 2 ^ N
  if cat.HasOuter then
    let area := upper_quadrature_area n x fsup
    Int.toNat (std_round (((2 ^ (W - N - S) : Nat) : ℚ) * (area / (outer_area + area))))
  else
    2 ^ (W - N - S)

/-- The body of the last loop of `build` ("Compute the tables") for interval
`i`: `fsup i` is the value stored in `data_[i].scaled_fsup` by the earlier
loop.  The operations are exact; `build_datum_rounded` is the same body with
rounded operations. -/
def build_datum (outer_switch : Nat) (x : List ℚ) (finf fsup : Nat → ℚ)
    (i : Nat) : Datum :=
  let fratio := finf i / fsup i
  let scaled_fratio :=
    if (1 : ℚ) / 2 ≤ fratio then to_uint (fratio * (outer_switch : ℚ)) else 0
  { scaled_fratio := scaled_fratio
    scaled_fsup := fsup i / (outer_switch : ℚ)
    scaled_dx := (x.getD (i + 1) 0 - x.getD i 0) / (scaled_fratio : ℚ) }

/-- The function `builder::build`. -/
def build (W N : Nat) (shape : Shape) (cat : Category) (x_origin : ℚ)
    (xs : List ℚ) (finf fsup : Nat → ℚ) (outer_area : ℚ) :
    Except BuildError Table :=
  let n := 2 ^ N
  if xs.length ≠ n + 1 then
    .error .invalid_table_size
  else
    let x := if x_origin ≠ 0 then xs.map (fun v => v - x_origin) else xs
    let outer_switch := compute_outer_switch W N shape cat x fsup outer_area
    .ok { x_ := x
          data_ := (List.range n).map (build_datum outer_switch x finf fsup)
          outer_switch := outer_switch }

/-- The constructors of `distribution` (`distribution.hpp`): asymmetric shape,
origin `0.0`; the bounded specialisation passes `0.0` as outer area. -/
def distribution (W N : Nat) (cat : Category) (xs : List ℚ)
    (finf fsup : Nat → ℚ) (outer_area : ℚ) : Except BuildError Table :=
  build W N .asymmetric cat 0 xs finf fsup
    (if cat.HasOuter then outer_area else 0)

/-- The constructors of `central_distribution`: central shape, origin `0.0`. -/
def central_distribution (W N : Nat) (cat : Category) (xs : List ℚ)
    (finf fsup : Nat → ℚ) (outer_area : ℚ) : Except BuildError Table :=
  build W N .central cat 0 xs finf fsup
    (if cat.HasOuter then outer_area else 0)

/-- The constructors of `symmetric_distribution`: symmetric shape, origin
`x0`. -/
def symmetric_distribution (W N : Nat) (cat : Category) (x0 : ℚ) (xs : List ℚ)
    (finf fsup : Nat → ℚ) (outer_area : ℚ) : Except BuildError Table :=
  build W N .symmetric cat x0 xs finf fsup
    (if cat.HasOuter then outer_area else 0)

/-! ## `random_digits.hpp` : W-bit integers and reals from a generator -/

/-- Recursion of `bit_width`; `fuel` bounds the depth of the recursion, which
halves `value` at each call. -/
def bit_width_aux : Nat → Nat → Nat → Nat
  | 0, _, shift => shift
  | fuel + 1, value, shift =>
    if value = 0 then shift else bit_width_aux fuel (value >>> 1) (shift + 1)

/-- The function `bit_width(value, shift = 0)`. -/
def bit_width (value : Nat) (shift : Nat := 0) : Nat :=
  bit_width_aux value value shift

/-- Recursion of `is_power_of_2_less_1`; `fuel` bounds the depth of the
recursion, which halves `value` at each call. -/
def is_power_of_2_less_1_aux : Nat → Nat → Bool
  | 0, value => value == 1
  | fuel + 1, value =>
    if value = 1 then true
    else if value &&& 1 = 0 then false
    else is_power_of_2_less_1_aux fuel (value >>> 1)

/-- The function `is_power_of_2_less_1(value)`. -/
def is_power_of_2_less_1 (value : Nat) : Bool :=
  is_power_of_2_less_1_aux value value

/-- The static interface of a generator type: `RngType::min()` and
`RngType::max()`.  The values returned by successive calls `rng()` are given
separately, as a stream `draws : Nat → Nat` read at a position `pos`. -/
structure RngType where
  min : Nat
  max : Nat
  deriving DecidableEq, Repr

/-- The function `rng_digits<RngType>()`. -/
def rng_digits (R : RngType) : Nat :=
  bit_width (R.max - R.min)

/-- The two `static_assert`s of `check_rng_range<RngType>()`: `true` when both
hold (the generator is accepted). -/
def check_rng_range (R : RngType) : Bool :=
  (R.min == 0 || R.min == 1) &&
  (is_power_of_2_less_1 R.max || is_power_of_2_less_1 (R.max ||| 1))

/-- The function `random_bits<UIntType, P>::generate_next(rng, u)`, `N` being
`rng_digits<RngType>()` and `bits` the width of `UIntType`.  The result is the
value returned and the position of the next unread draw.  `fuel` bounds the
depth of the template recursion; `none` when it is exhausted. -/
def generate_next (N bits : Nat) (draws : Nat → Nat) :
    Nat → Nat → Nat → Nat → Option (Nat × Nat)
  | _, 0, u, pos => some (u, pos)
  | 0, _ + 1, _, _ => none
  | fuel + 1, P + 1, u, pos =>
    let R := if P + 1 > N then P + 1 - N else 0
    let S := if N > P + 1 then N - (P + 1) else 0
    let T := if N < P + 1 then N else P + 1
    generate_next N bits draws fuel R
      (((u <<< T) % 2 ^ bits) ||| ((draws pos % 2 ^ bits) >>> S)) (pos + 1)

/-- The function `random_bits<UIntType, P>::generate(rng)`.  The
specialisation for `P = 0` has no member `generate`, and with `N = 0` the
template recursion does not end: both give `none`. -/
def random_bits_generate (N bits : Nat) (draws : Nat → Nat) (P pos : Nat) :
    Option (Nat × Nat) :=
  if P = 0 then none
  else
    let R := if P > N then P - N else 0
    let S := if N > P then N - P else 0
    generate_next N bits draws P R ((draws pos >>> S) % 2 ^ bits) (pos + 1)

/-- The function `generate_random_integer<UIntType, W>(rng)`: `none` when the
program is rejected at compile time (range check, or no instantiation). -/
def generate_random_integer (R : RngType) (bits W : Nat) (draws : Nat → Nat)
    (pos : Nat) : Option (Nat × Nat) :=
  if check_rng_range R then
    random_bits_generate (rng_digits R) bits draws W pos
  else none

/-- The function `generate_random_real<RealType, W>(rng)`; `digits` is
`std::numeric_limits<RealType>::digits` and `bits` the width of
`integer_traits<M>::uint_fast_t`. -/
def generate_random_real (digits : Nat) (R : RngType) (bits W : Nat)
    (draws : Nat → Nat) (pos : Nat) : Option (ℚ × Nat) :=
  let N := digits
  let M := if N < W then N else W
  let S : ℚ := 1 / ((((1 <<< (M / 2)) % 2 ^ bits : Nat) : ℚ) *
                    (((1 <<< (M - M / 2)) % 2 ^ bits : Nat) : ℚ))
  match generate_random_integer R bits M draws pos with
  | some (k, pos1) => some (S * (k : ℚ), pos1)
  | none => none

/-- The stream of draws that starts with the tuple `d` (and continues with
zeros). -/
def draws_of_tuple {n K : Nat} (d : Fin n → Fin (2 ^ K)) : Nat → Nat :=
  fun i => if h : i < n then (d ⟨i, h⟩ : Nat) else 0

/-! ## `util.hpp` : the Newton partition -/

/-- The ways in which a run of `util.hpp` code yields no value: an exception
of the standard library for a vector whose requested size wrapped around
(`length_error`), an access outside a vector, which is undefined behaviour
(`out_of_range`), and the exhaustion of the fuel of the embedding
(`out_of_fuel`). -/
inductive Fault where
  | length_error
  | out_of_range
  | out_of_fuel
  deriving DecidableEq, Repr

/-- The first loop of `solve_tridiagonal_system` ("Eliminate the
sub-diagonal"): returns the modified `b` and `rhs`. -/
def eliminate_subdiagonal (m : Nat) (a c : List ℚ) (b rhs : List ℚ) :
    List ℚ × List ℚ :=
  (List.range' 1 (m - 1)).foldl
    (fun (st : List ℚ × List ℚ) i =>
      (st.1.set i (st.1.getD i 0 - a.getD i 0 / st.1.getD (i - 1) 0 * c.getD (i - 1) 0),
       st.2.set i (st.2.getD i 0 - a.getD i 0 / st.1.getD (i - 1) 0 * st.2.getD (i - 1) 0)))
    (b, rhs)

/-- The second part of `solve_tridiagonal_system` ("Solve the remaining upper
bidiagonal system"), for `m ≥ 2`: `i` runs from `m - 2` down to `0`. -/
def back_substitution (m : Nat) (b c rhs sol : List ℚ) : List ℚ :=
  (List.range (m - 1)).reverse.foldl
    (fun (sol : List ℚ) i =>
      sol.set i ((rhs.getD i 0 - c.getD i 0 * sol.getD (i + 1) 0) / b.getD i 0))
    (sol.set (m - 1) (rhs.getD (m - 1) 0 / b.getD (m - 1) 0))

/-- The function `detail::solve_tridiagonal_system(a, b, c, rhs, sol)`, called
with five vectors of the same size `m`.  It returns the final `b`, `rhs` and
`sol`.  For `m = 0` the first loop, and for `m = 1` the second loop (which
starts at `i = m - 2`, an unsigned value), run outside the vectors. -/
def solve_tridiagonal_system (a b c rhs sol : List ℚ) :
    Except Fault (List ℚ × List ℚ × List ℚ) :=
  if a.length < 2 then .error .out_of_range
  else
    .ok ((eliminate_subdiagonal a.length a c b rhs).1,
         (eliminate_subdiagonal a.length a c b rhs).2,
         back_substitution a.length (eliminate_subdiagonal a.length a c b rhs).1 c
           (eliminate_subdiagonal a.length a c b rhs).2 sol)

/-- The struct `partition_data`. -/
structure partition_data where
  x : List ℚ
  finf : List ℚ
  fsup : List ℚ
  deriving DecidableEq, Repr

/-- The loop of `newton_partition` that fills `extrema`: the supplied extrema
lying between `x.front()` and `x.back()`, each paired with its value. -/
def collect_extrema (f : ℚ → ℚ) (x : List ℚ) : List ℚ → List (ℚ × ℚ)
  | [] => []
  | e :: es =>
    if (e - x.getD 0 0) * (e - x.getD (x.length - 1) 0) ≤ 0 then
      (e, f e) :: collect_extrema f x es
    else collect_extrema f x es

/-- The loop "Compute the values at inner points": `y[i]` and `dy_dx[i]` for
`i = 1, …, n - 1`. -/
def inner_values (f df : ℚ → ℚ) (n : Nat) (x : List ℚ) (y dy_dx : List ℚ) :
    List ℚ × List ℚ :=
  (List.range' 1 (n - 1)).foldl
    (fun (st : List ℚ × List ℚ) i =>
      (st.1.set i (f (x.getD i 0)), st.2.set i (df (x.getD i 0))))
    (y, dy_dx)

/-- The inner `while` loop of the supremum sweep for the interval with ends
`xi` and `xi1`: `s` holds `(fsup[i], dfsup_dxl[i], dfsup_dxr[i])`, the list is
the range from the iterator `extremum` to `extrema.end()`.  Returns the final
triple and the final iterator. -/
def sup_extrema (xi xi1 : ℚ) : List (ℚ × ℚ) → ℚ × ℚ × ℚ → (ℚ × ℚ × ℚ) × List (ℚ × ℚ)
  | [], s => (s, [])
  | e :: es, s =>
    if (e.1 - xi) * (e.1 - xi1) ≤ 0 then
      sup_extrema xi xi1 es (if e.2 > s.1 then (e.2, 0, 0) else s)
    else (s, e :: es)

/-- The supremum sweep `for (i = 0; i != n; ++i)` from index `i` on, `k`
iterations being left.  Returns the values assigned to
`(fsup[j], dfsup_dxl[j], dfsup_dxr[j])` for `j = i, i + 1, …` in this order, and
the final `(max_area, min_area, sum_area)`. -/
def sup_sweep (x y dy_dx : List ℚ) :
    Nat → Nat → List (ℚ × ℚ) → ℚ → ℚ → ℚ → List (ℚ × ℚ × ℚ) × (ℚ × ℚ × ℚ)
  | 0, _, _, max_area, min_area, sum_area => ([], (max_area, min_area, sum_area))
  | k + 1, i, extremum, max_area, min_area, sum_area =>
    let s := sup_extrema (x.getD i 0) (x.getD (i + 1) 0) extremum
      (if y.getD i 0 > y.getD (i + 1) 0 then (y.getD i 0, dy_dx.getD i 0, 0)
       else (y.getD (i + 1) 0, 0, dy_dx.getD (i + 1) 0))
    let area := s.1.1 * |x.getD (i + 1) 0 - x.getD i 0|
    let r := sup_sweep x y dy_dx k (i + 1) s.2
      (max area max_area) (min area min_area) (sum_area + area)
    (s.1 :: r.1, r.2)

/-- The inner `while` loop of the infimum sweep: `v` holds `finf[i]`. -/
def inf_extrema (xi xi1 : ℚ) : List (ℚ × ℚ) → ℚ → ℚ × List (ℚ × ℚ)
  | [], v => (v, [])
  | e :: es, v =>
    if (e.1 - xi) * (e.1 - xi1) ≤ 0 then
      inf_extrema xi xi1 es (if e.2 < v then e.2 else v)
    else (v, e :: es)

/-- The infimum sweep `for (i = 0; i != n; ++i)` from index `i` on, `k`
iterations being left: the values assigned to `finf[j]` for `j = i, i + 1, …`. -/
def inf_sweep (x y : List ℚ) : Nat → Nat → List (ℚ × ℚ) → List ℚ
  | 0, _, _ => []
  | k + 1, i, extremum =>
    let r := inf_extrema (x.getD i 0) (x.getD (i + 1) 0) extremum
      (if y.getD i 0 > y.getD (i + 1) 0 then y.getD (i + 1) 0 else y.getD i 0)
    r.1 :: inf_sweep x y k (i + 1) r.2

/-- The vector `minus_s` assigned for `i = 0, …, n - 2`. -/
def jacobian_minus_s (n : Nat) (x fsup : List ℚ) : List ℚ :=
  (List.range (n - 1)).map (fun i =>
    fsup.getD i 0 * (x.getD (i + 1) 0 - x.getD i 0)
      - fsup.getD (i + 1) 0 * (x.getD (i + 2) 0 - x.getD (i + 1) 0))

/-- The vector `ds_dxl` assigned for `i = 0, …, n - 2`. -/
def jacobian_ds_dxl (n : Nat) (x fsup dfsup_dxl : List ℚ) : List ℚ :=
  (List.range (n - 1)).map (fun i =>
    fsup.getD i 0 - (x.getD (i + 1) 0 - x.getD i 0) * dfsup_dxl.getD i 0)

/-- The vector `ds_dxc` assigned for `i = 0, …, n - 2`. -/
def jacobian_ds_dxc (n : Nat) (x fsup dfsup_dxl dfsup_dxr : List ℚ) : List ℚ :=
  (List.range (n - 1)).map (fun i =>
    (x.getD (i + 2) 0 - x.getD (i + 1) 0) * dfsup_dxl.getD (i + 1) 0
      - (x.getD (i + 1) 0 - x.getD i 0) * dfsup_dxr.getD i 0
      - (fsup.getD i 0 + fsup.getD (i + 1) 0))

/-- The vector `ds_dxr` assigned for `i = 0, …, n - 2`. -/
def jacobian_ds_dxr (n : Nat) (x fsup dfsup_dxr : List ℚ) : List ℚ :=
  (List.range (n - 1)).map (fun i =>
    fsup.getD (i + 1) 0 + (x.getD (i + 2) 0 - x.getD (i + 1) 0) * dfsup_dxr.getD (i + 1) 0)

/-- The last block of the loop body: the positions `x[i]`, `i = 1, …, n - 1`,
are moved by `relax*dx[i-1]` and constrained by the former positions of the
neighbours.  The state is the local `x0` and the vector `x`. -/
def update_positions (relax : ℚ) (n : Nat) (dx x : List ℚ) : List ℚ :=
  ((List.range' 1 (n - 1)).foldl
    (fun (st : ℚ × List ℚ) i =>
      (st.2.getD i 0,
       st.2.set i
        (min (max (st.2.getD i 0 + relax * dx.getD (i - 1) 0)
                  (min st.1 (st.2.getD (i + 1) 0)))
             (max st.1 (st.2.getD (i + 1) 0)))))
    (x.getD 0 0, x)).2

/-- The convergence test `(max_area-min_area)<tol*(sum_area/n)` on the triple
`(max_area, min_area, sum_area)`. -/
def converged (tol : ℚ) (n : Nat) (areas : ℚ × ℚ × ℚ) : Bool :=
  decide (areas.1 - areas.2.1 < tol * (areas.2.2 / (n : ℚ)))

/-- The variables of `newton_partition` that live across the passes of its
`while(true)` loop: the abscissae `x`, the values `y` and `dy_dx`, and the
step `dx`. -/
structure newton_state where
  x : List ℚ
  y : List ℚ
  dy_dx : List ℚ
  dx : List ℚ
  deriving DecidableEq, Repr

/-- First half of a pass of the loop: the values at the inner points, then the
supremum sweep.  `real_max` is `std::numeric_limits<RealType>::max()`, the
initial value of `min_area`.  The result is the list of the triples
`(fsup[i], dfsup_dxl[i], dfsup_dxr[i])` and `(max_area, min_area, sum_area)`. -/
def newton_sweep (f df : ℚ → ℚ) (real_max : ℚ) (extrema : List (ℚ × ℚ)) (n : Nat)
    (s : newton_state) : List (ℚ × ℚ × ℚ) × (ℚ × ℚ × ℚ) :=
  sup_sweep s.x (inner_values f df n s.x s.y s.dy_dx).1
    (inner_values f df n s.x s.y s.dy_dx).2 n 0 extrema 0 real_max 0

/-- The partition returned when the convergence test succeeds in a pass that
starts in state `s`: the current `x`, the `fsup` of the supremum sweep and the
`finf` of the infimum sweep. -/
def newton_result (f df : ℚ → ℚ) (real_max : ℚ) (extrema : List (ℚ × ℚ)) (n : Nat)
    (s : newton_state) : partition_data :=
  { x := s.x
    finf := inf_sweep s.x (inner_values f df n s.x s.y s.dy_dx).1 n 0 extrema
    fsup := (newton_sweep f df real_max extrema n s).1.map (fun t => t.1) }

/-- Second half of a pass (from "Area difference between neigboring
rectangles" to the end of the loop body): the tridiagonal system is assembled
from the result of the sweep and solved into `dx`, then the positions are
updated.  Returns the state in which the next pass starts. -/
def newton_next (f df : ℚ → ℚ) (real_max : ℚ) (extrema : List (ℚ × ℚ)) (relax : ℚ)
    (n : Nat) (s : newton_state) : Except Fault newton_state :=
  let sw := (newton_sweep f df real_max extrema n s).1
  let fsup := sw.map (fun t => t.1)
  let dfsup_dxl := sw.map (fun t => t.2.1)
  let dfsup_dxr := sw.map (fun t => t.2.2)
  match solve_tridiagonal_system (jacobian_ds_dxl n s.x fsup dfsup_dxl)
      (jacobian_ds_dxc n s.x fsup dfsup_dxl dfsup_dxr)
      (jacobian_ds_dxr n s.x fsup dfsup_dxr) (jacobian_minus_s n s.x fsup) s.dx with
  | .error e => .error e
  | .ok r =>
    .ok { x := update_positions relax n r.2.2 s.x
          y := (inner_values f df n s.x s.y s.dy_dx).1
          dy_dx := (inner_values f df n s.x s.y s.dy_dx).2
          dx := r.2.2 }

/-- The `while(true)` loop of `newton_partition`; `iter` is the 32-bit counter
of that name.  Each pass consumes one unit of `fuel`. -/
def newton_loop (f df : ℚ → ℚ) (real_max : ℚ) (extrema : List (ℚ × ℚ))
    (tol relax : ℚ) (max_iter n : Nat) :
    Nat → Nat → newton_state → Except Fault partition_data
  | 0, _, _ => .error .out_of_fuel
  | fuel + 1, iter, s =>
    if converged tol n (newton_sweep f df real_max extrema n s).2 then
      .ok (newton_result f df real_max extrema n s)
    else if (iter + 1) % 2 ^ 32 > max_iter then
      .ok { x := [], finf := [], fsup := [] }
    else
      match newton_next f df real_max extrema relax n s with
      | .error e => .error e
      | .ok s1 => newton_loop f df real_max extrema tol relax max_iter n fuel
                    ((iter + 1) % 2 ^ 32) s1

/-- The state in which the first pass of the loop of `newton_partition`
starts, for `n + 1 ≥ 2` initial abscissae. -/
def newton_initial (f : ℚ → ℚ) (x_initial : List ℚ) : newton_state :=
  { x := x_initial
    y := ((List.replicate (x_initial.length - 1 + 1) (0 : ℚ)).set 0
            (f (x_initial.getD 0 0))).set (x_initial.length - 1)
            (f (x_initial.getD (x_initial.length - 1) 0))
    dy_dx := ((List.replicate (x_initial.length - 1 + 1) (0 : ℚ)).set 0 0).set
            (x_initial.length - 1) 0
    dx := List.replicate (x_initial.length - 1 - 1) 0 }

/-- The function `newton_partition(f, df, x_initial, x_extremum, tol, relax,
max_iter)`.  With fewer than two initial abscissae a vector size wraps around
(`n = x.size() - 1`, `dx(n - 1)`).  The loop gets `max_iter + 1` units of
fuel. -/
def newton_partition (f df : ℚ → ℚ) (real_max : ℚ) (x_initial x_extremum : List ℚ)
    (tol : ℚ) (relax : ℚ := 1) (max_iter : Nat := 100) :
    Except Fault partition_data :=
  if x_initial.length < 2 then .error .length_error
  else
    newton_loop f df real_max (collect_extrema f x_initial x_extremum)
      tol relax max_iter (x_initial.length - 1) (max_iter + 1) 0
      (newton_initial f x_initial)

/-- The function `newton_partition_monotonic`: no extremum is supplied. -/
def newton_partition_monotonic (f df : ℚ → ℚ) (real_max : ℚ) (x_initial : List ℚ)
    (tol : ℚ) (relax : ℚ := 1) (max_iter : Nat := 100) :
    Except Fault partition_data :=
  newton_partition f df real_max x_initial [] tol relax max_iter

/-- The state after `k` Newton updates starting from `s` (the updates of `k`
successive passes of the loop), when none of them faults. -/
def newton_iterate (f df : ℚ → ℚ) (real_max : ℚ) (extrema : List (ℚ × ℚ)) (relax : ℚ)
    (n : Nat) : Nat → newton_state → Except Fault newton_state
  | 0, s => .ok s
  | k + 1, s =>
    match newton_next f df real_max extrema relax n s with
    | .error e => .error e
    | .ok s1 => newton_iterate f df real_max extrema relax n k s1

/-- The area `fsup[i] * |x[i+1] - x[i]|` of the upper rectangle `i` of a
partition. -/
def partition_area (p : partition_data) (i : Nat) : ℚ :=
  p.fsup.getD i 0 * |p.x.getD (i + 1) 0 - p.x.getD i 0|

/-! ## Example inputs -/

/-- A density that is positive on `[0, 3]`, with one interior maximum, at
`3/2`: `f(x) = 4 - (x - 3/2)^2 / 2`. -/
def parabola_density (x : ℚ) : ℚ :=
  4 - (x - 3 / 2) ^ 2 / 2

/-- The derivative of `parabola_density`. -/
def parabola_derivative (x : ℚ) : ℚ :=
  -(x - 3 / 2)

/-! ## Notions used in the statements on `newton_partition` -/

/-- The values over which `fsup[i]` and `finf[i]` are the maximum and the
minimum: `f` at the two ends of interval `i` of `x`, and `f` at every supplied
extremum lying between these ends. -/
def interval_values (f : ℚ → ℚ) (x x_extremum : List ℚ) (i : Nat) : Set ℚ :=
  {v | v = f (x.getD i 0) ∨ v = f (x.getD (i + 1) 0) ∨
    ∃ e ∈ x_extremum, (min (x.getD i 0) (x.getD (i + 1) 0) ≤ e ∧
      e ≤ max (x.getD i 0) (x.getD (i + 1) 0)) ∧ v = f e}

/-- What the loop of `newton_partition` keeps unchanged in a state, for `n`
intervals: the sizes of `x` and `y`, the two end abscissae `x0` and `xn`, and
the values `y.front()`, `y.back()` computed before the loop. -/
def newton_ends (f : ℚ → ℚ) (n : Nat) (x0 xn : ℚ) (s : newton_state) : Prop :=
  s.x.length = n + 1 ∧ s.y.length = n + 1 ∧ s.x.getD 0 0 = x0 ∧ s.x.getD n 0 = xn ∧
    s.y.getD 0 0 = f x0 ∧ s.y.getD n 0 = f xn

/-! ## `implementation.hpp` : the divisions of `build` -/

/-- The divisors of the three divisions in the body of the last loop of
`build` ("Compute the tables") for interval `i`, in program order: `fsup i`
(in `fratio`), `outer_switch` (in `scaled_fsup /= outer_switch`) and
`scaled_fratio` (in `scaled_dx`).  None of the three divisions is guarded. -/
def build_divisors (outer_switch : Nat) (x : List ℚ) (finf fsup : Nat → ℚ)
    (i : Nat) : List ℚ :=
  [fsup i, (outer_switch : ℚ),
   ((build_datum outer_switch x finf fsup i).scaled_fratio : ℚ)]

/-! ## `implementation.hpp` : the samplers -/

/-- The width of `std::size_t`. -/
def size_t_bits : Nat := 64

/-- The value of `(T(1) << k) - 1` in an unsigned type `T` of `bits` bits. -/
def low_mask (bits k : Nat) : Nat :=
  ((1 <<< k) % 2 ^ bits + (2 ^ bits - 1)) % 2 ^ bits

/-- A distribution object as `operator()`, `min()` and `max()` read it: the
template parameters `W` and `N`, the shape and the category, the widths of
`UIntType` (`bits`) and of the integer type of `generate_random_real`
(`real_bits`), `std::numeric_limits<RealType>::digits`, and the members
`x_`, `data_`, `outer_switch_`, `x_origin_`, `func_`, `outer_dist_`,
`outer_func_`.  A call `outer_dist_(g)` reads the draws from a position on and
gives a sample and the position of the next unread draw, or no value;
`outer_min` and `outer_max` are `outer_dist_.min()` and `outer_dist_.max()`. -/
structure Sampler where
  W : Nat
  N : Nat
  bits : Nat
  digits : Nat
  real_bits : Nat
  shape : Shape
  cat : Category
  x_ : List ℚ
  data_ : List Datum
  outer_switch_ : Nat
  x_origin_ : ℚ
  func_ : ℚ → ℚ
  outer_dist_ : (Nat → Nat) → Nat → Option (ℚ × Nat)
  outer_min : ℚ
  outer_max : ℚ
  outer_func_ : ℚ → ℚ

/-- The mantissa `u = r & m_mask` of `operator()`. -/
def Sampler.mantissa (S : Sampler) (r : Nat) : Nat :=
  match S.shape with
  | .asymmetric => r &&& low_mask S.bits (S.W - S.N)
  | .central => r &&& low_mask S.bits (S.W - S.N - 1)
  | .symmetric => r &&& low_mask S.bits (S.W - S.N - 1)

/-- The table index `i` of `operator()`. -/
def Sampler.index (S : Sampler) (r : Nat) : Nat :=
  match S.shape with
  | .asymmetric => r >>> (S.W - S.N)
  | .central => (r >>> (S.W - S.N - 1)) &&& low_mask size_t_bits S.N
  | .symmetric => (r >>> (S.W - S.N - 1)) &&& low_mask size_t_bits S.N

/-- The sign `s = r >> (W - 1) ? 1 : -1` of `operator()` of the central and
symmetric shapes; the asymmetric shape has no sign (here `1`). -/
def Sampler.sign (S : Sampler) (r : Nat) : ℤ :=
  match S.shape with
  | .asymmetric => 1
  | .central => if r >>> (S.W - 1) ≠ 0 then 1 else -1
  | .symmetric => if r >>> (S.W - 1) ≠ 0 then 1 else -1

/-- The value returned by the first `return` of `operator()` (`u <
d.scaled_fratio`). -/
def Sampler.fast_value (S : Sampler) (s : ℤ) (i u : Nat) : ℚ :=
  let d := S.data_.getD i ⟨0, 0, 0⟩
  match S.shape with
  | .asymmetric => S.x_.getD i 0 + d.scaled_dx * (u : ℚ)
  | .central => (s : ℚ) * (S.x_.getD i 0 + d.scaled_dx * (u : ℚ))
  | .symmetric => S.x_origin_ + (s : ℚ) * (S.x_.getD i 0 + d.scaled_dx * (u : ℚ))

/-- The value returned by the second `return` of `operator()` (the sample `x`
of the outer distribution is accepted). -/
def Sampler.outer_value (S : Sampler) (s : ℤ) (x : ℚ) : ℚ :=
  match S.shape with
  | .asymmetric => x
  | .central => (s : ℚ) * x
  | .symmetric => S.x_origin_ + (s : ℚ) * (x - S.x_origin_)

/-- The right-hand side of the wedge test of `operator()`: `func_(x)`, and
`func_(x + x_origin_)` for the symmetric shape. -/
def Sampler.wedge_density (S : Sampler) (x : ℚ) : ℚ :=
  match S.shape with
  | .asymmetric => S.func_ x
  | .central => S.func_ x
  | .symmetric => S.func_ (x + S.x_origin_)

/-- The value returned by the third `return` of `operator()` (the wedge test
passes). -/
def Sampler.wedge_value (S : Sampler) (s : ℤ) (x : ℚ) : ℚ :=
  match S.shape with
  | .asymmetric => x
  | .central => (s : ℚ) * x
  | .symmetric => S.x_origin_ + (s : ℚ) * x

/-- The member `sample_outer(g, x)` of the three categories: the boolean
returned, the value left in `x` and the position of the next unread draw.  For
`bounded` (never called) the body is `return false`. -/
def Sampler.sample_outer (S : Sampler) (R : RngType) (draws : Nat → Nat)
    (pos : Nat) : Option (Bool × ℚ × Nat) :=
  match S.cat with
  | .bounded => some (false, 0, pos)
  | .composite =>
    match S.outer_dist_ draws pos with
    | none => none
    | some (x, pos1) => some (true, x, pos1)
  | .rejection_composite =>
    match generate_random_real S.digits R S.real_bits S.W draws pos with
    | none => none
    | some (r, pos1) =>
      match S.outer_dist_ draws pos1 with
      | none => none
      | some (x, pos2) => some (decide (r * S.outer_func_ x ≤ S.func_ x), x, pos2)

/-- The points of the body of the loop of `operator()` that a pass goes
through: the integer draw, the first `return`, the call of `sample_outer`, the
second `return`, a rejected outer sample, the draw of `v` for the wedge, the
third `return`, and the end of the body after a failed wedge test. -/
inductive SamplerState where
  | draw
  | fast_accept
  | route_outer
  | outer_accept
  | outer_reject
  | wedge
  | wedge_accept
  | wedge_reject
  deriving DecidableEq, Repr

/-- What one pass through the body of the loop of `operator()` leaves: the
points it went through, the integer `r` drawn, the abscissa last formed (the
operand `x_[i] + d.scaled_dx*u` of the first `return`, or the local `x`), the
value returned if the pass returns, and the position of the next unread
draw. -/
structure Attempt where
  states : List SamplerState
  r : Nat
  x : ℚ
  value : Option ℚ
  pos : Nat
  deriving Repr

/-- The last part of the body of the loop of `operator()`: the wedge. -/
def Sampler.wedge (S : Sampler) (R : RngType) (draws : Nat → Nat) (r : Nat)
    (states : List SamplerState) (pos : Nat) : Option Attempt :=
  match generate_random_real S.digits R S.real_bits S.W draws pos with
  | none => none
  | some (v, pos1) =>
    let u := S.mantissa r
    let i := S.index r
    let d := S.data_.getD i ⟨0, 0, 0⟩
    let x := S.x_.getD i 0 + v * (S.x_.getD (i + 1) 0 - S.x_.getD i 0)
    if (u : ℚ) * d.scaled_fsup < S.wedge_density x then
      some { states := states ++ [.wedge, .wedge_accept], r := r, x := x,
             value := some (S.wedge_value (S.sign r) x), pos := pos1 }
    else
      some { states := states ++ [.wedge, .wedge_reject], r := r, x := x,
             value := none, pos := pos1 }

/-- One pass through the body of the loop `while (true)` of `operator()`;
`none` when a call it makes gives no value. -/
def Sampler.attempt (S : Sampler) (R : RngType) (draws : Nat → Nat) (pos : Nat) :
    Option Attempt :=
  match generate_random_integer R S.bits S.W draws pos with
  | none => none
  | some (r, pos1) =>
    let u := S.mantissa r
    let i := S.index r
    let d := S.data_.getD i ⟨0, 0, 0⟩
    if u < d.scaled_fratio then
      some { states := [.draw, .fast_accept], r := r,
             x := S.x_.getD i 0 + d.scaled_dx * (u : ℚ),
             value := some (S.fast_value (S.sign r) i u), pos := pos1 }
    else if S.cat.HasOuter = true ∧ S.outer_switch_ ≤ u then
      match S.sample_outer R draws pos1 with
      | none => none
      | some (acceptance, x, pos2) =>
        if S.cat.HasRejection = false ∨ acceptance = true then
          some { states := [.draw, .route_outer, .outer_accept], r := r, x := x,
                 value := some (S.outer_value (S.sign r) x), pos := pos2 }
        else
          S.wedge R draws r [.draw, .route_outer, .outer_reject] pos2
    else
      S.wedge R draws r [.draw] pos1

/-- The function `operator()(g)`: the value returned and the position of the
next unread draw.  `fuel` bounds the number of passes through the loop; `none`
when it is exhausted or when a call gives no value. -/
def Sampler.sample (S : Sampler) (R : RngType) (draws : Nat → Nat) :
    Nat → Nat → Option (ℚ × Nat)
  | 0, _ => none
  | fuel + 1, pos =>
    match S.attempt R draws pos with
    | none => none
    | some a =>
      match a.value with
      | some v => some (v, a.pos)
      | none => S.sample R draws fuel a.pos

/-- The member `min()` of the three shapes. -/
def Sampler.min (S : Sampler) : ℚ :=
  let front := S.x_.getD 0 0
  let back := S.x_.getD (S.x_.length - 1) 0
  match S.shape with
  | .asymmetric =>
    let m := Min.min front back
    if S.cat.HasOuter then Min.min m S.outer_min else m
  | .central =>
    let m := Min.min (Min.min front back) (-(Max.max front back))
    if S.cat.HasOuter then Min.min m (Min.min S.outer_min (-S.outer_max)) else m
  | .symmetric =>
    let m := Min.min (S.x_origin_ + Min.min front back) (S.x_origin_ - Max.max front back)
    if S.cat.HasOuter then
      Min.min m (Min.min S.outer_min (2 * S.x_origin_ - S.outer_max))
    else m

/-- The member `max()` of the three shapes. -/
def Sampler.max (S : Sampler) : ℚ :=
  let front := S.x_.getD 0 0
  let back := S.x_.getD (S.x_.length - 1) 0
  match S.shape with
  | .asymmetric =>
    let m := Max.max front back
    if S.cat.HasOuter then Max.max m S.outer_max else m
  | .central =>
    let m := Max.max (-(Min.min front back)) (Max.max front back)
    if S.cat.HasOuter then Max.max m (Max.max S.outer_max (-S.outer_min)) else m
  | .symmetric =>
    let m := Max.max (S.x_origin_ - Min.min front back) (S.x_origin_ + Max.max front back)
    if S.cat.HasOuter then
      Max.max m (Max.max S.outer_max (2 * S.x_origin_ - S.outer_min))
    else m

/-- The origin passed to `build` by the constructor of the distribution:
`x0` for `symmetric_distribution`, `0.0` for the other two. -/
def Sampler.build_origin (S : Sampler) : ℚ :=
  match S.shape with
  | .asymmetric => 0
  | .central => 0
  | .symmetric => S.x_origin_

/-! ## `util.hpp` : the trapezoidal pre-partition -/

/-- The loop `while (a>ar)` of `trapezoidal_rule_prepartition`, on the state
`(i, al, ar)`.  Reading `y[i+1]` outside `y` is `out_of_range`; `fuel` bounds
the number of passes. -/
def prepartition_advance (y : List ℚ) (a : ℚ) :
    Nat → Nat → ℚ → ℚ → Except Fault (Nat × ℚ × ℚ)
  | 0, _, _, _ => .error .out_of_fuel
  | fuel + 1, i, al, ar =>
    if a > ar then
      if i + 2 < y.length then
        prepartition_advance y a fuel (i + 1) ar
          (ar + 1 / 2 * (y.getD (i + 1) 0 + y.getD (i + 2) 0))
      else .error .out_of_range
    else .ok (i, al, ar)

/-- The loop `for (j=1; j!=m; ++j)` of `trapezoidal_rule_prepartition` with
`k` passes left, on the state `(i, al, ar)`: the values given to `xp[j]`,
`xp[j+1]`, … in this order. -/
def prepartition_loop (x y : List ℚ) (s : ℚ) (m : Nat) :
    Nat → Nat → Nat → ℚ → ℚ → Except Fault (List ℚ)
  | 0, _, _, _, _ => .ok []
  | k + 1, j, i, al, ar =>
    let a := s * ((j : ℚ) / (m : ℚ))
    match prepartition_advance y a y.length i al ar with
    | .error e => .error e
    | .ok (i1, al1, ar1) =>
      match prepartition_loop x y s m k (j + 1) i1 al1 ar1 with
      | .error e => .error e
      | .ok rest =>
        .ok ((x.getD i1 0 + (x.getD (i1 + 1) 0 - x.getD i1 0) * ((a - al1) / (ar1 - al1)))
          :: rest)

/-- The grid `x` of `trapezoidal_rule_prepartition`. -/
def prepartition_grid (x0 x1 : ℚ) (n : Nat) : List ℚ :=
  let dx := (x1 - x0) / ((n - 1 : Nat) : ℚ)
  (List.range (n - 1)).map (fun (i : Nat) => x0 + (i : ℚ) * dx) ++ [x1]

/-- The value of `s` ("total area, scaled by 1/dx") of
`trapezoidal_rule_prepartition`: the loop runs over `i = 1, …, n-3`. -/
def prepartition_total (y : List ℚ) (n : Nat) : ℚ :=
  (List.range' 1 (n - 3)).foldl (fun s i => s + y.getD i 0)
    (1 / 2 * (y.getD 0 0 + y.getD (n - 1) 0))

/-- The function `trapezoidal_rule_prepartition(f, x0, x1, nb_intervals,
nb_points)`.  With fewer than three grid points the loops read outside `y`,
and with no interval the loop over `j` does not stop before it writes outside
`xp`: `out_of_range`. -/
def trapezoidal_rule_prepartition (f : ℚ → ℚ) (x0 x1 : ℚ)
    (nb_intervals nb_points : Nat) : Except Fault (List ℚ) :=
  let n := nb_points
  let m := nb_intervals
  if n < 3 ∨ m = 0 then .error .out_of_range
  else
    let x := prepartition_grid x0 x1 n
    let y := x.map f
    let s := prepartition_total y n
    match prepartition_loop x y s m (m - 1) 1 0 0 (1 / 2 * (y.getD 0 0 + y.getD 1 0)) with
    | .error e => .error e
    | .ok inner => .ok (x0 :: inner ++ [x1])

/-! ## `util.hpp` : the Weibull density -/

/-- The members of `weibull_pdf`.  The functions `std::pow`, `std::exp` of its
methods are the real power and exponential, so `RealType` is `ℝ` here. -/
structure weibull_pdf where
  a_ : ℝ
  inv_b_ : ℝ
  c_ : ℝ
  s_ : ℝ

/-- The constructor `weibull_pdf(a, b, c, w)`. -/
noncomputable def weibull_pdf.construct (a b c w : ℝ) : weibull_pdf :=
  { a_ := a, inv_b_ := 1 / b, c_ := c, s_ := w * |a / b| }

/-- The member `operator()(x)` of `weibull_pdf`. -/
noncomputable def weibull_pdf.value (p : weibull_pdf) (x : ℝ) : ℝ :=
  let y := (x - p.c_) * p.inv_b_
  if y < 0 then 0
  else
    let z := y ^ (p.a_ - 1)
    p.s_ * z * Real.exp (-y * z)

/-- The member `total_area()` of `weibull_pdf`. -/
noncomputable def weibull_pdf.total_area (p : weibull_pdf) : ℝ :=
  p.s_ / |p.a_ * p.inv_b_|

/-- The member `tail_area(x0)` of `weibull_pdf`. -/
noncomputable def weibull_pdf.tail_area (p : weibull_pdf) (x0 : ℝ) : ℝ :=
  let z0 := ((x0 - p.c_) * p.inv_b_) ^ p.a_
  p.s_ * Real.exp (-z0) / (p.a_ * p.inv_b_)

/-! ## `benchmark/collision.cpp` : the Poisson p-value -/

/-- The function `right_pvalue(mean, k)`; the loop runs over `i = 1, …, k-1`
on the state `(s, p)`.  `std::exp` and `std::log` are the real exponential and
logarithm, so `RealType` is `ℝ` here. -/
noncomputable def right_pvalue (mean : ℝ) (k : Nat) : ℝ :=
  let sp := (List.range' 1 (k - 1)).foldl
    (fun (sp : ℝ × ℝ) (i : Nat) =>
      let s := sp.1 + Real.log (mean / (i : ℝ))
      (s, sp.2 + Real.exp (-mean + s)))
    (0, Real.exp (-mean))
  1 - (if sp.2 ≤ 1 then sp.2 else 1)

/-! ## Notions used in the statements on `builder::build` -/

/-- The cumulative trapezoidal area `C(x)` of `f` over the regular grid of `n`
points from `x0` to `x1`, linear inside each grid cell: cell `i` contributes
its trapeze up to `x`. -/
def cumulative_trapezoidal_area (f : ℚ → ℚ) (x0 x1 : ℚ) (n : Nat) (x : ℚ) : ℚ :=
  ∑ i in Finset.range (n - 1),
    (min (max x ((prepartition_grid x0 x1 n).getD i 0))
        ((prepartition_grid x0 x1 n).getD (i + 1) 0)
      - (prepartition_grid x0 x1 n).getD i 0)
    * ((f ((prepartition_grid x0 x1 n).getD i 0)
        + f ((prepartition_grid x0 x1 n).getD (i + 1) 0)) / 2)

/-! ## Notions used in the statements on `random_digits.hpp` -/

/-- The concatenation of `q` draws of `K` bits each, read from position `pos`
on, the first one in the most significant position, followed by the top `m`
bits of the next draw when `m > 0`. -/
def concatenate_draws (K : Nat) (draws : Nat → Nat) : Nat → Nat → Nat → Nat
  | pos, 0, m => if m = 0 then 0 else draws pos >>> (K - m)
  | pos, q + 1, m => draws pos * 2 ^ (q * K + m) + concatenate_draws K draws (pos + 1) q m

/-! ## Notions used in the statements on the samplers -/

/-- The transform that a shape applies to an abscissa `x` given in the
caller's coordinates, with the sign `s` and the origin of the symmetric
shape. -/
def shape_transform (shape : Shape) (origin : ℚ) (s : ℤ) (x : ℚ) : ℚ :=
  match shape with
  | .asymmetric => x
  | .central => (s : ℚ) * x
  | .symmetric => origin + (s : ℚ) * (x - origin)

/-- The abscissa of a pass in the caller's coordinates: the outer sample as it
is, an abscissa formed from the table moved back by the origin that `build`
subtracted from the breakpoints. -/
def Sampler.caller_abscissa (S : Sampler) (a : Attempt) : ℚ :=
  if a.states.getLast? = some .outer_accept then a.x else a.x + S.build_origin

/-! ## Example inputs for the samplers -/

/-- An asymmetric rejection-composite sampler with `W = 8`, `N = 1` over the
breakpoints `[0, 1, 2]`: its table is the one `build` makes from `finf = 1/2`,
`fsup = 1` and the outer area `2`.  The target density is the constant `1/2`,
the outer distribution returns `3` without reading a draw, and the outer
density is the constant `1`. -/
def example_sampler : Sampler :=
  { W := 8, N := 1, bits := 16, digits := 53, real_bits := 64
    shape := .asymmetric, cat := .rejection_composite
    x_ := [0, 1, 2]
    data_ := [{ scaled_fratio := 32, scaled_fsup := 1 / 64, scaled_dx := 1 / 32 },
              { scaled_fratio := 32, scaled_fsup := 1 / 64, scaled_dx := 1 / 32 }]
    outer_switch_ := 64
    x_origin_ := 0
    func_ := fun _ => 1 / 2
    outer_dist_ := fun _ pos => some (3, pos)
    outer_min := 3
    outer_max := 3
    outer_func_ := fun _ => 1 }

/-- A stream of draws of an 8-bit generator that starts with `127`, `200`,
`77` (and continues with zeros). -/
def example_draws : Nat → Nat :=
  fun i => [127, 200, 77].getD i 0

/-! ## `util.hpp` : the loops with every access checked -/

/-- The value of `m - 2` in `size_type` (the start of the loop
`for (size_type i=m-2; ; --i)` of `solve_tridiagonal_system`, and the bound
`n-2` of the loop that accumulates the total area in
`trapezoidal_rule_prepartition`). -/
def size_minus_two (m : Nat) : Nat :=
  (m + (2 ^ size_t_bits - 2)) % 2 ^ size_t_bits

/-- The loop `for (size_type i=m-2; ; --i)` of `solve_tridiagonal_system` on
the state `(i, sol)`, with every access `sol[i]`, `rhs[i]`, `c[i]`, `b[i]`,
`sol[i+1]` checked against the size of its vector: an access outside a vector
is `out_of_range`.  `fuel` bounds the number of passes. -/
def back_substitution_loop (b c rhs : List ℚ) :
    Nat → Nat → List ℚ → Except Fault (List ℚ)
  | 0, _, _ => .error .out_of_fuel
  | fuel + 1, i, sol =>
    if i < sol.length ∧ i < rhs.length ∧ i < c.length ∧ i < b.length ∧
        (i + 1) % 2 ^ size_t_bits < sol.length then
      if i = 0 then
        .ok (sol.set i
          ((rhs.getD i 0 - c.getD i 0 * sol.getD ((i + 1) % 2 ^ size_t_bits) 0)
            / b.getD i 0))
      else
        back_substitution_loop b c rhs fuel (i - 1)
          (sol.set i
            ((rhs.getD i 0 - c.getD i 0 * sol.getD ((i + 1) % 2 ^ size_t_bits) 0)
              / b.getD i 0))
    else .error .out_of_range

/-- The loop `for (size_type i=1; i!=(n-2); ++i) s += y[i]` of
`trapezoidal_rule_prepartition` on the state `(i, s)`, `stop` being the value
of `n-2` in `size_type`, with the access `y[i]` checked against the size of
`y`.  `fuel` bounds the number of passes. -/
def prepartition_total_loop (y : List ℚ) (stop : Nat) :
    Nat → Nat → ℚ → Except Fault ℚ
  | 0, _, _ => .error .out_of_fuel
  | fuel + 1, i, s =>
    if i = stop then .ok s
    else if i < y.length then
      prepartition_total_loop y stop fuel ((i + 1) % 2 ^ size_t_bits) (s + y.getD i 0)
    else .error .out_of_range

/-! ## `benchmark/etf_normal.hpp` : the tail position -/

/-- The array `magic_xtail` of the branch `N==7 && W>=11` of the constructor
of `EtfNormalDistribution`. -/
def magic_xtail_7 : List ℚ :=
  [1532095304 / 10 ^ 9, 1859950459 / 10 ^ 9, 2150455371 / 10 ^ 9, 2413614185 / 10 ^ 9,
   2655703474 / 10 ^ 9, 2880953316 / 10 ^ 9, 3092363645 / 10 ^ 9, 3292145211 / 10 ^ 9]

/-- The array `magic_xtail` of the branch `N==8 && W>=12` of the constructor
of `EtfNormalDistribution`. -/
def magic_xtail_8 : List ℚ :=
  [1533103263 / 10 ^ 9, 1861331463 / 10 ^ 9, 2152146391 / 10 ^ 9, 2415553089 / 10 ^ 9,
   2657829951 / 10 ^ 9, 2883210552 / 10 ^ 9, 3094702254 / 10 ^ 9, 3294526271 / 10 ^ 9]

/-- The index with which the constructor of `EtfNormalDistribution<RealType,
W, N>` reads `magic_xtail`: `std::min(W - 11, N)` in the first branch,
`std::min(W - 12, N)` in the second, no look-up in the third. -/
def EtfNormalDistribution.xtail_index (W N : Nat) : Option Nat :=
  if N = 7 ∧ W ≥ 11 then some (min (W - 11) N)
  else if N = 8 ∧ W ≥ 12 then some (min (W - 12) N)
  else none

/-- The value given to the local `xtail` by the constructor of
`EtfNormalDistribution<RealType, W, N>`; a look-up outside `magic_xtail` is
`out_of_range`. -/
def EtfNormalDistribution.xtail (W N : Nat) : Except Fault ℚ :=
  if N = 7 ∧ W ≥ 11 then
    match magic_xtail_7[min (W - 11) N]? with
    | some v => .ok v
    | none => .error .out_of_range
  else if N = 8 ∧ W ≥ 12 then
    match magic_xtail_8[min (W - 12) N]? with
    | some v => .ok v
    | none => .error .out_of_range
  else .ok (13 / 4)

/-! ## Notions used in the statements on the sign bit -/

/-- The mirror image of a returned value: `-v` for the central shape,
`2*origin - v` for the symmetric shape (the asymmetric shape has none). -/
def Sampler.mirror (S : Sampler) (v : ℚ) : ℚ :=
  match S.shape with
  | .asymmetric => v
  | .central => -v
  | .symmetric => 2 * S.x_origin_ - v

/-- Two `W`-bit integers that differ in bit `W - 1` and in no other bit. -/
def differ_in_sign_bit (W r1 r2 : Nat) : Prop :=
  r1 < 2 ^ W ∧ r2 < 2 ^ W ∧ r1 % 2 ^ (W - 1) = r2 % 2 ^ (W - 1) ∧
    r1 / 2 ^ (W - 1) ≠ r2 / 2 ^ (W - 1)

/-- Two streams of draws that are equal from position `pos` on. -/
def draws_agree_from (pos : Nat) (d1 d2 : Nat → Nat) : Prop :=
  ∀ i, pos ≤ i → d1 i = d2 i

/-- The pass that mirrors the pass `a`: the integer drawn is `r`, the value
returned (if any) is the mirror image, the rest is the same. -/
def Sampler.mirror_attempt (S : Sampler) (r : Nat) (a : Attempt) : Attempt :=
  { a with r := r, value := a.value.map S.mirror }

/-- An outer distribution that reads the stream of draws from the position it is
given on only, and does not move the position backwards. -/
def Sampler.outer_reads_forward (S : Sampler) : Prop :=
  (∀ d1 d2 pos, draws_agree_from pos d1 d2 → S.outer_dist_ d1 pos = S.outer_dist_ d2 pos) ∧
  ∀ d pos x pos1, S.outer_dist_ d pos = some (x, pos1) → pos ≤ pos1

/-! ## Example inputs for the sign bit -/

/-- A central bounded sampler with `W = 8`, `N = 1` over the breakpoints
`0, 1, 2`: the table that `build` makes from `finf = 1/2`, `fsup = 1`, with the
constant target `1/2`. -/
def central_example : Sampler :=
  { W := 8, N := 1, bits := 16, digits := 53, real_bits := 64
    shape := .central, cat := .bounded
    x_ := [0, 1, 2]
    data_ := [⟨32, 1 / 64, 1 / 32⟩, ⟨32, 1 / 64, 1 / 32⟩]
    outer_switch_ := 64
    x_origin_ := 0
    func_ := fun _ => 1 / 2
    outer_dist_ := fun _ pos => some (0, pos)
    outer_min := 0
    outer_max := 0
    outer_func_ := fun _ => 0 }

/-- The stream of draws `first, 77, 3, 0, 0, …`. -/
def sign_draws (first : Nat) : Nat → Nat :=
  fun i => [first, 77, 3].getD i 0

/-! ## `implementation.hpp` : `build` in a floating-point `RealType` -/

/-- Rounding of a real to the nearest integer, halfway cases to the even
integer (the rounding of the significand in the default rounding mode). -/
def round_half_even (m : ℚ) : ℤ :=
  if m - (⌊m⌋ : ℚ) < 1 / 2 then ⌊m⌋
  else if 1 / 2 < m - (⌊m⌋ : ℚ) then ⌊m⌋ + 1
  else if ⌊m⌋ % 2 = 0 then ⌊m⌋
  else ⌊m⌋ + 1

/-- The value of a binary floating-point type with `p` significand digits
(`std::numeric_limits<RealType>::digits`; 53 for `double`, 24 for `float`)
nearest to `q`, halfway cases to even: the result of an arithmetic operation
whose exact result is `q`.  The exponent range is not bounded (no overflow, no
subnormal values). -/
def round_to_digits (p : Nat) (q : ℚ) : ℚ :=
  if q = 0 then 0
  else
    (if q < 0 then -1 else 1) *
      ((round_half_even (|q| / (2 : ℚ) ^ (Int.log 2 |q| - ((p : ℤ) - 1))) : ℤ) : ℚ) *
      (2 : ℚ) ^ (Int.log 2 |q| - ((p : ℤ) - 1))

/-- The loop of `build` that accumulates `upper_quadrature_area`, each
operation of `RealType` rounding its exact result with `fl`. -/
def upper_quadrature_area_rounded (fl : ℚ → ℚ) (n : Nat) (x : List ℚ) (fsup : Nat → ℚ) : ℚ :=
  (List.range n).foldl
    (fun acc i => fl (acc + fl (fl (x.getD (i + 1) 0 - x.getD i 0) * fsup i))) 0

/-- The value given to the local variable `outer_switch` of `build`, each
operation of `RealType` rounding its exact result with `fl`. -/
def compute_outer_switch_rounded (fl : ℚ → ℚ) (W N : Nat) (shape : Shape) (cat : Category)
    (x : List ℚ) (fsup : Nat → ℚ) (outer_area : ℚ) : Nat :=
  let S := if shape.IsSymmetric then 1 else 0
  let n := 2 ^ N
  if cat.HasOuter then
    let area := upper_quadrature_area_rounded fl n x fsup
    Int.toNat (std_round (fl (fl ((2 ^ (W - N - S) : Nat) : ℚ) *
      fl (area / fl (outer_area + area)))))
  else
    2 ^ (W - N - S)

/-- The body of the last loop of `build` ("Compute the tables") for interval
`i`, each operation of `RealType` rounding its exact result with `fl`; the
conversions of `outer_switch` and of `scaled_fratio` to `RealType` round
too. -/
def build_datum_rounded (fl : ℚ → ℚ) (outer_switch : Nat) (x : List ℚ)
    (finf fsup : Nat → ℚ) (i : Nat) : Datum :=
  let fratio := fl (finf i / fsup i)
  let scaled_fratio :=
    if (1 : ℚ) / 2 ≤ fratio then to_uint (fl (fratio * fl (outer_switch : ℚ))) else 0
  { scaled_fratio := scaled_fratio
    scaled_fsup := fl (fsup i / fl (outer_switch : ℚ))
    scaled_dx := fl (fl (x.getD (i + 1) 0 - x.getD i 0) / fl (scaled_fratio : ℚ)) }

/-- The function `builder::build`, each operation of `RealType` rounding its
exact result with `fl`.  With `fl` the identity this is `build`. -/
def build_rounded (fl : ℚ → ℚ) (W N : Nat) (shape : Shape) (cat : Category) (x_origin : ℚ)
    (xs : List ℚ) (finf fsup : Nat → ℚ) (outer_area : ℚ) :
    Except BuildError Table :=
  let n := 2 ^ N
  if xs.length ≠ n + 1 then
    .error .invalid_table_size
  else
    let x := if x_origin ≠ 0 then xs.map (fun v => fl (v - x_origin)) else xs
    let outer_switch := compute_outer_switch_rounded fl W N shape cat x fsup outer_area
    .ok { x_ := x
          data_ := (List.range n).map (build_datum_rounded fl outer_switch x finf fsup)
          outer_switch := outer_switch }

/-! ## Theorems on `builder::build` -/

theorem to_uint_cast_le (q : ℚ) (hq : 0 ≤ q) : ((to_uint q : Nat) : ℚ) ≤ q := by
  unfold to_uint
  have h0 : (0 : ℤ) ≤ ⌊q⌋ := Int.floor_nonneg.mpr hq
  have h1 : ((Int.toNat ⌊q⌋ : Nat) : ℤ) = ⌊q⌋ := Int.toNat_of_nonneg h0
  have h2 : ((Int.toNat ⌊q⌋ : Nat) : ℚ) = ((⌊q⌋ : ℤ) : ℚ) := by
    rw [← Int.cast_natCast, h1]
  rw [h2]
  exact Int.floor_le q

theorem build_datum_rectangle_le (os : Nat) (x : List ℚ) (finf fsup : Nat → ℚ) (i : Nat)
    (h0 : 0 ≤ finf i) (hs : 0 < fsup i) (hos : 0 < os) :
    ((build_datum os x finf fsup i).scaled_fratio : ℚ)
      * (build_datum os x finf fsup i).scaled_fsup ≤ finf i := by
  simp only [build_datum]
  have hosq : (0 : ℚ) < (os : ℚ) := by exact_mod_cast hos
  split_ifs with h
  · have hq : 0 ≤ finf i / fsup i * (os : ℚ) :=
      mul_nonneg (div_nonneg h0 hs.le) hosq.le
    have h1 := to_uint_cast_le _ hq
    have h2 : 0 ≤ fsup i / (os : ℚ) := div_nonneg hs.le hosq.le
    calc ((to_uint (finf i / fsup i * (os : ℚ)) : Nat) : ℚ) * (fsup i / (os : ℚ))
        ≤ (finf i / fsup i * (os : ℚ)) * (fsup i / (os : ℚ)) :=
          mul_le_mul_of_nonneg_right h1 h2
      _ = finf i := by field_simp
  · simpa using h0

theorem build_ok (W N : Nat) (shape : Shape) (cat : Category) (x_origin : ℚ)
    (xs : List ℚ) (finf fsup : Nat → ℚ) (outer_area : ℚ)
    (hlen : xs.length = 2 ^ N + 1) :
    build W N shape cat x_origin xs finf fsup outer_area =
      .ok { x_ := if x_origin ≠ 0 then xs.map (fun v => v - x_origin) else xs
            data_ := (List.range (2 ^ N)).map
              (build_datum (compute_outer_switch W N shape cat
                (if x_origin ≠ 0 then xs.map (fun v => v - x_origin) else xs) fsup outer_area)
                (if x_origin ≠ 0 then xs.map (fun v => v - x_origin) else xs) finf fsup)
            outer_switch := compute_outer_switch W N shape cat
                (if x_origin ≠ 0 then xs.map (fun v => v - x_origin) else xs) fsup outer_area } := by
  simp [build, hlen]

theorem range_map_getElem? {α : Type} (g : Nat → α) (n i : Nat) (hi : i < n) :
    ((List.range n).map g)[i]? = some (g i) := by
  simp [List.getElem?_map, List.getElem?_range hi]

/-- C1: `builder::build`, and with it every constructor of `distribution`,
`central_distribution` and `symmetric_distribution`, throws
`invalid_table_size` if and only if the number of breakpoints differs from
`2^N + 1`. -/
theorem build_invalid_table_size_iff (W N : Nat) (shape : Shape) (cat : Category)
    (x_origin : ℚ) (xs : List ℚ) (finf fsup : Nat → ℚ) (outer_area : ℚ) :
    (build W N shape cat x_origin xs finf fsup outer_area = .error .invalid_table_size
        ↔ xs.length ≠ 2 ^ N + 1) ∧
    (distribution W N cat xs finf fsup outer_area = .error .invalid_table_size
        ↔ xs.length ≠ 2 ^ N + 1) ∧
    (central_distribution W N cat xs finf fsup outer_area = .error .invalid_table_size
        ↔ xs.length ≠ 2 ^ N + 1) ∧
    (symmetric_distribution W N cat x_origin xs finf fsup outer_area
        = .error .invalid_table_size ↔ xs.length ≠ 2 ^ N + 1) := by
  have key : ∀ (sh : Shape) (x0 oa : ℚ),
      build W N sh cat x0 xs finf fsup oa = .error .invalid_table_size
        ↔ xs.length ≠ 2 ^ N + 1 := by
    intro sh x0 oa
    by_cases h : xs.length = 2 ^ N + 1
    · rw [build_ok W N sh cat x0 xs finf fsup oa h]
      simp [h]
    · simp [build, h]
  exact ⟨key _ _ _, key _ _ _, key _ _ _, key _ _ _⟩

/-- C2 (no false accept): for a table of the right size and an interval `i`
with `fsup[i] > 0` and `0 ≤ finf[i] ≤ fsup[i]`, `build` succeeds and, when the
outer switch is positive, the fast-path rectangle of the record `i` does not
exceed the infimum: `scaled_fratio[i] * scaled_fsup[i] ≤ finf[i]`. -/
theorem build_no_false_accept (W N : Nat) (shape : Shape) (cat : Category)
    (x_origin : ℚ) (xs : List ℚ) (finf fsup : Nat → ℚ) (outer_area : ℚ)
    (hlen : xs.length = 2 ^ N + 1) (i : Nat) (hi : i < 2 ^ N)
    (hsup : 0 < fsup i) (hinf : 0 ≤ finf i) (_hle : finf i ≤ fsup i) :
    ∃ t d, build W N shape cat x_origin xs finf fsup outer_area = .ok t ∧
      t.data_[i]? = some d ∧
      (0 < t.outer_switch → (d.scaled_fratio : ℚ) * d.scaled_fsup ≤ finf i) := by
  refine ⟨_, _, build_ok W N shape cat x_origin xs finf fsup outer_area hlen,
    range_map_getElem? _ _ _ hi, ?_⟩
  intro hos
  exact build_datum_rectangle_le _ _ finf fsup i hinf hsup hos

theorem build_no_false_accept_witness :
    ∃ t d, build 8 1 .asymmetric .bounded 0 [0, 1, 2] (fun _ => 3 / 4) (fun _ => 1) 0 = .ok t ∧
      t.data_[1]? = some d ∧
      (0 < t.outer_switch → (d.scaled_fratio : ℚ) * d.scaled_fsup ≤ (fun _ => (3 : ℚ) / 4) 1) :=
  build_no_false_accept 8 1 .asymmetric .bounded 0 [0, 1, 2] (fun _ => 3 / 4) (fun _ => 1) 0
    (by decide) 1 (by decide) (by norm_num) (by norm_num) (by norm_num)

theorem is_power_of_2_less_1_aux_iff (fuel : Nat) :
    ∀ v : Nat, v ≤ fuel →
      (is_power_of_2_less_1_aux fuel v = true ↔ ∃ k, 1 ≤ k ∧ v = 2 ^ k - 1) := by
  induction fuel with
  | zero =>
    intro v hv
    have hv0 : v = 0 := by omega
    subst hv0
    simp only [is_power_of_2_less_1_aux]
    constructor
    · intro h; simp at h
    · rintro ⟨k, hk, h⟩
      have : 2 ≤ 2 ^ k := by
        calc 2 = 2 ^ 1 := by norm_num
          _ ≤ 2 ^ k := Nat.pow_le_pow_right (by norm_num) hk
      omega
  | succ fuel ih =>
    intro v hv
    simp only [is_power_of_2_less_1_aux]
    by_cases h1 : v = 1
    · simp only [h1, if_true, true_iff]
      exact ⟨1, le_refl 1, by norm_num⟩
    · simp only [h1, if_false, Nat.and_one_is_mod]
      by_cases h2 : v % 2 = 0
      · simp only [h2, if_true]
        constructor
        · intro h; simp at h
        · rintro ⟨k, hk, h⟩
          obtain ⟨j, rfl⟩ : ∃ j, k = j + 1 := ⟨k - 1, by omega⟩
          have hp : 0 < 2 ^ j := Nat.pow_pos (by norm_num)
          rw [pow_succ] at h
          omega
      · simp only [h2, if_false, Nat.shiftRight_eq_div_pow, pow_one]
        rw [ih (v / 2) (by omega)]
        constructor
        · rintro ⟨k, hk, h⟩
          refine ⟨k + 1, by omega, ?_⟩
          have hp : 0 < 2 ^ k := Nat.pow_pos (by norm_num)
          rw [pow_succ]
          omega
        · rintro ⟨k, hk, h⟩
          obtain ⟨j, rfl⟩ : ∃ j, k = j + 1 := ⟨k - 1, by omega⟩
          have hp : 0 < 2 ^ j := Nat.pow_pos (by norm_num)
          rw [pow_succ] at h
          refine ⟨j, ?_, by omega⟩
          by_contra hj
          have hj0 : j = 0 := by omega
          subst hj0
          simp at h
          exact h1 h

theorem is_power_of_2_less_1_iff (v : Nat) :
    is_power_of_2_less_1 v = true ↔ ∃ k, 1 ≤ k ∧ v = 2 ^ k - 1 :=
  is_power_of_2_less_1_aux_iff v v (le_refl v)

theorem or_one_eq (n : Nat) : n ||| 1 = if n % 2 = 0 then n + 1 else n := by
  have h := Nat.mul_add_lt_is_or (i := 1) (b := 1) (by norm_num) (n / 2)
  rw [pow_one] at h
  split_ifs with h2
  · have : 2 * (n / 2) = n := by omega
    rw [this] at h
    exact h.symm
  · have e : n = 2 * (n / 2) + 1 := by omega
    have h3 : (2 * (n / 2) ||| 1) ||| 1 = 2 * (n / 2) ||| 1 := by
      rw [Nat.or_assoc, Nat.or_self]
    rw [← h] at h3
    rw [← e] at h3
    exact h3

theorem check_rng_range_accepts (R : RngType) :
    check_rng_range R = true ↔
      (R.min = 0 ∨ R.min = 1) ∧ ∃ K, 1 ≤ K ∧ (R.max = 2 ^ K - 1 ∨ R.max = 2 ^ K - 2) := by
  simp only [check_rng_range, Bool.and_eq_true, Bool.or_eq_true, beq_iff_eq,
    is_power_of_2_less_1_iff, or_one_eq]
  apply and_congr Iff.rfl
  constructor
  · rintro (⟨k, hk, h⟩ | ⟨k, hk, h⟩)
    · exact ⟨k, hk, Or.inl h⟩
    · split_ifs at h with h2
      · exact ⟨k, hk, Or.inr (by omega)⟩
      · exact ⟨k, hk, Or.inl h⟩
  · rintro ⟨k, hk, h | h⟩
    · exact Or.inl ⟨k, hk, h⟩
    · right
      refine ⟨k, hk, ?_⟩
      obtain ⟨j, rfl⟩ : ∃ j, k = j + 1 := ⟨k - 1, by omega⟩
      have hp : 0 < 2 ^ j := Nat.pow_pos (by norm_num)
      rw [pow_succ] at h ⊢
      have h2 : R.max % 2 = 0 := by omega
      rw [if_pos h2]
      omega

/-- C6: `check_rng_range` accepts a generator if and only if its minimum is 0
or 1 and its maximum is `2^K - 1` or `2^K - 2` for some `K ≥ 1`, the helper
`is_power_of_2_less_1(v)` holding exactly when `v = 2^k - 1` for some
`k ≥ 1`. -/
theorem check_rng_range_iff (R : RngType) :
    (check_rng_range R = true ↔
      (R.min = 0 ∨ R.min = 1) ∧ ∃ K, 1 ≤ K ∧ (R.max = 2 ^ K - 1 ∨ R.max = 2 ^ K - 2)) ∧
    (∀ v : Nat, is_power_of_2_less_1 v = true ↔ ∃ k, 1 ≤ k ∧ v = 2 ^ k - 1) :=
  ⟨check_rng_range_accepts R, is_power_of_2_less_1_iff⟩

theorem bit_width_aux_eq (fuel : Nat) :
    ∀ v s k : Nat, v ≤ fuel → v < 2 ^ k → (k ≠ 0 → 2 ^ (k - 1) ≤ v) →
      bit_width_aux fuel v s = s + k := by
  induction fuel with
  | zero =>
    intro v s k hv hlt hge
    have hv0 : v = 0 := by omega
    subst hv0
    have hk : k = 0 := by
      by_contra hk
      have := hge hk
      have hp : 0 < 2 ^ (k - 1) := Nat.pow_pos (by norm_num)
      omega
    subst hk
    simp [bit_width_aux]
  | succ fuel ih =>
    intro v s k hv hlt hge
    simp only [bit_width_aux]
    by_cases h0 : v = 0
    · subst h0
      have hk : k = 0 := by
        by_contra hk
        have := hge hk
        have hp : 0 < 2 ^ (k - 1) := Nat.pow_pos (by norm_num)
        omega
      subst hk
      simp
    · simp only [h0, if_false, Nat.shiftRight_eq_div_pow, pow_one]
      obtain ⟨j, rfl⟩ : ∃ j, k = j + 1 := by
        refine ⟨k - 1, ?_⟩
        have : k ≠ 0 := by
          rintro rfl
          simp at hlt
          exact h0 hlt
        omega
      have hge1 := hge (by omega)
      simp only [Nat.add_sub_cancel] at hge1
      rw [pow_succ] at hlt
      rw [ih (v / 2) (s + 1) j (by omega) (by omega)]
      · omega
      · intro hj
        obtain ⟨i, rfl⟩ : ∃ i, j = i + 1 := ⟨j - 1, by omega⟩
        simp only [Nat.add_sub_cancel]
        rw [pow_succ] at hge1
        omega

theorem rng_digits_full_range (K : Nat) (hK : 1 ≤ K) :
    rng_digits ⟨0, 2 ^ K - 1⟩ = K := by
  unfold rng_digits bit_width
  have hp : 0 < 2 ^ K := Nat.pow_pos (by norm_num)
  rw [bit_width_aux_eq _ _ 0 K (le_refl _) (by simp only [Nat.sub_zero]; omega)]
  · simp
  · intro _
    obtain ⟨j, rfl⟩ : ∃ j, K = j + 1 := ⟨K - 1, by omega⟩
    simp only [Nat.add_sub_cancel, Nat.sub_zero]
    have hp : 0 < 2 ^ j := Nat.pow_pos (by norm_num)
    rw [pow_succ]
    omega

theorem check_rng_range_full_range (K : Nat) (hK : 1 ≤ K) :
    check_rng_range ⟨0, 2 ^ K - 1⟩ = true :=
  (check_rng_range_accepts ⟨0, 2 ^ K - 1⟩).mpr ⟨Or.inl rfl, K, hK, Or.inl rfl⟩

theorem generate_next_succ (N bits : Nat) (draws : Nat → Nat) (fuel P u pos : Nat) :
    generate_next N bits draws (fuel + 1) (P + 1) u pos =
      generate_next N bits draws fuel (P + 1 - min N (P + 1))
        (((u <<< min N (P + 1)) % 2 ^ bits) |||
          ((draws pos % 2 ^ bits) >>> (N - min N (P + 1)))) (pos + 1) := by
  simp only [generate_next]
  by_cases h : N < P + 1
  · have h1 : P + 1 > N := h
    have h2 : ¬ N > P + 1 := by omega
    have h3 : min N (P + 1) = N := by omega
    simp only [h, h1, h2, h3, if_true, if_false, Nat.sub_self]
  · have h1 : ¬ P + 1 > N := h
    have h3 : min N (P + 1) = P + 1 := by omega
    by_cases h2 : N > P + 1
    · simp only [h, h1, h2, h3, if_true, if_false, Nat.sub_self]
    · have h4 : N - (P + 1) = 0 := by omega
      simp only [h, h1, h2, h3, h4, if_false, Nat.sub_self]

theorem random_bits_generate_eq (N bits : Nat) (draws : Nat → Nat) (P pos : Nat)
    (hP : 1 ≤ P) :
    random_bits_generate N bits draws P pos =
      generate_next N bits draws P (P - min N P)
        ((draws pos >>> (N - min N P)) % 2 ^ bits) (pos + 1) := by
  have hP0 : P ≠ 0 := by omega
  simp only [random_bits_generate, hP0, if_false]
  by_cases h : N < P
  · have h1 : P > N := h
    have h2 : ¬ N > P := by omega
    have h3 : min N P = N := by omega
    simp only [h1, h2, h3, if_true, if_false, Nat.sub_self]
  · have h1 : ¬ P > N := h
    have h3 : min N P = P := by omega
    by_cases h2 : N > P
    · simp only [h1, h2, h3, if_true, if_false, Nat.sub_self]
    · have h4 : N - P = 0 := by omega
      simp only [h1, h2, h3, h4, if_false, Nat.sub_self]

theorem shiftRight_lt_two_pow (d K T : Nat) (hd : d < 2 ^ K) (hT : T ≤ K) :
    d >>> (K - T) < 2 ^ T := by
  rw [Nat.shiftRight_eq_div_pow]
  apply Nat.div_lt_of_lt_mul
  rw [← pow_add]
  have : K - T + T = K := by omega
  rw [this]
  exact hd

theorem ceil_div_step (P K : Nat) (hK : 1 ≤ K) (hP : 1 ≤ P) :
    (P - min K P + K - 1) / K + 1 = (P + K - 1) / K := by
  by_cases h : K < P
  · have h3 : min K P = K := by omega
    rw [h3]
    have e : P + K - 1 = (P - K + K - 1) + K := by omega
    rw [e, Nat.add_div_right _ (by omega)]
  · have h3 : min K P = P := by omega
    rw [h3]
    have e1 : (P - P + K - 1) / K = 0 := by
      apply Nat.div_eq_of_lt; omega
    have e2 : (P + K - 1) / K = 1 := by
      have e : P + K - 1 = (P - 1) + K := by omega
      rw [e, Nat.add_div_right _ (by omega), Nat.div_eq_of_lt (by omega)]
    rw [e1, e2]

theorem generate_next_lt (K bits : Nat) (draws : Nat → Nat) (hK : 1 ≤ K)
    (hKb : K ≤ bits) (hd : ∀ i, draws i < 2 ^ K) :
    ∀ fuel P u q pos : Nat, P ≤ fuel → u < 2 ^ q → q + P ≤ bits →
      ∃ k, generate_next K bits draws fuel P u pos = some (k, pos + (P + K - 1) / K)
        ∧ k < 2 ^ (q + P) := by
  intro fuel
  induction fuel with
  | zero =>
    intro P u q pos hP hu _
    have hP0 : P = 0 := by omega
    subst hP0
    refine ⟨u, ?_, by simpa using hu⟩
    have : (K - 1) / K = 0 := Nat.div_eq_of_lt (by omega)
    simp [generate_next, this]
  | succ fuel ih =>
    intro P u q pos hP hu hq
    cases P with
    | zero =>
      refine ⟨u, ?_, by simpa using hu⟩
      have : (K - 1) / K = 0 := Nat.div_eq_of_lt (by omega)
      simp [generate_next, this]
    | succ P =>
      rw [generate_next_succ]
      have hT : min K (P + 1) ≤ K := Nat.min_le_left _ _
      have hT1 : 1 ≤ min K (P + 1) := by omega
      have hu1 : u <<< min K (P + 1) < 2 ^ (q + min K (P + 1)) := by
        rw [Nat.shiftLeft_eq, pow_add]
        exact Nat.mul_lt_mul_of_lt_of_le hu (le_refl _) (Nat.pow_pos (by norm_num))
      have hle : 2 ^ (q + min K (P + 1)) ≤ 2 ^ bits :=
        Nat.pow_le_pow_right (by norm_num) (by omega)
      have hm1 : (u <<< min K (P + 1)) % 2 ^ bits = u <<< min K (P + 1) :=
        Nat.mod_eq_of_lt (lt_of_lt_of_le hu1 hle)
      have hm2 : draws pos % 2 ^ bits = draws pos :=
        Nat.mod_eq_of_lt (lt_of_lt_of_le (hd pos) (Nat.pow_le_pow_right (by norm_num) hKb))
      have hd1 : draws pos >>> (K - min K (P + 1)) < 2 ^ (q + min K (P + 1)) :=
        lt_of_lt_of_le (shiftRight_lt_two_pow _ _ _ (hd pos) hT)
          (Nat.pow_le_pow_right (by norm_num) (by omega))
      rw [hm1, hm2]
      obtain ⟨k, hk, hlt⟩ := ih (P + 1 - min K (P + 1))
        (u <<< min K (P + 1) ||| draws pos >>> (K - min K (P + 1)))
        (q + min K (P + 1)) (pos + 1) (by omega) (Nat.or_lt_two_pow hu1 hd1) (by omega)
      refine ⟨k, ?_, ?_⟩
      · rw [hk]
        have := ceil_div_step (P + 1) K hK (by omega)
        congr 2
        omega
      · have e : q + min K (P + 1) + (P + 1 - min K (P + 1)) = q + (P + 1) := by omega
        rw [e] at hlt
        exact hlt

theorem generate_random_integer_lt_of_digits (R : RngType) (K bits W : Nat)
    (draws : Nat → Nat) (pos : Nat) (hchk : check_rng_range R = true)
    (hdig : rng_digits R = K) (hK : 1 ≤ K) (hW : 1 ≤ W) (hWb : W ≤ bits)
    (hd : ∀ i, draws i < 2 ^ K) :
    ∃ k, generate_random_integer R bits W draws pos
        = some (k, pos + (W + K - 1) / K) ∧ k < 2 ^ W := by
  simp only [generate_random_integer, hchk, if_true, hdig]
  rw [random_bits_generate_eq _ _ _ _ _ hW]
  have hT : min K W ≤ K := Nat.min_le_left _ _
  have h0 : draws pos >>> (K - min K W) < 2 ^ min K W :=
    shiftRight_lt_two_pow _ _ _ (hd pos) hT
  have hm : (draws pos >>> (K - min K W)) % 2 ^ bits = draws pos >>> (K - min K W) :=
    Nat.mod_eq_of_lt (lt_of_lt_of_le h0 (Nat.pow_le_pow_right (by norm_num) (by omega)))
  rw [hm]
  by_cases h : K < W
  · obtain ⟨k, hk, hlt⟩ := generate_next_lt K bits draws hK (by omega) hd W (W - min K W)
      (draws pos >>> (K - min K W)) (min K W) (pos + 1) (by omega) h0 (by omega)
    refine ⟨k, ?_, ?_⟩
    · rw [hk]
      have := ceil_div_step W K hK hW
      congr 2
      omega
    · have e : min K W + (W - min K W) = W := by omega
      rw [e] at hlt
      exact hlt
  · have h3 : min K W = W := by omega
    have e2 : (W + K - 1) / K = 1 := by
      have e : W + K - 1 = (W - 1) + K := by omega
      rw [e, Nat.add_div_right _ (by omega), Nat.div_eq_of_lt (by omega)]
    rw [h3] at h0 ⊢
    refine ⟨draws pos >>> (K - W), ?_, h0⟩
    simp [generate_next, e2]

theorem generate_random_integer_lt (K bits W : Nat) (draws : Nat → Nat) (pos : Nat)
    (hK : 1 ≤ K) (hW : 1 ≤ W) (hWb : W ≤ bits) (hd : ∀ i, draws i < 2 ^ K) :
    ∃ k, generate_random_integer ⟨0, 2 ^ K - 1⟩ bits W draws pos
        = some (k, pos + (W + K - 1) / K) ∧ k < 2 ^ W :=
  generate_random_integer_lt_of_digits ⟨0, 2 ^ K - 1⟩ K bits W draws pos
    (check_rng_range_full_range K hK) (rng_digits_full_range K hK) hK hW hWb hd

/-- C3 (failing input): the generator with `min() = 1` and `max() = 2` passes
`check_rng_range`, its `rng_digits` is 1, and for `W = 1` the draw `2` (which
lies in `[min, max]`) is returned unchanged, a value outside `[0, 2^1 - 1]`. -/
theorem generate_random_integer_exceeds_width :
    check_rng_range ⟨1, 2⟩ = true ∧ rng_digits ⟨1, 2⟩ = 1 ∧
    generate_random_integer ⟨1, 2⟩ 16 1 (fun _ => 2) 0 = some (2, 1) ∧
    ¬ (2 ≤ 2 ^ 1 - 1) := by
  decide

/-- C5: for a generator with range `[0, 2^K - 1]` and `M = min(W, digits)`,
`generate_random_real` returns `k / 2^M` for the `M`-bit integer `k` that
`generate_random_integer<_, M>` draws; the result lies in `[0, 1)`. -/
theorem generate_random_real_eq (digits K bits W : Nat) (draws : Nat → Nat) (pos : Nat)
    (hK : 1 ≤ K) (hW : 1 ≤ W) (hdig : 1 ≤ digits) (hb : 2 ≤ bits)
    (hMb : min W digits ≤ bits) (hd : ∀ i, draws i < 2 ^ K) :
    ∃ k pos1, generate_random_integer ⟨0, 2 ^ K - 1⟩ bits (min W digits) draws pos
        = some (k, pos1) ∧ k < 2 ^ (min W digits) ∧
      generate_random_real digits ⟨0, 2 ^ K - 1⟩ bits W draws pos
        = some ((k : ℚ) / 2 ^ (min W digits), pos1) ∧
      0 ≤ (k : ℚ) / 2 ^ (min W digits) ∧ (k : ℚ) / 2 ^ (min W digits) < 1 := by
  have hM : (if digits < W then digits else W) = min W digits := by
    split_ifs with h <;> omega
  obtain ⟨k, hk, hlt⟩ := generate_random_integer_lt K bits (min W digits) draws pos hK
    (by omega) hMb hd
  refine ⟨k, _, hk, hlt, ?_, by positivity, ?_⟩
  · simp only [generate_random_real, hM, hk]
    have h1 : (1 <<< (min W digits / 2)) % 2 ^ bits = 2 ^ (min W digits / 2) := by
      rw [Nat.shiftLeft_eq, one_mul]
      exact Nat.mod_eq_of_lt (Nat.pow_lt_pow_right (by norm_num) (by omega))
    have h2 : (1 <<< (min W digits - min W digits / 2)) % 2 ^ bits
        = 2 ^ (min W digits - min W digits / 2) := by
      rw [Nat.shiftLeft_eq, one_mul]
      exact Nat.mod_eq_of_lt (Nat.pow_lt_pow_right (by norm_num) (by omega))
    rw [h1, h2]
    have h3 : ((2 ^ (min W digits / 2) : Nat) : ℚ) * ((2 ^ (min W digits - min W digits / 2) : Nat) : ℚ)
        = 2 ^ (min W digits) := by
      push_cast
      rw [← pow_add]
      congr 1
      omega
    rw [h3]
    congr 1
    field_simp
  · rw [div_lt_one (by positivity)]
    exact_mod_cast hlt

theorem generate_random_real_eq_witness :
    ∃ k pos1, generate_random_integer ⟨0, 2 ^ 8 - 1⟩ 64 (min 12 53) (fun _ => 171) 0
        = some (k, pos1) ∧ k < 2 ^ (min 12 53) ∧
      generate_random_real 53 ⟨0, 2 ^ 8 - 1⟩ 64 12 (fun _ => 171) 0
        = some ((k : ℚ) / 2 ^ (min 12 53), pos1) ∧
      0 ≤ (k : ℚ) / 2 ^ (min 12 53) ∧ (k : ℚ) / 2 ^ (min 12 53) < 1 :=
  generate_random_real_eq 53 8 64 12 (fun _ => 171) 0 (by decide) (by decide) (by decide)
    (by decide) (by decide) (fun _ => by norm_num)

/-! ### Equidistribution of `generate_random_integer` -/

theorem card_filter_tuple_succ {β : Type} [Fintype β] (m : Nat)
    (p : (Fin (m + 1) → β) → Prop) [DecidablePred p] :
    (Finset.univ.filter p).card
      = ∑ a : β, (Finset.univ.filter (fun t : Fin m → β => p (Fin.cons a t))).card := by
  simp only [Finset.card_filter]
  rw [← (Fin.consEquiv (fun _ : Fin (m + 1) => β)).sum_comp, Fintype.sum_prod_type]
  rfl

theorem card_filter_fin_val (n : Nat) (q : Nat → Prop) [DecidablePred q] :
    (Finset.univ.filter (fun a : Fin n => q (a : Nat))).card
      = ((Finset.range n).filter q).card := by
  have h : (Finset.range n).filter q
      = (Finset.univ.filter (fun a : Fin n => q (a : Nat))).map Fin.valEmbedding := by
    ext a
    simp only [Finset.mem_filter, Finset.mem_range, Finset.mem_map, Finset.mem_univ,
      true_and, Fin.valEmbedding_apply]
    constructor
    · rintro ⟨ha, hq⟩
      exact ⟨⟨a, ha⟩, hq, rfl⟩
    · rintro ⟨b, hq, rfl⟩
      exact ⟨b.isLt, hq⟩
  rw [h, Finset.card_map]

theorem card_range_div_eq (K T S u w : Nat) (hTS : T + S = K) :
    ((Finset.range (2 ^ K)).filter (fun a => u * 2 ^ T + a / 2 ^ S = w)).card
      = if w / 2 ^ T = u then 2 ^ S else 0 := by
  have hS : 0 < 2 ^ S := Nat.pow_pos (by norm_num)
  have hT : 0 < 2 ^ T := Nat.pow_pos (by norm_num)
  have hK : 2 ^ K = 2 ^ T * 2 ^ S := by rw [← hTS, pow_add]
  have hdiv : ∀ a, a < 2 ^ K → a / 2 ^ S < 2 ^ T := by
    intro a ha
    apply Nat.div_lt_of_lt_mul
    rw [Nat.mul_comm, ← hK]
    exact ha
  split_ifs with h
  · have hset : (Finset.range (2 ^ K)).filter (fun a => u * 2 ^ T + a / 2 ^ S = w)
        = Finset.Ico ((w % 2 ^ T) * 2 ^ S) ((w % 2 ^ T + 1) * 2 ^ S) := by
      ext a
      simp only [Finset.mem_filter, Finset.mem_range, Finset.mem_Ico]
      have hw : w = u * 2 ^ T + w % 2 ^ T := by
        have := Nat.div_add_mod w (2 ^ T)
        rw [h, Nat.mul_comm] at this
        omega
      constructor
      · rintro ⟨_, ha⟩
        have hc : a / 2 ^ S = w % 2 ^ T := by omega
        rw [← hc]
        constructor
        · exact Nat.div_mul_le_self a (2 ^ S)
        · have := Nat.lt_succ_self (a / 2 ^ S)
          exact (Nat.div_lt_iff_lt_mul hS).mp this
      · rintro ⟨h1, h2⟩
        have hc : a / 2 ^ S = w % 2 ^ T := by
          apply le_antisymm
          · exact Nat.lt_succ_iff.mp ((Nat.div_lt_iff_lt_mul hS).mpr h2)
          · exact (Nat.le_div_iff_mul_le hS).mpr h1
        refine ⟨?_, by omega⟩
        have hm : w % 2 ^ T + 1 ≤ 2 ^ T := Nat.mod_lt w hT
        calc a < (w % 2 ^ T + 1) * 2 ^ S := h2
          _ ≤ 2 ^ T * 2 ^ S := Nat.mul_le_mul_right _ hm
          _ = 2 ^ K := hK.symm
    rw [hset, Nat.card_Ico, ← Nat.sub_mul]
    simp
  · rw [Finset.card_eq_zero, Finset.filter_eq_empty_iff]
    intro a ha hw
    apply h
    rw [Finset.mem_range] at ha
    rw [← hw, Nat.add_comm, Nat.add_mul_div_right _ _ hT, Nat.div_eq_of_lt (hdiv a ha)]
    simp

theorem card_fin_div_eq (K T S u w : Nat) (hTS : T + S = K) :
    (Finset.univ.filter (fun a : Fin (2 ^ K) => u * 2 ^ T + (a : Nat) / 2 ^ S = w)).card
      = if w / 2 ^ T = u then 2 ^ S else 0 := by
  rw [card_filter_fin_val (2 ^ K) (fun a => u * 2 ^ T + a / 2 ^ S = w)]
  exact card_range_div_eq K T S u w hTS

theorem draws_of_tuple_cons_zero {m K : Nat} (a : Fin (2 ^ K)) (t : Fin m → Fin (2 ^ K)) :
    draws_of_tuple (Fin.cons a t : Fin (m + 1) → Fin (2 ^ K)) 0 = (a : Nat) := by
  simp [draws_of_tuple]

theorem draws_of_tuple_cons_succ {m K : Nat} (a : Fin (2 ^ K)) (t : Fin m → Fin (2 ^ K)) :
    (fun i => draws_of_tuple (Fin.cons a t : Fin (m + 1) → Fin (2 ^ K)) (i + 1))
      = draws_of_tuple t := by
  funext i
  simp only [draws_of_tuple]
  by_cases h : i < m
  · have h1 : i + 1 < m + 1 := by omega
    rw [dif_pos h, dif_pos h1]
    have : (⟨i + 1, h1⟩ : Fin (m + 1)) = Fin.succ ⟨i, h⟩ := rfl
    rw [this, Fin.cons_succ]
  · have h1 : ¬ i + 1 < m + 1 := by omega
    rw [dif_neg h, dif_neg h1]

theorem generate_next_shift (N bits : Nat) (draws : Nat → Nat) :
    ∀ fuel P u pos : Nat,
      generate_next N bits draws fuel P u (pos + 1)
        = (generate_next N bits (fun i => draws (i + 1)) fuel P u pos).map
            (fun r => (r.1, r.2 + 1)) := by
  intro fuel
  induction fuel with
  | zero =>
    intro P u pos
    cases P <;> simp [generate_next]
  | succ fuel ih =>
    intro P u pos
    cases P with
    | zero => simp [generate_next]
    | succ P =>
      rw [generate_next_succ, generate_next_succ, ih]

theorem draws_of_tuple_lt {m K : Nat} (t : Fin m → Fin (2 ^ K)) (i : Nat) :
    draws_of_tuple t i < 2 ^ K := by
  simp only [draws_of_tuple]
  split_ifs with h
  · exact (t ⟨i, h⟩).isLt
  · exact Nat.pow_pos (by norm_num)

theorem step_value (K bits T u q d : Nat) (hT : T ≤ K) (hKb : K ≤ bits)
    (hu : u < 2 ^ q) (hq : q + T ≤ bits) (hd : d < 2 ^ K) :
    ((u <<< T) % 2 ^ bits) ||| ((d % 2 ^ bits) >>> (K - T)) = u * 2 ^ T + d / 2 ^ (K - T) := by
  have hu1 : u <<< T < 2 ^ (q + T) := by
    rw [Nat.shiftLeft_eq, pow_add]
    exact Nat.mul_lt_mul_of_lt_of_le hu (le_refl _) (Nat.pow_pos (by norm_num))
  have hm1 : (u <<< T) % 2 ^ bits = u <<< T :=
    Nat.mod_eq_of_lt (lt_of_lt_of_le hu1 (Nat.pow_le_pow_right (by norm_num) hq))
  have hm2 : d % 2 ^ bits = d :=
    Nat.mod_eq_of_lt (lt_of_lt_of_le hd (Nat.pow_le_pow_right (by norm_num) hKb))
  have hb : d >>> (K - T) < 2 ^ T := shiftRight_lt_two_pow d K T hd hT
  rw [hm1, hm2, Nat.shiftLeft_eq, Nat.mul_comm u, ← Nat.mul_add_lt_is_or hb,
    Nat.shiftRight_eq_div_pow]

theorem generate_next_count (K bits : Nat) (hK : 1 ≤ K) :
    ∀ m fuel P u q v : Nat, P ≤ fuel → (P + K - 1) / K = m → (0 < P → K ≤ bits) →
      u < 2 ^ q → q + P ≤ bits →
      (Finset.univ.filter (fun t : Fin m → Fin (2 ^ K) =>
          generate_next K bits (draws_of_tuple t) fuel P u 0 = some (v, m))).card
        = if v / 2 ^ P = u then 2 ^ (K * m - P) else 0 := by
  intro m
  induction m with
  | zero =>
    intro fuel P u q v _ hm _ _ _
    have hP0 : P = 0 := by
      by_contra hP
      have : 1 ≤ (P + K - 1) / K := by
        rw [Nat.le_div_iff_mul_le (by omega)]
        omega
      omega
    subst hP0
    have hg : ∀ t : Fin 0 → Fin (2 ^ K),
        generate_next K bits (draws_of_tuple t) fuel 0 u 0 = some (u, 0) := by
      intro t
      cases fuel <;> simp [generate_next]
    simp only [hg, pow_zero, Nat.div_one, Nat.mul_zero, Nat.sub_zero, Option.some.injEq,
      Prod.mk.injEq, and_true]
    by_cases h : u = v
    · subst h
      simp
    · have h2 : ¬ v = u := fun e => h e.symm
      simp [h, h2]
  | succ m ih =>
    intro fuel P u q v hfuel hm hKb hu hq
    have hP1 : 1 ≤ P := by
      by_contra hP
      have hP0 : P = 0 := by omega
      subst hP0
      have : (0 + K - 1) / K = 0 := Nat.div_eq_of_lt (by omega)
      omega
    obtain ⟨P1, rfl⟩ : ∃ P1, P = P1 + 1 := ⟨P - 1, by omega⟩
    obtain ⟨fuel1, rfl⟩ : ∃ f1, fuel = f1 + 1 := ⟨fuel - 1, by omega⟩
    have hKb1 : K ≤ bits := hKb (by omega)
    have hT : min K (P1 + 1) ≤ K := Nat.min_le_left _ _
    have hstep := ceil_div_step (P1 + 1) K hK (by omega)
    have H : ∀ (a : Fin (2 ^ K)) (t : Fin m → Fin (2 ^ K)),
        (generate_next K bits (draws_of_tuple (Fin.cons a t : Fin (m + 1) → Fin (2 ^ K)))
            (fuel1 + 1) (P1 + 1) u 0 = some (v, m + 1)) ↔
        (generate_next K bits (draws_of_tuple t) fuel1 (P1 + 1 - min K (P1 + 1))
            (u * 2 ^ min K (P1 + 1) + (a : Nat) / 2 ^ (K - min K (P1 + 1))) 0
          = some (v, m)) := by
      intro a t
      rw [generate_next_succ, generate_next_shift, draws_of_tuple_cons_succ,
        draws_of_tuple_cons_zero,
        step_value K bits (min K (P1 + 1)) u q a hT hKb1 hu (by omega) a.isLt]
      cases generate_next K bits (draws_of_tuple t) fuel1 (P1 + 1 - min K (P1 + 1))
          (u * 2 ^ min K (P1 + 1) + (a : Nat) / 2 ^ (K - min K (P1 + 1))) 0 with
      | none => simp
      | some r =>
        obtain ⟨r1, r2⟩ := r
        simp
    rw [card_filter_tuple_succ]
    have e : ∀ a : Fin (2 ^ K),
        (Finset.univ.filter (fun t : Fin m → Fin (2 ^ K) =>
          generate_next K bits (draws_of_tuple (Fin.cons a t : Fin (m + 1) → Fin (2 ^ K)))
            (fuel1 + 1) (P1 + 1) u 0 = some (v, m + 1))).card
        = if (u * 2 ^ min K (P1 + 1) + (a : Nat) / 2 ^ (K - min K (P1 + 1))
              = v / 2 ^ (P1 + 1 - min K (P1 + 1)))
          then 2 ^ (K * m - (P1 + 1 - min K (P1 + 1))) else 0 := by
      intro a
      have e1 : (Finset.univ.filter (fun t : Fin m → Fin (2 ^ K) =>
          generate_next K bits (draws_of_tuple (Fin.cons a t : Fin (m + 1) → Fin (2 ^ K)))
            (fuel1 + 1) (P1 + 1) u 0 = some (v, m + 1)))
          = (Finset.univ.filter (fun t : Fin m → Fin (2 ^ K) =>
              generate_next K bits (draws_of_tuple t) fuel1 (P1 + 1 - min K (P1 + 1))
                (u * 2 ^ min K (P1 + 1) + (a : Nat) / 2 ^ (K - min K (P1 + 1))) 0
              = some (v, m))) := by
        ext t
        simp only [Finset.mem_filter, Finset.mem_univ, true_and]
        exact H a t
      rw [e1]
      have hu2 : u * 2 ^ min K (P1 + 1) + (a : Nat) / 2 ^ (K - min K (P1 + 1))
          < 2 ^ (q + min K (P1 + 1)) := by
        have hb : (a : Nat) / 2 ^ (K - min K (P1 + 1)) < 2 ^ min K (P1 + 1) := by
          have := shiftRight_lt_two_pow (a : Nat) K (min K (P1 + 1)) a.isLt hT
          rwa [Nat.shiftRight_eq_div_pow] at this
        have hu3 : (u + 1) * 2 ^ min K (P1 + 1) ≤ 2 ^ q * 2 ^ min K (P1 + 1) :=
          Nat.mul_le_mul_right _ hu
        rw [pow_add]
        rw [Nat.add_mul] at hu3
        omega
      rw [ih fuel1 (P1 + 1 - min K (P1 + 1)) _ (q + min K (P1 + 1)) v (by omega)
        (by omega) (fun _ => hKb1) hu2 (by omega)]
      by_cases hc : v / 2 ^ (P1 + 1 - min K (P1 + 1))
          = u * 2 ^ min K (P1 + 1) + (a : Nat) / 2 ^ (K - min K (P1 + 1))
      · rw [if_pos hc, if_pos hc.symm]
      · rw [if_neg hc, if_neg (fun e => hc e.symm)]
    rw [Finset.sum_congr rfl (fun a _ => e a), ← Finset.sum_filter, Finset.sum_const,
      smul_eq_mul,
      card_fin_div_eq K (min K (P1 + 1)) (K - min K (P1 + 1)) u _ (by omega),
      Nat.div_div_eq_div_mul, ← pow_add]
    have e2 : P1 + 1 - min K (P1 + 1) + min K (P1 + 1) = P1 + 1 := by omega
    rw [e2]
    split_ifs with hc
    · rw [← pow_add]
      congr 1
      have hRm : P1 + 1 - min K (P1 + 1) ≤ K * m := by
        have h1 : (P1 + 1 - min K (P1 + 1) + K - 1) / K = m := by omega
        have h2 := Nat.div_mul_le_self (P1 + 1 - min K (P1 + 1) + K - 1) K
        have h3 := Nat.lt_div_mul_add (a := P1 + 1 - min K (P1 + 1) + K - 1) (b := K) (by omega)
        rw [h1] at h3
        rw [Nat.mul_comm]
        omega
      rw [Nat.mul_succ]
      omega
    · simp

/-- C4 (equidistribution): for a generator with range `[0, 2^K - 1]`, `K ≥ 1`,
and `W ≥ 1`, every value `v < 2^W` is the result of
`generate_random_integer<_, W>` for exactly `2^(K*⌈W/K⌉ - W)` of the tuples of
`⌈W/K⌉` raw draws (and the call reads exactly these draws). -/
theorem generate_random_integer_balanced (K bits W v : Nat) (hK : 1 ≤ K) (hW : 1 ≤ W)
    (hWb : W ≤ bits) (hv : v < 2 ^ W) :
    (Finset.univ.filter (fun d : Fin ((W + K - 1) / K) → Fin (2 ^ K) =>
        generate_random_integer ⟨0, 2 ^ K - 1⟩ bits W (draws_of_tuple d) 0
          = some (v, (W + K - 1) / K))).card
      = 2 ^ (K * ((W + K - 1) / K) - W) := by
  have hstep := ceil_div_step W K hK hW
  generalize hn : (W + K - 1) / K = n at hstep ⊢
  have hn1 : 1 ≤ n := by
    rw [← hstep]
    exact Nat.le_add_left _ _
  obtain ⟨m, rfl⟩ : ∃ m, n = m + 1 := ⟨n - 1, by omega⟩
  have hT : min K W ≤ K := Nat.min_le_left _ _
  have H : ∀ (a : Fin (2 ^ K)) (t : Fin m → Fin (2 ^ K)),
      (generate_random_integer ⟨0, 2 ^ K - 1⟩ bits W
          (draws_of_tuple (Fin.cons a t : Fin (m + 1) → Fin (2 ^ K))) 0 = some (v, m + 1)) ↔
      (generate_next K bits (draws_of_tuple t) W (W - min K W)
          (0 * 2 ^ min K W + (a : Nat) / 2 ^ (K - min K W)) 0 = some (v, m)) := by
    intro a t
    simp only [generate_random_integer, check_rng_range_full_range K hK, if_true,
      rng_digits_full_range K hK]
    rw [random_bits_generate_eq _ _ _ _ _ hW, generate_next_shift, draws_of_tuple_cons_succ,
      draws_of_tuple_cons_zero]
    have h0 : (a : Nat) >>> (K - min K W) < 2 ^ min K W :=
      shiftRight_lt_two_pow _ _ _ a.isLt hT
    have hm : ((a : Nat) >>> (K - min K W)) % 2 ^ bits = (a : Nat) / 2 ^ (K - min K W) := by
      rw [Nat.mod_eq_of_lt (lt_of_lt_of_le h0 (Nat.pow_le_pow_right (by norm_num) (by omega))),
        Nat.shiftRight_eq_div_pow]
    rw [hm, Nat.zero_mul, Nat.zero_add]
    cases generate_next K bits (draws_of_tuple t) W (W - min K W)
        ((a : Nat) / 2 ^ (K - min K W)) 0 with
    | none => simp
    | some r =>
      obtain ⟨r1, r2⟩ := r
      simp
  rw [card_filter_tuple_succ]
  have e : ∀ a : Fin (2 ^ K),
      (Finset.univ.filter (fun t : Fin m → Fin (2 ^ K) =>
        generate_random_integer ⟨0, 2 ^ K - 1⟩ bits W
          (draws_of_tuple (Fin.cons a t : Fin (m + 1) → Fin (2 ^ K))) 0 = some (v, m + 1))).card
      = if (0 * 2 ^ min K W + (a : Nat) / 2 ^ (K - min K W) = v / 2 ^ (W - min K W))
        then 2 ^ (K * m - (W - min K W)) else 0 := by
    intro a
    have e1 : (Finset.univ.filter (fun t : Fin m → Fin (2 ^ K) =>
        generate_random_integer ⟨0, 2 ^ K - 1⟩ bits W
          (draws_of_tuple (Fin.cons a t : Fin (m + 1) → Fin (2 ^ K))) 0 = some (v, m + 1)))
        = (Finset.univ.filter (fun t : Fin m → Fin (2 ^ K) =>
            generate_next K bits (draws_of_tuple t) W (W - min K W)
              (0 * 2 ^ min K W + (a : Nat) / 2 ^ (K - min K W)) 0 = some (v, m))) := by
      ext t
      simp only [Finset.mem_filter, Finset.mem_univ, true_and]
      exact H a t
    rw [e1]
    have hu2 : 0 * 2 ^ min K W + (a : Nat) / 2 ^ (K - min K W) < 2 ^ min K W := by
      have := shiftRight_lt_two_pow (a : Nat) K (min K W) a.isLt hT
      rwa [Nat.shiftRight_eq_div_pow, ← Nat.zero_add ((a : Nat) / _), ← Nat.zero_mul (2 ^ min K W)] at this
    rw [generate_next_count K bits hK m W (W - min K W) _ (min K W) v (by omega) (by omega)
      (fun h => by omega) hu2 (by omega)]
    by_cases hc : v / 2 ^ (W - min K W) = 0 * 2 ^ min K W + (a : Nat) / 2 ^ (K - min K W)
    · rw [if_pos hc, if_pos hc.symm]
    · rw [if_neg hc, if_neg (fun e => hc e.symm)]
  rw [Finset.sum_congr rfl (fun a _ => e a), ← Finset.sum_filter, Finset.sum_const,
    smul_eq_mul, card_fin_div_eq K (min K W) (K - min K W) 0 _ (by omega),
    Nat.div_div_eq_div_mul, ← pow_add]
  have e2 : W - min K W + min K W = W := by omega
  rw [e2, if_pos (Nat.div_eq_of_lt hv), ← pow_add]
  congr 1
  have hRm : W - min K W ≤ K * m := by
    have h1 : (W - min K W + K - 1) / K = m := by omega
    have h3 := Nat.lt_div_mul_add (a := W - min K W + K - 1) (b := K) (by omega)
    rw [h1] at h3
    rw [Nat.mul_comm]
    omega
  rw [Nat.mul_succ]
  omega

theorem generate_random_integer_balanced_witness :
    (Finset.univ.filter (fun d : Fin ((12 + 8 - 1) / 8) → Fin (2 ^ 8) =>
        generate_random_integer ⟨0, 2 ^ 8 - 1⟩ 16 12 (draws_of_tuple d) 0
          = some (2748, (12 + 8 - 1) / 8))).card
      = 2 ^ (8 * ((12 + 8 - 1) / 8) - 12) :=
  generate_random_integer_balanced 8 16 12 2748 (by decide) (by decide) (by decide)
    (by decide)

/-! ## Theorems on `newton_partition` -/

theorem getD_map_fst (l : List (ℚ × ℚ × ℚ)) (j : Nat) :
    (l.map (fun t => t.1)).getD j 0 = (l.getD j (0, 0, 0)).1 := by
  induction l generalizing j with
  | nil => simp
  | cons a l ih =>
    cases j with
    | zero => simp
    | succ j => simpa using ih j

theorem sup_sweep_spec (x y dy_dx : List ℚ) :
    ∀ (k i : Nat) (ext : List (ℚ × ℚ)) (mx mn sm : ℚ),
      (sup_sweep x y dy_dx k i ext mx mn sm).1.length = k ∧
      mx ≤ (sup_sweep x y dy_dx k i ext mx mn sm).2.1 ∧
      (sup_sweep x y dy_dx k i ext mx mn sm).2.2.1 ≤ mn ∧
      (∀ j, j < k →
        ((sup_sweep x y dy_dx k i ext mx mn sm).1.getD j (0, 0, 0)).1
            * |x.getD (i + j + 1) 0 - x.getD (i + j) 0|
          ≤ (sup_sweep x y dy_dx k i ext mx mn sm).2.1 ∧
        (sup_sweep x y dy_dx k i ext mx mn sm).2.2.1
          ≤ ((sup_sweep x y dy_dx k i ext mx mn sm).1.getD j (0, 0, 0)).1
            * |x.getD (i + j + 1) 0 - x.getD (i + j) 0|) ∧
      (sup_sweep x y dy_dx k i ext mx mn sm).2.2.2
        = sm + ∑ j in Finset.range k,
            ((sup_sweep x y dy_dx k i ext mx mn sm).1.getD j (0, 0, 0)).1
              * |x.getD (i + j + 1) 0 - x.getD (i + j) 0| := by
  intro k
  induction k with
  | zero =>
    intro i ext mx mn sm
    simp [sup_sweep]
  | succ k ih =>
    intro i ext mx mn sm
    simp only [sup_sweep]
    generalize hs : sup_extrema (x.getD i 0) (x.getD (i + 1) 0) ext
      (if y.getD i 0 > y.getD (i + 1) 0 then (y.getD i 0, dy_dx.getD i 0, 0)
       else (y.getD (i + 1) 0, 0, dy_dx.getD (i + 1) 0)) = s
    obtain ⟨h1, h2, h3, h4, h5⟩ := ih (i + 1) s.2
      (max (s.1.1 * |x.getD (i + 1) 0 - x.getD i 0|) mx)
      (min (s.1.1 * |x.getD (i + 1) 0 - x.getD i 0|) mn)
      (sm + s.1.1 * |x.getD (i + 1) 0 - x.getD i 0|)
    refine ⟨by simp only [List.length_cons, h1], le_trans (le_max_right _ _) h2, le_trans h3 (min_le_right _ _), ?_, ?_⟩
    · intro j hj
      cases j with
      | zero =>
        simp only [List.getD_cons_zero, Nat.add_zero]
        exact ⟨le_trans (le_max_left _ _) h2, le_trans h3 (min_le_left _ _)⟩
      | succ j =>
        simp only [List.getD_cons_succ]
        have := h4 j (by omega)
        have e1 : i + 1 + j + 1 = i + (j + 1) + 1 := by omega
        have e2 : i + 1 + j = i + (j + 1) := by omega
        rw [e1, e2] at this
        exact this
    · rw [h5, Finset.sum_range_succ']
      simp only [List.getD_cons_zero, List.getD_cons_succ, Nat.add_zero]
      have e : ∀ j, i + 1 + j + 1 = i + (j + 1) + 1 ∧ i + 1 + j = i + (j + 1) := by
        intro j; omega
      simp only [(e _).1, (e _).2]
      ring

theorem inf_sweep_length (x y : List ℚ) :
    ∀ (k i : Nat) (ext : List (ℚ × ℚ)), (inf_sweep x y k i ext).length = k := by
  intro k
  induction k with
  | zero => intro i ext; simp [inf_sweep]
  | succ k ih => intro i ext; simp [inf_sweep, ih]

theorem foldl_set_length (g : ℚ × List ℚ → Nat → ℚ) (h : ℚ × List ℚ → Nat → ℚ)
    (l : List Nat) :
    ∀ st : ℚ × List ℚ,
      (l.foldl (fun (st : ℚ × List ℚ) i => (g st i, st.2.set i (h st i))) st).2.length
        = st.2.length := by
  induction l with
  | nil => intro st; rfl
  | cons a l ih =>
    intro st
    simp only [List.foldl_cons]
    rw [ih]
    simp

theorem update_positions_length (relax : ℚ) (n : Nat) (dx x : List ℚ) :
    (update_positions relax n dx x).length = x.length := by
  unfold update_positions
  exact foldl_set_length (fun st i => st.2.getD i 0)
    (fun st i => min (max (st.2.getD i 0 + relax * dx.getD (i - 1) 0)
                  (min st.1 (st.2.getD (i + 1) 0)))
             (max st.1 (st.2.getD (i + 1) 0))) _ _

theorem newton_next_length (f df : ℚ → ℚ) (real_max : ℚ) (extrema : List (ℚ × ℚ))
    (relax : ℚ) (n : Nat) (s s1 : newton_state)
    (h : newton_next f df real_max extrema relax n s = .ok s1) :
    s1.x.length = s.x.length := by
  simp only [newton_next] at h
  split at h
  · cases h
  · cases h
    exact update_positions_length _ _ _ _

theorem newton_result_criterion (f df : ℚ → ℚ) (real_max : ℚ) (extrema : List (ℚ × ℚ))
    (tol : ℚ) (n : Nat) (s : newton_state)
    (hc : converged tol n (newton_sweep f df real_max extrema n s).2 = true) :
    (newton_result f df real_max extrema n s).fsup.length = n ∧
    (newton_result f df real_max extrema n s).finf.length = n ∧
    ∀ i j, i < n → j < n →
      partition_area (newton_result f df real_max extrema n s) i
        - partition_area (newton_result f df real_max extrema n s) j
      < tol * ((∑ k in Finset.range n,
          partition_area (newton_result f df real_max extrema n s) k) / (n : ℚ)) := by
  obtain ⟨h1, _, _, h4, h5⟩ := sup_sweep_spec s.x
    (inner_values f df n s.x s.y s.dy_dx).1 (inner_values f df n s.x s.y s.dy_dx).2
    n 0 extrema 0 real_max 0
  have harea : ∀ k, partition_area (newton_result f df real_max extrema n s) k
      = ((newton_sweep f df real_max extrema n s).1.getD k (0, 0, 0)).1
          * |s.x.getD (0 + k + 1) 0 - s.x.getD (0 + k) 0| := by
    intro k
    simp only [partition_area, newton_result, getD_map_fst, Nat.zero_add]
  refine ⟨by simp [newton_result, newton_sweep, h1], by simp [newton_result, inf_sweep_length], ?_⟩
  intro i j hi hj
  simp only [converged, decide_eq_true_eq] at hc
  simp only [harea]
  simp only [newton_sweep] at hc ⊢
  rw [h5, zero_add] at hc
  have hi1 := (h4 i hi).1
  have hj2 := (h4 j hj).2
  linarith

theorem newton_loop_nonempty (f df : ℚ → ℚ) (real_max : ℚ) (extrema : List (ℚ × ℚ))
    (tol relax : ℚ) (max_iter n : Nat) :
    ∀ (fuel iter : Nat) (s : newton_state) (p : partition_data),
      newton_loop f df real_max extrema tol relax max_iter n fuel iter s = .ok p →
      p.x ≠ [] →
      ∃ k s1, k < fuel ∧
        newton_iterate f df real_max extrema relax n k s = .ok s1 ∧
        converged tol n (newton_sweep f df real_max extrema n s1).2 = true ∧
        p = newton_result f df real_max extrema n s1 ∧
        ∀ j, j < k → ∃ sj, newton_iterate f df real_max extrema relax n j s = .ok sj ∧
          converged tol n (newton_sweep f df real_max extrema n sj).2 = false := by
  intro fuel
  induction fuel with
  | zero =>
    intro iter s p h _
    simp [newton_loop] at h
  | succ fuel ih =>
    intro iter s p h hne
    simp only [newton_loop] at h
    by_cases hc : converged tol n (newton_sweep f df real_max extrema n s).2 = true
    · rw [if_pos hc] at h
      refine ⟨0, s, by omega, rfl, hc, ?_, ?_⟩
      · cases h; rfl
      · intro j hj; omega
    · rw [if_neg hc] at h
      by_cases hi : (iter + 1) % 2 ^ 32 > max_iter
      · rw [if_pos hi] at h
        cases h
        exact absurd rfl hne
      · rw [if_neg hi] at h
        cases hn : newton_next f df real_max extrema relax n s with
        | error e => rw [hn] at h; cases h
        | ok s1 =>
          rw [hn] at h
          obtain ⟨k, s2, hk, hit, hcv, hp, hbefore⟩ := ih _ s1 p h hne
          refine ⟨k + 1, s2, by omega, ?_, hcv, hp, ?_⟩
          · simp only [newton_iterate, hn]
            exact hit
          · intro j hj
            cases j with
            | zero =>
              refine ⟨s, rfl, ?_⟩
              simpa using hc
            | succ j =>
              obtain ⟨sj, h1, h2⟩ := hbefore j (by omega)
              refine ⟨sj, ?_, h2⟩
              simp only [newton_iterate, hn]
              exact h1

theorem newton_initial_length (f : ℚ → ℚ) (x_initial : List ℚ) :
    (newton_initial f x_initial).x.length = x_initial.length := rfl

theorem newton_iterate_length (f df : ℚ → ℚ) (real_max : ℚ) (extrema : List (ℚ × ℚ))
    (relax : ℚ) (n : Nat) :
    ∀ (k : Nat) (s s1 : newton_state),
      newton_iterate f df real_max extrema relax n k s = .ok s1 →
      s1.x.length = s.x.length := by
  intro k
  induction k with
  | zero =>
    intro s s1 h
    simp only [newton_iterate] at h
    cases h
    rfl
  | succ k ih =>
    intro s s1 h
    simp only [newton_iterate] at h
    cases hn : newton_next f df real_max extrema relax n s with
    | error e => rw [hn] at h; cases h
    | ok s2 =>
      rw [hn] at h
      rw [ih s2 s1 h, newton_next_length f df real_max extrema relax n s s2 hn]

/-- C7 (equal-area convergence): whenever `newton_partition` returns a
non-empty partition, with `n` intervals, the returned `x` and `fsup` satisfy
`area_i - area_j < tol * (sum_k area_k / n)` for all intervals `i`, `j` (that
is, `max_i area_i - min_i area_i < tol * mean area`), where
`area_i = fsup[i] * |x[i+1] - x[i]|`. -/
theorem newton_partition_equal_area (f df : ℚ → ℚ) (real_max : ℚ)
    (x_initial x_extremum : List ℚ) (tol relax : ℚ) (max_iter : Nat) (p : partition_data)
    (h : newton_partition f df real_max x_initial x_extremum tol relax max_iter = .ok p)
    (hne : p.x ≠ []) :
    p.x.length = p.fsup.length + 1 ∧ p.finf.length = p.fsup.length ∧
    ∀ i j, i < p.fsup.length → j < p.fsup.length →
      partition_area p i - partition_area p j
        < tol * ((∑ k in Finset.range p.fsup.length, partition_area p k)
            / (p.fsup.length : ℚ)) := by
  simp only [newton_partition] at h
  split at h
  · cases h
  · rename_i hlen
    obtain ⟨k, s1, _, hit, hcv, hp, _⟩ := newton_loop_nonempty _ _ _ _ _ _ _ _ _ _ _ _ h hne
    obtain ⟨h1, h2, h3⟩ := newton_result_criterion f df real_max
      (collect_extrema f x_initial x_extremum) tol (x_initial.length - 1) s1 hcv
    have hx := newton_iterate_length _ _ _ _ _ _ _ _ _ hit
    rw [newton_initial_length] at hx
    subst hp
    rw [h1, h2]
    refine ⟨?_, rfl, h3⟩
    show s1.x.length = _
    omega

theorem newton_loop_succ (f df : ℚ → ℚ) (real_max : ℚ) (extrema : List (ℚ × ℚ))
    (tol relax : ℚ) (max_iter n fuel iter : Nat) (s : newton_state) :
    newton_loop f df real_max extrema tol relax max_iter n (fuel + 1) iter s =
      if converged tol n (newton_sweep f df real_max extrema n s).2 then
        .ok (newton_result f df real_max extrema n s)
      else if (iter + 1) % 2 ^ 32 > max_iter then
        .ok { x := [], finf := [], fsup := [] }
      else
        match newton_next f df real_max extrema relax n s with
        | .error e => .error e
        | .ok s1 => newton_loop f df real_max extrema tol relax max_iter n fuel
                      ((iter + 1) % 2 ^ 32) s1 := by
  rw [newton_loop]

theorem newton_loop_empty_iff (f df : ℚ → ℚ) (real_max : ℚ) (extrema : List (ℚ × ℚ))
    (tol relax : ℚ) (max_iter n : Nat) (hmax : max_iter + 1 < 2 ^ 32) :
    ∀ (fuel iter : Nat) (s : newton_state), iter + fuel = max_iter → s.x ≠ [] →
      (newton_loop f df real_max extrema tol relax max_iter n (fuel + 1) iter s
          = .ok { x := [], finf := [], fsup := [] } ↔
        ∀ k, k ≤ fuel → ∃ s1, newton_iterate f df real_max extrema relax n k s = .ok s1 ∧
          converged tol n (newton_sweep f df real_max extrema n s1).2 = false) := by
  intro fuel
  induction fuel with
  | zero =>
    intro iter s hit hne
    rw [newton_loop_succ]
    by_cases hc : converged tol n (newton_sweep f df real_max extrema n s).2 = true
    · rw [if_pos hc]
      constructor
      · intro h
        exfalso
        apply hne
        have := congrArg (fun r => match r with
          | Except.ok p => p.x
          | Except.error _ => []) h
        simpa [newton_result] using this
      · intro h
        obtain ⟨s1, h1, h2⟩ := h 0 (le_refl 0)
        simp only [newton_iterate] at h1
        cases h1
        rw [hc] at h2
        cases h2
    · rw [if_neg hc]
      have hi : (iter + 1) % 2 ^ 32 > max_iter := by
        rw [Nat.mod_eq_of_lt (by omega)]
        omega
      rw [if_pos hi]
      constructor
      · intro _ k hk
        have hk0 : k = 0 := by omega
        subst hk0
        exact ⟨s, rfl, by simpa using hc⟩
      · intro _
        rfl
  | succ fuel ih =>
    intro iter s hit hne
    rw [newton_loop_succ]
    by_cases hc : converged tol n (newton_sweep f df real_max extrema n s).2 = true
    · rw [if_pos hc]
      constructor
      · intro h
        exfalso
        apply hne
        have := congrArg (fun r => match r with
          | Except.ok p => p.x
          | Except.error _ => []) h
        simpa [newton_result] using this
      · intro h
        obtain ⟨s1, h1, h2⟩ := h 0 (Nat.zero_le _)
        simp only [newton_iterate] at h1
        cases h1
        rw [hc] at h2
        cases h2
    · rw [if_neg hc]
      have hi : ¬ (iter + 1) % 2 ^ 32 > max_iter := by
        rw [Nat.mod_eq_of_lt (by omega)]
        omega
      rw [if_neg hi, Nat.mod_eq_of_lt (by omega)]
      cases hn : newton_next f df real_max extrema relax n s with
      | error e =>
        simp only []
        constructor
        · intro h
          cases h
        · intro h
          obtain ⟨s1, h1, _⟩ := h 1 (by omega)
          simp only [newton_iterate, hn] at h1
          cases h1
      | ok s1 =>
        simp only []
        have hne1 : s1.x ≠ [] := by
          have hl := newton_next_length f df real_max extrema relax n s s1 hn
          intro h0
          rw [h0] at hl
          apply hne
          exact List.length_eq_zero.mp hl.symm
        rw [ih (iter + 1) s1 (by omega) hne1]
        constructor
        · intro h k hk
          cases k with
          | zero => exact ⟨s, rfl, by simpa using hc⟩
          | succ k =>
            obtain ⟨s2, h1, h2⟩ := h k (by omega)
            refine ⟨s2, ?_, h2⟩
            simp only [newton_iterate, hn]
            exact h1
        · intro h k hk
          obtain ⟨s2, h1, h2⟩ := h (k + 1) (by omega)
          simp only [newton_iterate, hn] at h1
          exact ⟨s2, h1, h2⟩

theorem newton_next_ok (f df : ℚ → ℚ) (real_max : ℚ) (extrema : List (ℚ × ℚ))
    (relax : ℚ) (n : Nat) (hn : 3 ≤ n) (s : newton_state) :
    ∃ s1, newton_next f df real_max extrema relax n s = .ok s1 := by
  simp only [newton_next, solve_tridiagonal_system, jacobian_ds_dxl, List.length_map,
    List.length_range]
  have h : ¬ n - 1 < 2 := by omega
  rw [if_neg h]
  exact ⟨_, rfl⟩

theorem newton_loop_total (f df : ℚ → ℚ) (real_max : ℚ) (extrema : List (ℚ × ℚ))
    (tol relax : ℚ) (max_iter n : Nat) (hmax : max_iter + 1 < 2 ^ 32) (hn : 3 ≤ n) :
    ∀ (fuel iter : Nat) (s : newton_state), iter + fuel = max_iter →
      ∃ p, newton_loop f df real_max extrema tol relax max_iter n (fuel + 1) iter s
        = .ok p := by
  intro fuel
  induction fuel with
  | zero =>
    intro iter s hit
    rw [newton_loop_succ]
    split_ifs with hc hi
    · exact ⟨_, rfl⟩
    · exact ⟨_, rfl⟩
    · exfalso
      apply hi
      rw [Nat.mod_eq_of_lt (by omega)]
      omega
  | succ fuel ih =>
    intro iter s hit
    rw [newton_loop_succ]
    split_ifs with hc hi
    · exact ⟨_, rfl⟩
    · exact ⟨_, rfl⟩
    · obtain ⟨s1, h1⟩ := newton_next_ok f df real_max extrema relax n hn s
      rw [h1, Nat.mod_eq_of_lt (by omega)]
      exact ih (iter + 1) s1 (by omega)

/-- C8: for at least two initial abscissae and `max_iter` below the limit of
the 32-bit counter, `newton_partition` returns the empty partition exactly
when the convergence test fails on the initial partition and after each of
the first `max_iter` Newton updates; a non-empty result is the partition
reached after some `k ≤ max_iter` updates on which the test succeeds, and it
satisfies the criterion; with at least four initial abscissae the function
always returns. -/
theorem newton_partition_empty_iff (f df : ℚ → ℚ) (real_max : ℚ)
    (x_initial x_extremum : List ℚ) (tol relax : ℚ) (max_iter : Nat)
    (hmax : max_iter + 1 < 2 ^ 32) (hlen : 2 ≤ x_initial.length) :
    (newton_partition f df real_max x_initial x_extremum tol relax max_iter
        = .ok { x := [], finf := [], fsup := [] } ↔
      ∀ k, k ≤ max_iter → ∃ s,
        newton_iterate f df real_max (collect_extrema f x_initial x_extremum) relax
          (x_initial.length - 1) k (newton_initial f x_initial) = .ok s ∧
        converged tol (x_initial.length - 1)
          (newton_sweep f df real_max (collect_extrema f x_initial x_extremum)
            (x_initial.length - 1) s).2 = false) ∧
    (∀ p, newton_partition f df real_max x_initial x_extremum tol relax max_iter = .ok p →
      p.x ≠ [] →
      (∃ k s, k ≤ max_iter ∧
        newton_iterate f df real_max (collect_extrema f x_initial x_extremum) relax
          (x_initial.length - 1) k (newton_initial f x_initial) = .ok s ∧
        converged tol (x_initial.length - 1)
          (newton_sweep f df real_max (collect_extrema f x_initial x_extremum)
            (x_initial.length - 1) s).2 = true ∧
        p = newton_result f df real_max (collect_extrema f x_initial x_extremum)
          (x_initial.length - 1) s) ∧
      ∀ i j, i < x_initial.length - 1 → j < x_initial.length - 1 →
        partition_area p i - partition_area p j
          < tol * ((∑ k in Finset.range (x_initial.length - 1), partition_area p k)
              / ((x_initial.length - 1 : Nat) : ℚ))) ∧
    (4 ≤ x_initial.length →
      ∃ p, newton_partition f df real_max x_initial x_extremum tol relax max_iter = .ok p) := by
  have hlt : ¬ x_initial.length < 2 := by omega
  have hne0 : (newton_initial f x_initial).x ≠ [] := by
    intro h0
    have := newton_initial_length f x_initial
    rw [h0] at this
    simp at this
    omega
  refine ⟨?_, ?_, ?_⟩
  · simp only [newton_partition, if_neg hlt]
    exact newton_loop_empty_iff f df real_max _ tol relax max_iter _ hmax max_iter 0 _
      (by omega) hne0
  · intro p h hne
    simp only [newton_partition, if_neg hlt] at h
    obtain ⟨k, s1, hk, hit, hcv, hp, _⟩ := newton_loop_nonempty _ _ _ _ _ _ _ _ _ _ _ _ h hne
    refine ⟨⟨k, s1, by omega, hit, hcv, hp⟩, ?_⟩
    subst hp
    exact (newton_result_criterion f df real_max _ tol _ s1 hcv).2.2
  · intro h4
    simp only [newton_partition, if_neg hlt]
    exact newton_loop_total f df real_max _ tol relax max_iter _ hmax (by omega) max_iter 0 _
      (by omega)

/-! ### Suprema and infima of the returned partition when the abscissae are ordered -/

theorem sup_extrema_spec (a b : ℚ) :
    ∀ (ext : List (ℚ × ℚ)) (s : ℚ × ℚ × ℚ),
      ∃ cons rest, ext = cons ++ rest ∧ (sup_extrema a b ext s).2 = rest ∧
        (∀ e ∈ cons, (e.1 - a) * (e.1 - b) ≤ 0) ∧
        (∀ hd tl, rest = hd :: tl → ¬ (hd.1 - a) * (hd.1 - b) ≤ 0) ∧
        s.1 ≤ (sup_extrema a b ext s).1.1 ∧
        (∀ e ∈ cons, e.2 ≤ (sup_extrema a b ext s).1.1) ∧
        ((sup_extrema a b ext s).1.1 = s.1 ∨
          ∃ e ∈ cons, (sup_extrema a b ext s).1.1 = e.2) := by
  intro ext
  induction ext with
  | nil =>
    intro s
    exact ⟨[], [], rfl, rfl, by simp, by simp, le_refl _, by simp, Or.inl rfl⟩
  | cons e es ih =>
    intro s
    by_cases hb : (e.1 - a) * (e.1 - b) ≤ 0
    · have hstep : sup_extrema a b (e :: es) s
          = sup_extrema a b es (if e.2 > s.1 then (e.2, 0, 0) else s) := by
        simp only [sup_extrema, if_pos hb]
      obtain ⟨cons, rest, h1, h2, h3, h4, h5, h6, h7⟩ :=
        ih (if e.2 > s.1 then (e.2, 0, 0) else s)
      have hs1 : s.1 ≤ (if e.2 > s.1 then ((e.2, 0, 0) : ℚ × ℚ × ℚ) else s).1 := by
        split_ifs with h
        · exact le_of_lt h
        · exact le_refl _
      have hs2 : e.2 ≤ (if e.2 > s.1 then ((e.2, 0, 0) : ℚ × ℚ × ℚ) else s).1 := by
        split_ifs with h
        · exact le_refl _
        · exact not_lt.mp h
      have hs3 : (if e.2 > s.1 then ((e.2, 0, 0) : ℚ × ℚ × ℚ) else s).1 = s.1 ∨
          (if e.2 > s.1 then ((e.2, 0, 0) : ℚ × ℚ × ℚ) else s).1 = e.2 := by
        split_ifs with h
        · exact Or.inr rfl
        · exact Or.inl rfl
      rw [hstep]
      refine ⟨e :: cons, rest, by rw [h1]; rfl, h2, ?_, h4, le_trans hs1 h5, ?_, ?_⟩
      · intro e1 he1
        rcases List.mem_cons.mp he1 with rfl | he1
        · exact hb
        · exact h3 e1 he1
      · intro e1 he1
        rcases List.mem_cons.mp he1 with rfl | he1
        · exact le_trans hs2 h5
        · exact h6 e1 he1
      · rcases h7 with h7 | ⟨e1, he1, h7⟩
        · rcases hs3 with hs3 | hs3
          · exact Or.inl (h7.trans hs3)
          · exact Or.inr ⟨e, List.mem_cons_self _ _, h7.trans hs3⟩
        · exact Or.inr ⟨e1, List.mem_cons_of_mem _ he1, h7⟩
    · have hstep : sup_extrema a b (e :: es) s = (s, e :: es) := by
        simp only [sup_extrema, if_neg hb]
      rw [hstep]
      refine ⟨[], e :: es, rfl, rfl, by simp, ?_, le_refl _, by simp, Or.inl rfl⟩
      intro hd tl h
      cases h
      exact hb

theorem inf_extrema_spec (a b : ℚ) :
    ∀ (ext : List (ℚ × ℚ)) (v : ℚ),
      ∃ cons rest, ext = cons ++ rest ∧ (inf_extrema a b ext v).2 = rest ∧
        (∀ e ∈ cons, (e.1 - a) * (e.1 - b) ≤ 0) ∧
        (∀ hd tl, rest = hd :: tl → ¬ (hd.1 - a) * (hd.1 - b) ≤ 0) ∧
        (inf_extrema a b ext v).1 ≤ v ∧
        (∀ e ∈ cons, (inf_extrema a b ext v).1 ≤ e.2) ∧
        ((inf_extrema a b ext v).1 = v ∨
          ∃ e ∈ cons, (inf_extrema a b ext v).1 = e.2) := by
  intro ext
  induction ext with
  | nil =>
    intro v
    exact ⟨[], [], rfl, rfl, by simp, by simp, le_refl _, by simp, Or.inl rfl⟩
  | cons e es ih =>
    intro v
    by_cases hb : (e.1 - a) * (e.1 - b) ≤ 0
    · have hstep : inf_extrema a b (e :: es) v
          = inf_extrema a b es (if e.2 < v then e.2 else v) := by
        simp only [inf_extrema, if_pos hb]
      obtain ⟨cons, rest, h1, h2, h3, h4, h5, h6, h7⟩ := ih (if e.2 < v then e.2 else v)
      have hs1 : (if e.2 < v then e.2 else v) ≤ v := by
        split_ifs with h
        · exact le_of_lt h
        · exact le_refl _
      have hs2 : (if e.2 < v then e.2 else v) ≤ e.2 := by
        split_ifs with h
        · exact le_refl _
        · exact not_lt.mp h
      have hs3 : (if e.2 < v then e.2 else v) = v ∨ (if e.2 < v then e.2 else v) = e.2 := by
        split_ifs with h
        · exact Or.inr rfl
        · exact Or.inl rfl
      rw [hstep]
      refine ⟨e :: cons, rest, by rw [h1]; rfl, h2, ?_, h4, le_trans h5 hs1, ?_, ?_⟩
      · intro e1 he1
        rcases List.mem_cons.mp he1 with rfl | he1
        · exact hb
        · exact h3 e1 he1
      · intro e1 he1
        rcases List.mem_cons.mp he1 with rfl | he1
        · exact le_trans h5 hs2
        · exact h6 e1 he1
      · rcases h7 with h7 | ⟨e1, he1, h7⟩
        · rcases hs3 with hs3 | hs3
          · exact Or.inl (h7.trans hs3)
          · exact Or.inr ⟨e, List.mem_cons_self _ _, h7.trans hs3⟩
        · exact Or.inr ⟨e1, List.mem_cons_of_mem _ he1, h7⟩
    · have hstep : inf_extrema a b (e :: es) v = (v, e :: es) := by
        simp only [inf_extrema, if_neg hb]
      rw [hstep]
      refine ⟨[], e :: es, rfl, rfl, by simp, ?_, le_refl _, by simp, Or.inl rfl⟩
      intro hd tl h
      cases h
      exact hb

theorem extrema_interval_step (r : ℚ → ℚ → Prop)
    (htrans : ∀ a b c, r a b → r b c → r a c) (htot : ∀ a b, r a b ∨ r b a)
    (hanti : ∀ a b, r a b → r b a → a = b)
    (hbtw : ∀ a b e, r a b → ((e - a) * (e - b) ≤ 0 ↔ r a e ∧ r e b))
    (f : ℚ → ℚ) (E pre cons rest : List (ℚ × ℚ)) (a b : ℚ) (hab : r a b)
    (hE : E = pre ++ (cons ++ rest)) (hE2 : ∀ e ∈ E, e.2 = f e.1)
    (hEs : E.Pairwise (fun u v => r u.1 v.1))
    (hpre : ∀ e ∈ pre, r e.1 a) (hext : ∀ e ∈ cons ++ rest, r a e.1)
    (hcons : ∀ e ∈ cons, (e.1 - a) * (e.1 - b) ≤ 0)
    (hrest : ∀ hd tl, rest = hd :: tl → ¬ (hd.1 - a) * (hd.1 - b) ≤ 0) :
    (∀ e ∈ E, (e.1 - a) * (e.1 - b) ≤ 0 → e ∈ cons ∨ e.2 = f a) ∧
    (∀ e ∈ pre ++ cons, r e.1 b) ∧ (∀ e ∈ rest, r b e.1) := by
  have hrestP : rest.Pairwise (fun u v => r u.1 v.1) := by
    rw [hE] at hEs
    exact (List.pairwise_append.mp (List.pairwise_append.mp hEs).2.1).2.1
  have hrest2 : ∀ e ∈ rest, r b e.1 ∧ ¬ (e.1 - a) * (e.1 - b) ≤ 0 := by
    intro e he
    cases hr : rest with
    | nil => rw [hr] at he; cases he
    | cons hd tl =>
      have hhd := hrest hd tl hr
      have hahd : r a hd.1 := hext hd (by rw [hr]; simp)
      have hnb : ¬ r hd.1 b := by
        intro h
        exact hhd ((hbtw a b hd.1 hab).mpr ⟨hahd, h⟩)
      have hbhd : r b hd.1 := by
        rcases htot b hd.1 with h | h
        · exact h
        · exact absurd h hnb
      rw [hr] at he hrestP
      rcases List.mem_cons.mp he with rfl | he
      · exact ⟨hbhd, hhd⟩
      · have hhe : r hd.1 e.1 := (List.pairwise_cons.mp hrestP).1 e he
        refine ⟨htrans _ _ _ hbhd hhe, ?_⟩
        intro h
        exact hnb (htrans _ _ _ hhe ((hbtw a b e.1 hab).mp h).2)
  refine ⟨?_, ?_, fun e he => (hrest2 e he).1⟩
  · intro e he hb
    rw [hE] at he
    rcases List.mem_append.mp he with he | he
    · right
      have h1 := hpre e he
      have h2 := ((hbtw a b e.1 hab).mp hb).1
      rw [hE2 e (by rw [hE]; exact List.mem_append_left _ he), hanti _ _ h1 h2]
    · rcases List.mem_append.mp he with he | he
      · exact Or.inl he
      · exact absurd hb (hrest2 e he).2
  · intro e he
    rcases List.mem_append.mp he with he | he
    · exact htrans _ _ _ (hpre e he) hab
    · exact ((hbtw a b e.1 hab).mp (hcons e he)).2

theorem sup_sweep_isGreatest (r : ℚ → ℚ → Prop)
    (htrans : ∀ a b c, r a b → r b c → r a c) (htot : ∀ a b, r a b ∨ r b a)
    (hanti : ∀ a b, r a b → r b a → a = b)
    (hbtw : ∀ a b e, r a b → ((e - a) * (e - b) ≤ 0 ↔ r a e ∧ r e b))
    (f : ℚ → ℚ) (x y dy_dx : List ℚ) (E : List (ℚ × ℚ)) (n : Nat)
    (hE2 : ∀ e ∈ E, e.2 = f e.1) (hEs : E.Pairwise (fun u v => r u.1 v.1))
    (hx : ∀ i, i < n → r (x.getD i 0) (x.getD (i + 1) 0))
    (hy : ∀ i, i ≤ n → y.getD i 0 = f (x.getD i 0)) :
    ∀ (k i : Nat) (pre ext : List (ℚ × ℚ)) (mx mn sm : ℚ),
      i + k ≤ n → E = pre ++ ext → (∀ e ∈ pre, r e.1 (x.getD i 0)) →
      (∀ e ∈ ext, r (x.getD i 0) e.1) →
      ∀ j, j < k →
        (((sup_sweep x y dy_dx k i ext mx mn sm).1.getD j (0, 0, 0)).1 = f (x.getD (i + j) 0) ∨
         ((sup_sweep x y dy_dx k i ext mx mn sm).1.getD j (0, 0, 0)).1
            = f (x.getD (i + j + 1) 0) ∨
         ∃ e ∈ E, (e.1 - x.getD (i + j) 0) * (e.1 - x.getD (i + j + 1) 0) ≤ 0 ∧
            ((sup_sweep x y dy_dx k i ext mx mn sm).1.getD j (0, 0, 0)).1 = e.2) ∧
        f (x.getD (i + j) 0) ≤ ((sup_sweep x y dy_dx k i ext mx mn sm).1.getD j (0, 0, 0)).1 ∧
        f (x.getD (i + j + 1) 0)
          ≤ ((sup_sweep x y dy_dx k i ext mx mn sm).1.getD j (0, 0, 0)).1 ∧
        ∀ e ∈ E, (e.1 - x.getD (i + j) 0) * (e.1 - x.getD (i + j + 1) 0) ≤ 0 →
          e.2 ≤ ((sup_sweep x y dy_dx k i ext mx mn sm).1.getD j (0, 0, 0)).1 := by
  intro k
  induction k with
  | zero =>
    intro i pre ext mx mn sm _ _ _ _ j hj
    omega
  | succ k ih =>
    intro i pre ext mx mn sm hik hE hpre hext j hj
    simp only [sup_sweep]
    obtain ⟨cons, rest, h1, h2, h3, h4, h5, h6, h7⟩ :=
      sup_extrema_spec (x.getD i 0) (x.getD (i + 1) 0) ext
        (if y.getD i 0 > y.getD (i + 1) 0 then (y.getD i 0, dy_dx.getD i 0, 0)
         else (y.getD (i + 1) 0, 0, dy_dx.getD (i + 1) 0))
    generalize hs : sup_extrema (x.getD i 0) (x.getD (i + 1) 0) ext
      (if y.getD i 0 > y.getD (i + 1) 0 then (y.getD i 0, dy_dx.getD i 0, 0)
       else (y.getD (i + 1) 0, 0, dy_dx.getD (i + 1) 0)) = s at h2 h5 h6 h7 ⊢
    have hyi : y.getD i 0 = f (x.getD i 0) := hy i (by omega)
    have hyi1 : y.getD (i + 1) 0 = f (x.getD (i + 1) 0) := hy (i + 1) (by omega)
    have hinit : (if y.getD i 0 > y.getD (i + 1) 0
          then ((y.getD i 0, dy_dx.getD i 0, 0) : ℚ × ℚ × ℚ)
          else (y.getD (i + 1) 0, 0, dy_dx.getD (i + 1) 0)).1
        = max (f (x.getD i 0)) (f (x.getD (i + 1) 0)) := by
      rw [hyi, hyi1]
      split_ifs with h
      · exact (max_eq_left (le_of_lt h)).symm
      · exact (max_eq_right (not_lt.mp h)).symm
    rw [hinit] at h5 h7
    obtain ⟨g1, g2, g3⟩ := extrema_interval_step r htrans htot hanti hbtw f E pre cons rest
      (x.getD i 0) (x.getD (i + 1) 0) (hx i (by omega)) (by rw [hE, h1]) hE2 hEs hpre
      (by rw [← h1]; exact hext) h3 h4
    cases j with
    | zero =>
      simp only [List.getD_cons_zero, Nat.add_zero]
      refine ⟨?_, le_trans (le_max_left _ _) h5, le_trans (le_max_right _ _) h5, ?_⟩
      · rcases h7 with h7 | ⟨e, he, h7⟩
        · rcases max_choice (f (x.getD i 0)) (f (x.getD (i + 1) 0)) with hm | hm
          · exact Or.inl (h7.trans hm)
          · exact Or.inr (Or.inl (h7.trans hm))
        · refine Or.inr (Or.inr ⟨e, ?_, h3 e he, h7⟩)
          rw [hE, h1]
          exact List.mem_append_right _ (List.mem_append_left _ he)
      · intro e he hb
        rcases g1 e he hb with hc | hc
        · exact h6 e hc
        · rw [hc]
          exact le_trans (le_max_left _ _) h5
    | succ j =>
      simp only [List.getD_cons_succ]
      have := ih (i + 1) (pre ++ cons) rest
        (max (s.1.1 * |x.getD (i + 1) 0 - x.getD i 0|) mx)
        (min (s.1.1 * |x.getD (i + 1) 0 - x.getD i 0|) mn)
        (sm + s.1.1 * |x.getD (i + 1) 0 - x.getD i 0|) (by omega)
        (by rw [hE, h1, List.append_assoc]) g2 g3 j (by omega)
      have e1 : i + 1 + j + 1 = i + (j + 1) + 1 := by omega
      have e2 : i + 1 + j = i + (j + 1) := by omega
      rw [e1, e2] at this
      rw [h2]
      exact this

theorem inf_sweep_isLeast (r : ℚ → ℚ → Prop)
    (htrans : ∀ a b c, r a b → r b c → r a c) (htot : ∀ a b, r a b ∨ r b a)
    (hanti : ∀ a b, r a b → r b a → a = b)
    (hbtw : ∀ a b e, r a b → ((e - a) * (e - b) ≤ 0 ↔ r a e ∧ r e b))
    (f : ℚ → ℚ) (x y : List ℚ) (E : List (ℚ × ℚ)) (n : Nat)
    (hE2 : ∀ e ∈ E, e.2 = f e.1) (hEs : E.Pairwise (fun u v => r u.1 v.1))
    (hx : ∀ i, i < n → r (x.getD i 0) (x.getD (i + 1) 0))
    (hy : ∀ i, i ≤ n → y.getD i 0 = f (x.getD i 0)) :
    ∀ (k i : Nat) (pre ext : List (ℚ × ℚ)),
      i + k ≤ n → E = pre ++ ext → (∀ e ∈ pre, r e.1 (x.getD i 0)) →
      (∀ e ∈ ext, r (x.getD i 0) e.1) →
      ∀ j, j < k →
        ((inf_sweep x y k i ext).getD j 0 = f (x.getD (i + j) 0) ∨
         (inf_sweep x y k i ext).getD j 0 = f (x.getD (i + j + 1) 0) ∨
         ∃ e ∈ E, (e.1 - x.getD (i + j) 0) * (e.1 - x.getD (i + j + 1) 0) ≤ 0 ∧
            (inf_sweep x y k i ext).getD j 0 = e.2) ∧
        (inf_sweep x y k i ext).getD j 0 ≤ f (x.getD (i + j) 0) ∧
        (inf_sweep x y k i ext).getD j 0 ≤ f (x.getD (i + j + 1) 0) ∧
        ∀ e ∈ E, (e.1 - x.getD (i + j) 0) * (e.1 - x.getD (i + j + 1) 0) ≤ 0 →
          (inf_sweep x y k i ext).getD j 0 ≤ e.2 := by
  intro k
  induction k with
  | zero =>
    intro i pre ext _ _ _ _ j hj
    omega
  | succ k ih =>
    intro i pre ext hik hE hpre hext j hj
    simp only [inf_sweep]
    obtain ⟨cons, rest, h1, h2, h3, h4, h5, h6, h7⟩ :=
      inf_extrema_spec (x.getD i 0) (x.getD (i + 1) 0) ext
        (if y.getD i 0 > y.getD (i + 1) 0 then y.getD (i + 1) 0 else y.getD i 0)
    generalize hs : inf_extrema (x.getD i 0) (x.getD (i + 1) 0) ext
      (if y.getD i 0 > y.getD (i + 1) 0 then y.getD (i + 1) 0 else y.getD i 0)
      = s at h2 h5 h6 h7 ⊢
    have hyi : y.getD i 0 = f (x.getD i 0) := hy i (by omega)
    have hyi1 : y.getD (i + 1) 0 = f (x.getD (i + 1) 0) := hy (i + 1) (by omega)
    have hinit : (if y.getD i 0 > y.getD (i + 1) 0 then y.getD (i + 1) 0 else y.getD i 0)
        = min (f (x.getD i 0)) (f (x.getD (i + 1) 0)) := by
      rw [hyi, hyi1]
      split_ifs with h
      · exact (min_eq_right (le_of_lt h)).symm
      · exact (min_eq_left (not_lt.mp h)).symm
    rw [hinit] at h5 h7
    obtain ⟨g1, g2, g3⟩ := extrema_interval_step r htrans htot hanti hbtw f E pre cons rest
      (x.getD i 0) (x.getD (i + 1) 0) (hx i (by omega)) (by rw [hE, h1]) hE2 hEs hpre
      (by rw [← h1]; exact hext) h3 h4
    cases j with
    | zero =>
      simp only [List.getD_cons_zero, Nat.add_zero]
      refine ⟨?_, le_trans h5 (min_le_left _ _), le_trans h5 (min_le_right _ _), ?_⟩
      · rcases h7 with h7 | ⟨e, he, h7⟩
        · rcases min_choice (f (x.getD i 0)) (f (x.getD (i + 1) 0)) with hm | hm
          · exact Or.inl (h7.trans hm)
          · exact Or.inr (Or.inl (h7.trans hm))
        · refine Or.inr (Or.inr ⟨e, ?_, h3 e he, h7⟩)
          rw [hE, h1]
          exact List.mem_append_right _ (List.mem_append_left _ he)
      · intro e he hb
        rcases g1 e he hb with hc | hc
        · exact h6 e hc
        · rw [hc]
          exact le_trans h5 (min_le_left _ _)
    | succ j =>
      simp only [List.getD_cons_succ]
      have := ih (i + 1) (pre ++ cons) rest (by omega)
        (by rw [hE, h1, List.append_assoc]) g2 g3 j (by omega)
      have e1 : i + 1 + j + 1 = i + (j + 1) + 1 := by omega
      have e2 : i + 1 + j = i + (j + 1) := by omega
      rw [e1, e2] at this
      rw [h2]
      exact this

theorem getD_set (l : List ℚ) (a j : Nat) (v : ℚ) :
    (l.set a v).getD j 0 = if a = j ∧ j < l.length then v else l.getD j 0 := by
  simp only [List.getD_eq_getElem?_getD, List.getElem?_set]
  by_cases h : a = j
  · subst h
    by_cases h2 : a < l.length
    · simp [h2]
    · have h3 : l[a]? = none := List.getElem?_eq_none (by omega)
      simp [h2, h3]
  · simp [h]

theorem foldl_set_pair_getD (g h : Nat → ℚ) (l : List Nat) :
    ∀ (y d : List ℚ) (j : Nat),
      ((l.foldl (fun (st : List ℚ × List ℚ) i => (st.1.set i (g i), st.2.set i (h i)))
          (y, d)).1.length = y.length) ∧
      (l.foldl (fun (st : List ℚ × List ℚ) i => (st.1.set i (g i), st.2.set i (h i)))
          (y, d)).1.getD j 0
        = if j ∈ l ∧ j < y.length then g j else y.getD j 0 := by
  induction l with
  | nil =>
    intro y d j
    simp
  | cons a l ih =>
    intro y d j
    simp only [List.foldl_cons]
    obtain ⟨h1, h2⟩ := ih (y.set a (g a)) (d.set a (h a)) j
    refine ⟨by rw [h1, List.length_set], ?_⟩
    rw [h2, List.length_set, getD_set]
    by_cases hj : j < y.length
    · by_cases hl : j ∈ l
      · simp [hj, hl]
      · by_cases ha : a = j
        · subst ha
          simp [hj, hl]
        · have ha2 : ¬ j = a := fun e => ha e.symm
          simp [hj, hl, ha, ha2]
    · simp [hj]

theorem foldl_set_state_getD (g : ℚ × List ℚ → Nat → ℚ) (h : ℚ × List ℚ → Nat → ℚ)
    (l : List Nat) (j : Nat) (hj : j ∉ l) :
    ∀ st : ℚ × List ℚ,
      (l.foldl (fun (st : ℚ × List ℚ) i => (g st i, st.2.set i (h st i))) st).2.getD j 0
        = st.2.getD j 0 := by
  induction l with
  | nil => intro st; rfl
  | cons a l ih =>
    intro st
    simp only [List.foldl_cons]
    rw [ih (fun hm => hj (List.mem_cons_of_mem _ hm)), getD_set]
    have ha : ¬ a = j := fun e => hj (by rw [e]; exact List.mem_cons_self _ _)
    simp [ha]

theorem inner_values_spec (f df : ℚ → ℚ) (n : Nat) (x y dy_dx : List ℚ) :
    (inner_values f df n x y dy_dx).1.length = y.length ∧
    ∀ j, (inner_values f df n x y dy_dx).1.getD j 0
      = if (1 ≤ j ∧ j < n) ∧ j < y.length then f (x.getD j 0) else y.getD j 0 := by
  unfold inner_values
  have h := foldl_set_pair_getD (fun i => f (x.getD i 0)) (fun i => df (x.getD i 0))
    (List.range' 1 (n - 1)) y dy_dx
  refine ⟨(h 0).1, ?_⟩
  intro j
  rw [(h j).2]
  have hm : j ∈ List.range' 1 (n - 1) ↔ (1 ≤ j ∧ j < n) := by
    rw [List.mem_range'_1]
    omega
  simp only [hm]

theorem update_positions_ends (relax : ℚ) (n : Nat) (dx x : List ℚ) :
    (update_positions relax n dx x).getD 0 0 = x.getD 0 0 ∧
    (update_positions relax n dx x).getD n 0 = x.getD n 0 := by
  unfold update_positions
  constructor
  · exact foldl_set_state_getD (fun st i => st.2.getD i 0) _ _ 0
      (by rw [List.mem_range'_1]; omega) _
  · exact foldl_set_state_getD (fun st i => st.2.getD i 0) _ _ n
      (by rw [List.mem_range'_1]; omega) _

theorem newton_initial_ends (f : ℚ → ℚ) (x_initial : List ℚ) (hlen : 2 ≤ x_initial.length) :
    newton_ends f (x_initial.length - 1) (x_initial.getD 0 0)
      (x_initial.getD (x_initial.length - 1) 0) (newton_initial f x_initial) := by
  have hn : x_initial.length - 1 ≠ 0 := by omega
  refine ⟨?_, ?_, rfl, rfl, ?_, ?_⟩
  · show x_initial.length = _
    omega
  · simp [newton_initial]
  · simp only [newton_initial, getD_set, List.length_set, List.length_replicate]
    simp [hn]
  · simp only [newton_initial, getD_set, List.length_set, List.length_replicate]
    simp

theorem newton_next_ends (f df : ℚ → ℚ) (real_max : ℚ) (extrema : List (ℚ × ℚ))
    (relax : ℚ) (n : Nat) (x0 xn : ℚ) (s s1 : newton_state)
    (h : newton_next f df real_max extrema relax n s = .ok s1)
    (hs : newton_ends f n x0 xn s) : newton_ends f n x0 xn s1 := by
  obtain ⟨h1, h2, h3, h4, h5, h6⟩ := hs
  simp only [newton_next] at h
  split at h
  · cases h
  · cases h
    obtain ⟨e1, e2⟩ := inner_values_spec f df n s.x s.y s.dy_dx
    obtain ⟨u1, u2⟩ := update_positions_ends relax n
      (by assumption : (List ℚ × List ℚ × List ℚ)).2.2 s.x
    refine ⟨?_, ?_, ?_, ?_, ?_, ?_⟩
    · show (update_positions _ _ _ _).length = _
      rw [update_positions_length, h1]
    · show (inner_values f df n s.x s.y s.dy_dx).1.length = _
      rw [e1, h2]
    · show (update_positions _ _ _ _).getD 0 0 = _
      rw [u1, h3]
    · show (update_positions _ _ _ _).getD n 0 = _
      rw [u2, h4]
    · show (inner_values f df n s.x s.y s.dy_dx).1.getD 0 0 = _
      rw [e2 0, if_neg (by omega)]
      exact h5
    · show (inner_values f df n s.x s.y s.dy_dx).1.getD n 0 = _
      rw [e2 n, if_neg (by omega)]
      exact h6

theorem newton_iterate_ends (f df : ℚ → ℚ) (real_max : ℚ) (extrema : List (ℚ × ℚ))
    (relax : ℚ) (n : Nat) (x0 xn : ℚ) :
    ∀ (k : Nat) (s s1 : newton_state),
      newton_iterate f df real_max extrema relax n k s = .ok s1 →
      newton_ends f n x0 xn s → newton_ends f n x0 xn s1 := by
  intro k
  induction k with
  | zero =>
    intro s s1 h hs
    simp only [newton_iterate] at h
    cases h
    exact hs
  | succ k ih =>
    intro s s1 h hs
    simp only [newton_iterate] at h
    cases hn : newton_next f df real_max extrema relax n s with
    | error e => rw [hn] at h; cases h
    | ok s2 =>
      rw [hn] at h
      exact ih s2 s1 h (newton_next_ends f df real_max extrema relax n x0 xn s s2 hn hs)

theorem inner_values_eq_f (f df : ℚ → ℚ) (n : Nat) (x0 xn : ℚ) (s : newton_state)
    (hs : newton_ends f n x0 xn s) :
    ∀ i, i ≤ n → (inner_values f df n s.x s.y s.dy_dx).1.getD i 0 = f (s.x.getD i 0) := by
  obtain ⟨_, h2, h3, h4, h5, h6⟩ := hs
  intro i hi
  rw [(inner_values_spec f df n s.x s.y s.dy_dx).2 i]
  by_cases h0 : i = 0
  · subst h0
    rw [if_neg (by omega), h5, h3]
  · by_cases hn : i = n
    · subst hn
      rw [if_neg (by omega), h6, h4]
    · have hc : (1 ≤ i ∧ i < n) ∧ i < s.y.length := by omega
      rw [if_pos hc]

theorem collect_extrema_eq (f : ℚ → ℚ) (x es : List ℚ) :
    collect_extrema f x es
      = (es.filter (fun e =>
          decide ((e - x.getD 0 0) * (e - x.getD (x.length - 1) 0) ≤ 0))).map
          (fun e => (e, f e)) := by
  induction es with
  | nil => rfl
  | cons e es ih =>
    simp only [collect_extrema, List.filter_cons]
    split_ifs with h1 h2 h2
    · simp [ih]
    · simp only [decide_eq_true_eq] at h2
      exact absurd h1 h2
    · simp only [decide_eq_true_eq] at h2
      exact absurd h2 h1
    · exact ih

theorem chain_of_adjacent (r : ℚ → ℚ → Prop)
    (htrans : ∀ a b c, r a b → r b c → r a c) (htot : ∀ a b, r a b ∨ r b a)
    (x : List ℚ) (n : Nat) (hx : ∀ i, i < n → r (x.getD i 0) (x.getD (i + 1) 0)) :
    ∀ d i, i + d ≤ n → r (x.getD i 0) (x.getD (i + d) 0) := by
  intro d
  induction d with
  | zero =>
    intro i _
    rcases htot (x.getD i 0) (x.getD i 0) with h | h <;> exact h
  | succ d ih =>
    intro i hi
    exact htrans _ _ _ (ih i (by omega)) (hx (i + d) (by omega))

theorem between_of_le (a b e : ℚ) (hab : a ≤ b) :
    (e - a) * (e - b) ≤ 0 ↔ a ≤ e ∧ e ≤ b := by
  constructor
  · intro h
    constructor
    · by_contra hc
      have h1 : e - a < 0 := by linarith [not_le.mp hc]
      have h2 : e - b < 0 := by linarith [not_le.mp hc]
      have := mul_pos_of_neg_of_neg h1 h2
      linarith
    · by_contra hc
      have h1 : 0 < e - a := by linarith [not_le.mp hc]
      have h2 : 0 < e - b := by linarith [not_le.mp hc]
      have := mul_pos h1 h2
      linarith
  · rintro ⟨h1, h2⟩
    exact mul_nonpos_of_nonneg_of_nonpos (by linarith) (by linarith)

theorem between_of_ge (a b e : ℚ) (hab : b ≤ a) :
    (e - a) * (e - b) ≤ 0 ↔ e ≤ a ∧ b ≤ e := by
  rw [mul_comm, between_of_le b a e hab]
  exact and_comm

theorem between_iff_min_max (a b e : ℚ) :
    (e - a) * (e - b) ≤ 0 ↔ min a b ≤ e ∧ e ≤ max a b := by
  rcases le_total a b with h | h
  · rw [min_eq_left h, max_eq_right h]
    exact between_of_le a b e h
  · rw [min_eq_right h, max_eq_left h, between_of_ge a b e h]
    exact and_comm

theorem newton_result_extrema (r : ℚ → ℚ → Prop)
    (htrans : ∀ a b c, r a b → r b c → r a c) (htot : ∀ a b, r a b ∨ r b a)
    (hanti : ∀ a b, r a b → r b a → a = b)
    (hbtw : ∀ a b e, r a b → ((e - a) * (e - b) ≤ 0 ↔ r a e ∧ r e b))
    (f df : ℚ → ℚ) (real_max : ℚ) (x_initial x_extremum : List ℚ) (s : newton_state)
    (hs : newton_ends f (x_initial.length - 1) (x_initial.getD 0 0)
      (x_initial.getD (x_initial.length - 1) 0) s)
    (hx : ∀ i, i < x_initial.length - 1 → r (s.x.getD i 0) (s.x.getD (i + 1) 0))
    (hes : x_extremum.Pairwise r) :
    ∀ i, i < x_initial.length - 1 →
      IsGreatest (interval_values f s.x x_extremum i)
        ((newton_result f df real_max (collect_extrema f x_initial x_extremum)
          (x_initial.length - 1) s).fsup.getD i 0) ∧
      IsLeast (interval_values f s.x x_extremum i)
        ((newton_result f df real_max (collect_extrema f x_initial x_extremum)
          (x_initial.length - 1) s).finf.getD i 0) := by
  intro i hi
  have hy := inner_values_eq_f f df (x_initial.length - 1) _ _ s hs
  obtain ⟨_, _, h3, h4, _, _⟩ := hs
  have hchain := chain_of_adjacent r htrans htot s.x (x_initial.length - 1) hx
  have hE2 : ∀ e ∈ collect_extrema f x_initial x_extremum, e.2 = f e.1 := by
    intro e he
    rw [collect_extrema_eq] at he
    obtain ⟨e1, _, rfl⟩ := List.mem_map.mp he
    rfl
  have hEs : (collect_extrema f x_initial x_extremum).Pairwise (fun u v => r u.1 v.1) := by
    rw [collect_extrema_eq, List.pairwise_map]
    exact List.Pairwise.filter _ hes
  have hmem : ∀ e, (e ∈ collect_extrema f x_initial x_extremum ↔
      e.1 ∈ x_extremum ∧ (e.1 - s.x.getD 0 0) * (e.1 - s.x.getD (x_initial.length - 1) 0) ≤ 0
        ∧ e.2 = f e.1) := by
    intro e
    rw [collect_extrema_eq, List.mem_map, h3, h4]
    constructor
    · rintro ⟨e1, he1, rfl⟩
      rw [List.mem_filter, decide_eq_true_eq] at he1
      exact ⟨he1.1, he1.2, rfl⟩
    · rintro ⟨h1, h2, h5⟩
      refine ⟨e.1, ?_, ?_⟩
      · rw [List.mem_filter, decide_eq_true_eq]
        exact ⟨h1, h2⟩
      · rw [← h5]
  have h0n : r (s.x.getD 0 0) (s.x.getD (x_initial.length - 1) 0) := by
    have := hchain (x_initial.length - 1) 0 (by omega)
    rwa [Nat.zero_add] at this
  have hext : ∀ e ∈ collect_extrema f x_initial x_extremum, r (s.x.getD 0 0) e.1 := by
    intro e he
    exact ((hbtw _ _ _ h0n).mp ((hmem e).mp he).2.1).1
  have hin : ∀ e ∈ x_extremum, (e - s.x.getD i 0) * (e - s.x.getD (i + 1) 0) ≤ 0 →
      (e, f e) ∈ collect_extrema f x_initial x_extremum := by
    intro e he hb
    rw [hmem]
    refine ⟨he, ?_, rfl⟩
    obtain ⟨b1, b2⟩ := (hbtw _ _ _ (hx i hi)).mp hb
    have c1 : r (s.x.getD 0 0) (s.x.getD i 0) := by
      have := hchain i 0 (by omega)
      rwa [Nat.zero_add] at this
    have c2 : r (s.x.getD (i + 1) 0) (s.x.getD (x_initial.length - 1) 0) := by
      have := hchain (x_initial.length - 1 - (i + 1)) (i + 1) (by omega)
      have e : i + 1 + (x_initial.length - 1 - (i + 1)) = x_initial.length - 1 := by omega
      rwa [e] at this
    exact (hbtw _ _ _ h0n).mpr ⟨htrans _ _ _ c1 b1, htrans _ _ _ b2 c2⟩
  have hsup := sup_sweep_isGreatest r htrans htot hanti hbtw f s.x
    (inner_values f df (x_initial.length - 1) s.x s.y s.dy_dx).1
    (inner_values f df (x_initial.length - 1) s.x s.y s.dy_dx).2
    (collect_extrema f x_initial x_extremum) (x_initial.length - 1) hE2 hEs hx hy
    (x_initial.length - 1) 0 [] (collect_extrema f x_initial x_extremum) 0 real_max 0
    (by omega) rfl (by simp) hext i hi
  have hinf := inf_sweep_isLeast r htrans htot hanti hbtw f s.x
    (inner_values f df (x_initial.length - 1) s.x s.y s.dy_dx).1
    (collect_extrema f x_initial x_extremum) (x_initial.length - 1) hE2 hEs hx hy
    (x_initial.length - 1) 0 [] (collect_extrema f x_initial x_extremum)
    (by omega) rfl (by simp) hext i hi
  simp only [Nat.zero_add] at hsup hinf
  have hfs : (newton_result f df real_max (collect_extrema f x_initial x_extremum)
      (x_initial.length - 1) s).fsup.getD i 0
      = ((sup_sweep s.x (inner_values f df (x_initial.length - 1) s.x s.y s.dy_dx).1
          (inner_values f df (x_initial.length - 1) s.x s.y s.dy_dx).2
          (x_initial.length - 1) 0 (collect_extrema f x_initial x_extremum) 0 real_max
          0).1.getD i (0, 0, 0)).1 := by
    simp only [newton_result, newton_sweep, getD_map_fst]
  have hfi : (newton_result f df real_max (collect_extrema f x_initial x_extremum)
      (x_initial.length - 1) s).finf.getD i 0
      = (inf_sweep s.x (inner_values f df (x_initial.length - 1) s.x s.y s.dy_dx).1
          (x_initial.length - 1) 0 (collect_extrema f x_initial x_extremum)).getD i 0 := rfl
  rw [hfs, hfi]
  obtain ⟨s1, s2, s3, s4⟩ := hsup
  obtain ⟨i1, i2, i3, i4⟩ := hinf
  constructor
  · constructor
    · rcases s1 with h | h | ⟨e, he, hb, h⟩
      · exact Or.inl h
      · exact Or.inr (Or.inl h)
      · refine Or.inr (Or.inr ⟨e.1, ((hmem e).mp he).1, (between_iff_min_max _ _ _).mp hb, ?_⟩)
        rw [h, hE2 e he]
    · rintro v (hv | hv | ⟨e, he, hb, hv⟩)
      · rw [hv]; exact s2
      · rw [hv]; exact s3
      · rw [hv]
        exact s4 (e, f e) (hin e he ((between_iff_min_max _ _ _).mpr hb))
          ((between_iff_min_max _ _ _).mpr hb)
  · constructor
    · rcases i1 with h | h | ⟨e, he, hb, h⟩
      · exact Or.inl h
      · exact Or.inr (Or.inl h)
      · refine Or.inr (Or.inr ⟨e.1, ((hmem e).mp he).1, (between_iff_min_max _ _ _).mp hb, ?_⟩)
        rw [h, hE2 e he]
    · rintro v (hv | hv | ⟨e, he, hb, hv⟩)
      · rw [hv]; exact i2
      · rw [hv]; exact i3
      · rw [hv]
        exact i4 (e, f e) (hin e he ((between_iff_min_max _ _ _).mpr hb))
          ((between_iff_min_max _ _ _).mpr hb)

theorem newton_partition_extrema_of_ordered (f df : ℚ → ℚ) (real_max : ℚ)
    (x_initial x_extremum : List ℚ) (tol relax : ℚ) (max_iter : Nat) (p : partition_data)
    (h : newton_partition f df real_max x_initial x_extremum tol relax max_iter = .ok p)
    (hne : p.x ≠ [])
    (hord : ((∀ i, i + 1 < p.x.length → p.x.getD i 0 ≤ p.x.getD (i + 1) 0) ∧
              x_extremum.Pairwise (fun a b => a ≤ b)) ∨
            ((∀ i, i + 1 < p.x.length → p.x.getD (i + 1) 0 ≤ p.x.getD i 0) ∧
              x_extremum.Pairwise (fun a b => b ≤ a))) :
    ∀ i, i < p.fsup.length →
      IsGreatest (interval_values f p.x x_extremum i) (p.fsup.getD i 0) ∧
      IsLeast (interval_values f p.x x_extremum i) (p.finf.getD i 0) := by
  simp only [newton_partition] at h
  split at h
  · cases h
  · rename_i hlen
    obtain ⟨k, s1, _, hit, hcv, hp, _⟩ := newton_loop_nonempty _ _ _ _ _ _ _ _ _ _ _ _ h hne
    have hends := newton_iterate_ends f df real_max _ relax _ _ _ k _ s1 hit
      (newton_initial_ends f x_initial (by omega))
    obtain ⟨hl1, _, _⟩ := newton_result_criterion f df real_max
      (collect_extrema f x_initial x_extremum) tol (x_initial.length - 1) s1 hcv
    subst hp
    rw [hl1]
    have hxl : s1.x.length = x_initial.length - 1 + 1 := hends.1
    rcases hord with ⟨hx, hes⟩ | ⟨hx, hes⟩
    · exact newton_result_extrema (fun a b => a ≤ b) (fun _ _ _ => le_trans) le_total
        (fun _ _ => le_antisymm) between_of_le f df real_max x_initial x_extremum s1 hends
        (fun i hi => hx i (by
          show i + 1 < s1.x.length
          omega)) hes
    · exact newton_result_extrema (fun a b => b ≤ a) (fun _ _ _ h1 h2 => le_trans h2 h1)
        (fun a b => le_total b a) (fun _ _ h1 h2 => le_antisymm h2 h1)
        (fun a b e hab => by
          rw [between_of_ge a b e hab]) f df real_max x_initial x_extremum s1 hends
        (fun i hi => hx i (by
          show i + 1 < s1.x.length
          omega)) hes

theorem sup_sweep_nil (x y dy_dx : List ℚ) :
    ∀ (k i : Nat) (mx mn sm : ℚ) (j : Nat), j < k →
      ((sup_sweep x y dy_dx k i [] mx mn sm).1.getD j (0, 0, 0)).1
        = max (y.getD (i + j) 0) (y.getD (i + j + 1) 0) := by
  intro k
  induction k with
  | zero => intro i mx mn sm j hj; omega
  | succ k ih =>
    intro i mx mn sm j hj
    simp only [sup_sweep, sup_extrema]
    cases j with
    | zero =>
      simp only [List.getD_cons_zero, Nat.add_zero]
      split_ifs with h
      · exact (max_eq_left (le_of_lt h)).symm
      · exact (max_eq_right (not_lt.mp h)).symm
    | succ j =>
      simp only [List.getD_cons_succ]
      rw [ih (i + 1) _ _ _ j (by omega)]
      have e1 : i + 1 + j + 1 = i + (j + 1) + 1 := by omega
      have e2 : i + 1 + j = i + (j + 1) := by omega
      rw [e1, e2]

theorem inf_sweep_nil (x y : List ℚ) :
    ∀ (k i j : Nat), j < k →
      (inf_sweep x y k i []).getD j 0 = min (y.getD (i + j) 0) (y.getD (i + j + 1) 0) := by
  intro k
  induction k with
  | zero => intro i j hj; omega
  | succ k ih =>
    intro i j hj
    simp only [inf_sweep, inf_extrema]
    cases j with
    | zero =>
      simp only [List.getD_cons_zero, Nat.add_zero]
      split_ifs with h
      · exact (min_eq_right (le_of_lt h)).symm
      · exact (min_eq_left (not_lt.mp h)).symm
    | succ j =>
      simp only [List.getD_cons_succ]
      rw [ih (i + 1) j (by omega)]
      have e1 : i + 1 + j + 1 = i + (j + 1) + 1 := by omega
      have e2 : i + 1 + j = i + (j + 1) := by omega
      rw [e1, e2]

theorem newton_partition_monotonic_extrema (f df : ℚ → ℚ) (real_max : ℚ)
    (x_initial : List ℚ) (tol relax : ℚ) (max_iter : Nat) (p : partition_data)
    (h : newton_partition_monotonic f df real_max x_initial tol relax max_iter = .ok p)
    (hne : p.x ≠ []) :
    ∀ i, i < p.fsup.length →
      p.fsup.getD i 0 = max (f (p.x.getD i 0)) (f (p.x.getD (i + 1) 0)) ∧
      p.finf.getD i 0 = min (f (p.x.getD i 0)) (f (p.x.getD (i + 1) 0)) := by
  simp only [newton_partition_monotonic, newton_partition] at h
  split at h
  · cases h
  · rename_i hlen
    obtain ⟨k, s1, _, hit, hcv, hp, _⟩ := newton_loop_nonempty _ _ _ _ _ _ _ _ _ _ _ _ h hne
    have hends := newton_iterate_ends f df real_max _ relax _ _ _ k _ s1 hit
      (newton_initial_ends f x_initial (by omega))
    obtain ⟨hl1, _, _⟩ := newton_result_criterion f df real_max
      (collect_extrema f x_initial []) tol (x_initial.length - 1) s1 hcv
    have hy := inner_values_eq_f f df (x_initial.length - 1) _ _ s1 hends
    subst hp
    rw [hl1]
    intro i hi
    constructor
    · show ((newton_sweep f df real_max (collect_extrema f x_initial [])
          (x_initial.length - 1) s1).1.map (fun t => t.1)).getD i 0 = _
      rw [getD_map_fst]
      simp only [newton_sweep, collect_extrema]
      rw [sup_sweep_nil _ _ _ _ _ _ _ _ i hi, Nat.zero_add, hy i (by omega),
        hy (i + 1) (by omega)]
      rfl
    · show (inf_sweep s1.x (inner_values f df (x_initial.length - 1) s1.x s1.y s1.dy_dx).1
          (x_initial.length - 1) 0 (collect_extrema f x_initial [])).getD i 0 = _
      simp only [collect_extrema]
      rw [inf_sweep_nil _ _ _ _ i hi, Nat.zero_add, hy i (by omega), hy (i + 1) (by omega)]
      rfl

set_option maxHeartbeats 4000000 in
theorem newton_partition_equal_area_witness :
    ∃ p, newton_partition (fun x => 1 + x) (fun _ => 1) (2 ^ 1023) [0, 1, 2, 3] []
        (1 / 10) 1 1 = .ok p ∧ p.x ≠ [] ∧
      p.x.length = p.fsup.length + 1 ∧ p.finf.length = p.fsup.length ∧
      ∀ i j, i < p.fsup.length → j < p.fsup.length →
        partition_area p i - partition_area p j
          < 1 / 10 * ((∑ k in Finset.range p.fsup.length, partition_area p k)
              / (p.fsup.length : ℚ)) :=
  have h : newton_partition (fun x => 1 + x) (fun _ => 1) (2 ^ 1023) [0, 1, 2, 3] []
      (1 / 10) 1 1
      = .ok { x := [0, 4 / 3, 9 / 4, 3], finf := [1, 7 / 3, 13 / 4],
              fsup := [7 / 3, 13 / 4, 4] } := by
    norm_num [newton_partition, newton_loop, newton_initial, newton_sweep, newton_result,
      newton_next, solve_tridiagonal_system, eliminate_subdiagonal, back_substitution,
      jacobian_ds_dxl, jacobian_ds_dxc, jacobian_ds_dxr, jacobian_minus_s, update_positions,
      collect_extrema, inner_values, sup_sweep, sup_extrema, inf_sweep, inf_extrema,
      converged, List.range', List.replicate, List.range, List.range.loop, abs_div,
      Nat.abs_ofNat, max_def, min_def]
  ⟨_, h, by simp, newton_partition_equal_area _ _ _ _ _ _ _ _ _ h (by simp)⟩

theorem newton_partition_empty_iff_witness :
    (newton_partition (fun x => 1 + x) (fun _ => 1) (2 ^ 1023) [0, 1, 2, 3] []
        (1 / 10) 1 1 = .ok { x := [], finf := [], fsup := [] } ↔
      ∀ k, k ≤ 1 → ∃ s,
        newton_iterate (fun x => 1 + x) (fun _ => 1) (2 ^ 1023)
          (collect_extrema (fun x => 1 + x) [0, 1, 2, 3] []) 1 3 k
          (newton_initial (fun x => 1 + x) [0, 1, 2, 3]) = .ok s ∧
        converged (1 / 10) 3
          (newton_sweep (fun x => 1 + x) (fun _ => 1) (2 ^ 1023)
            (collect_extrema (fun x => 1 + x) [0, 1, 2, 3] []) 3 s).2 = false) :=
  (newton_partition_empty_iff (fun x => 1 + x) (fun _ => 1) (2 ^ 1023) [0, 1, 2, 3] []
    (1 / 10) 1 1 (by norm_num) (by decide)).1

set_option maxHeartbeats 8000000 in
/-- C9 (failing input): for the density `parabola_density`, whose maximum `4`
is at `3/2`, the strictly increasing initial abscissae `0, 1/4, 1/2, 3`, the
single extremum `3/2`, `tol = 1/2`, `relax = 10` and `max_iter = 2`,
`newton_partition` returns the abscissae `0, 3, 1/2, 3` with
`fsup = [4, 7/2, 7/2]`: the extremum `3/2` lies between `x[2] = 1/2` and
`x[3] = 3`, yet `fsup[2] = 7/2` is below `f(3/2) = 4`. -/
theorem newton_partition_misses_extremum :
    newton_partition parabola_density parabola_derivative (2 ^ 1023)
        [0, 1 / 4, 1 / 2, 3] [3 / 2] (1 / 2) 10 2
      = .ok { x := [0, 3, 1 / 2, 3], finf := [23 / 8, 23 / 8, 23 / 8],
              fsup := [4, 7 / 2, 7 / 2] } ∧
    ((1 : ℚ) / 2 ≤ 3 / 2 ∧ (3 : ℚ) / 2 ≤ 3) ∧ parabola_density (3 / 2) = 4 ∧
    ((7 : ℚ) / 2 < parabola_density (3 / 2)) := by
  refine ⟨?_, by norm_num, by norm_num [parabola_density], by norm_num [parabola_density]⟩
  norm_num [parabola_density, parabola_derivative, newton_partition, newton_loop,
    newton_initial, newton_sweep, newton_result,
    newton_next, solve_tridiagonal_system, eliminate_subdiagonal, back_substitution,
    jacobian_ds_dxl, jacobian_ds_dxc, jacobian_ds_dxr, jacobian_minus_s, update_positions,
    collect_extrema, inner_values, sup_sweep, sup_extrema, inf_sweep, inf_extrema,
    converged, List.range', List.replicate, List.range, List.range.loop, abs_div,
    Nat.abs_ofNat, max_def, min_def]

/-! ## Theorems on the outer switch and the records of `build` -/

theorem std_round_eq (q : ℚ) (z : ℤ) (h0 : 0 ≤ q) (h1 : (z : ℚ) ≤ q + 1 / 2)
    (h2 : q + 1 / 2 < (z : ℚ) + 1) : std_round q = z := by
  unfold std_round
  rw [if_pos h0]
  exact Int.floor_eq_iff.mpr ⟨h1, h2⟩

theorem to_uint_eq (q : ℚ) (k : Nat) (h1 : (k : ℚ) ≤ q) (h2 : q < (k : ℚ) + 1) :
    to_uint q = k := by
  unfold to_uint
  have h : ⌊q⌋ = (k : ℤ) := Int.floor_eq_iff.mpr ⟨by exact_mod_cast h1, by exact_mod_cast h2⟩
  rw [h]
  exact Int.toNat_natCast k

/-- C11 (failing input): for the strictly decreasing breakpoints `[2, 1, 0]`
with `fsup = 3/2` on both intervals and the outer area `2`, the composite
asymmetric `build` with `W = 8`, `N = 1` stores the outer switch `384`, which
lies outside `[0, 2^(W-N)] = [0, 128]`: the area is accumulated with the
signed widths `x[i+1] - x[i]` and comes out as `-3`. -/
theorem build_outer_switch_exceeds_range :
    build 8 1 .asymmetric .composite 0 [2, 1, 0] (fun _ => 1) (fun _ => 3 / 2) 2
      = .ok { x_ := [2, 1, 0]
              data_ := [{ scaled_fratio := 256, scaled_fsup := 1 / 256, scaled_dx := -1 / 256 },
                        { scaled_fratio := 256, scaled_fsup := 1 / 256, scaled_dx := -1 / 256 }]
              outer_switch := 384 } ∧
    upper_quadrature_area (2 ^ 1) [2, 1, 0] (fun _ => 3 / 2) = -3 ∧
    ¬ (384 ≤ 2 ^ (8 - 1 - 0)) := by
  have hA : upper_quadrature_area (2 ^ 1) [2, 1, 0] (fun _ => 3 / 2) = -3 := by
    norm_num [upper_quadrature_area, List.range, List.range.loop]
  have hos : compute_outer_switch 8 1 .asymmetric .composite [2, 1, 0] (fun _ => 3 / 2) 2
      = 384 := by
    unfold compute_outer_switch
    simp only [Category.HasOuter, Shape.IsSymmetric, if_true]
    rw [hA, std_round_eq _ 384 (by norm_num) (by norm_num) (by norm_num)]
    rfl
  have hu : to_uint ((1 : ℚ) / (3 / 2) * ((384 : Nat) : ℚ)) = 256 :=
    to_uint_eq _ 256 (by norm_num) (by norm_num)
  refine ⟨?_, hA, by norm_num⟩
  rw [build_ok _ _ _ _ _ _ _ _ _ (by norm_num)]
  simp only [ne_eq, not_true_eq_false, if_false, hos]
  have hd : ∀ i, i < 2 → build_datum 384 [2, 1, 0] (fun _ => 1) (fun _ => 3 / 2) i
      = { scaled_fratio := 256, scaled_fsup := 1 / 256, scaled_dx := -1 / 256 } := by
    intro i hi
    unfold build_datum
    have h12 : (1 : ℚ) / 2 ≤ 1 / (3 / 2) := by norm_num
    simp only [h12, if_true, hu]
    interval_cases i <;> norm_num
  simp [List.range, List.range.loop, hd]

/-- C23 (counterexample): with `finf/fsup = 7/10` and the outer switch `128`
the product is `89.6`; `build` stores `scaled_fratio = 89`, whereas the
nearest integer is `90`. -/
theorem build_scaled_fratio_not_rounded :
    build 8 1 .asymmetric .bounded 0 [0, 1, 2] (fun _ => 7 / 10) (fun _ => 1) 0
      = .ok { x_ := [0, 1, 2]
              data_ := [{ scaled_fratio := 89, scaled_fsup := 1 / 128, scaled_dx := 1 / 89 },
                        { scaled_fratio := 89, scaled_fsup := 1 / 128, scaled_dx := 1 / 89 }]
              outer_switch := 128 } ∧
    (1 : ℚ) / 2 ≤ (7 / 10) / 1 ∧
    std_round ((7 / 10 : ℚ) / 1 * ((128 : Nat) : ℚ)) = 90 := by
  have hos : compute_outer_switch 8 1 .asymmetric .bounded [0, 1, 2] (fun _ => 1) 0 = 128 := by
    simp [compute_outer_switch, Category.HasOuter, Shape.IsSymmetric]
  have hu : to_uint ((7 / 10 : ℚ) / 1 * ((128 : Nat) : ℚ)) = 89 :=
    to_uint_eq _ 89 (by norm_num) (by norm_num)
  refine ⟨?_, by norm_num, std_round_eq _ 90 (by norm_num) (by norm_num) (by norm_num)⟩
  rw [build_ok _ _ _ _ _ _ _ _ _ (by norm_num)]
  simp only [ne_eq, not_true_eq_false, if_false, hos]
  have hd : ∀ i, i < 2 → build_datum 128 [0, 1, 2] (fun _ => 7 / 10) (fun _ => 1) i
      = { scaled_fratio := 89, scaled_fsup := 1 / 128, scaled_dx := 1 / 89 } := by
    intro i hi
    unfold build_datum
    have h12 : (1 : ℚ) / 2 ≤ 7 / 10 / 1 := by norm_num
    simp only [h12, if_true, hu]
    interval_cases i <;> norm_num
  simp [List.range, List.range.loop, hd]

/-- C25 (counterexample): with `finf/fsup = 1/4` on both intervals `build`
stores `scaled_fratio = 0`, and the divisors of the three divisions made for
interval `0` are `1`, `128` and `0`: `scaled_dx` is computed by a division by
zero. -/
theorem build_divides_by_zero :
    build 8 1 .asymmetric .bounded 0 [0, 1, 2] (fun _ => 1 / 4) (fun _ => 1) 0
      = .ok { x_ := [0, 1, 2]
              data_ := [{ scaled_fratio := 0, scaled_fsup := 1 / 128, scaled_dx := 0 },
                        { scaled_fratio := 0, scaled_fsup := 1 / 128, scaled_dx := 0 }]
              outer_switch := 128 } ∧
    build_divisors 128 [0, 1, 2] (fun _ => 1 / 4) (fun _ => 1) 0 = [1, 128, 0] := by
  have hos : compute_outer_switch 8 1 .asymmetric .bounded [0, 1, 2] (fun _ => 1) 0 = 128 := by
    simp [compute_outer_switch, Category.HasOuter, Shape.IsSymmetric]
  have hd : ∀ i, build_datum 128 [0, 1, 2] (fun _ => 1 / 4) (fun _ => 1) i
      = { scaled_fratio := 0, scaled_fsup := 1 / 128, scaled_dx := 0 } := by
    intro i
    unfold build_datum
    have h12 : ¬ (1 : ℚ) / 2 ≤ 1 / 4 / 1 := by norm_num
    simp only [h12, if_false]
    norm_num
  refine ⟨?_, ?_⟩
  · rw [build_ok _ _ _ _ _ _ _ _ _ (by norm_num)]
    simp only [ne_eq, not_true_eq_false, if_false, hos]
    simp only [List.range, List.range.loop, List.map, hd]
  · simp only [build_divisors, hd]
    norm_num

/-- C25 (amended): for every interval `i`, `build` sets `scaled_fsup[i] =
fsup[i]/outer_switch` and `scaled_dx[i] = (x[i+1]-x[i])/scaled_fratio[i]` without
a guard, so the divisors are `fsup[i]`, `outer_switch` and `scaled_fratio[i]`;
the last one is zero whenever `finf[i]/fsup[i] < 0.5`, and for the intervals with
`scaled_fratio[i] > 0` one has `scaled_dx[i]*scaled_fratio[i] = x[i+1]-x[i]`. -/
theorem build_divisions (W N : Nat) (shape : Shape) (cat : Category)
    (x_origin : ℚ) (xs : List ℚ) (finf fsup : Nat → ℚ) (outer_area : ℚ)
    (hlen : xs.length = 2 ^ N + 1) (i : Nat) (hi : i < 2 ^ N) :
    ∃ t d, build W N shape cat x_origin xs finf fsup outer_area = .ok t ∧
      t.data_[i]? = some d ∧
      d.scaled_fsup = fsup i / (t.outer_switch : ℚ) ∧
      d.scaled_dx = (t.x_.getD (i + 1) 0 - t.x_.getD i 0) / (d.scaled_fratio : ℚ) ∧
      build_divisors t.outer_switch t.x_ finf fsup i
        = [fsup i, (t.outer_switch : ℚ), (d.scaled_fratio : ℚ)] ∧
      (finf i / fsup i < 1 / 2 → d.scaled_fratio = 0 ∧
        (0 : ℚ) ∈ build_divisors t.outer_switch t.x_ finf fsup i) ∧
      (0 < d.scaled_fratio →
        d.scaled_dx * (d.scaled_fratio : ℚ) = t.x_.getD (i + 1) 0 - t.x_.getD i 0) := by
  refine ⟨_, _, build_ok W N shape cat x_origin xs finf fsup outer_area hlen,
    range_map_getElem? _ _ _ hi, rfl, rfl, rfl, ?_, ?_⟩
  · intro h
    have h0 : (build_datum (compute_outer_switch W N shape cat
        (if x_origin ≠ 0 then xs.map (fun v => v - x_origin) else xs) fsup outer_area)
        (if x_origin ≠ 0 then xs.map (fun v => v - x_origin) else xs) finf fsup i).scaled_fratio
        = 0 := by
      unfold build_datum
      simp only [not_le.mpr h, if_false]
    refine ⟨h0, ?_⟩
    simp only [build_divisors, h0]
    simp
  · intro h
    simp only [build_datum] at h ⊢
    have hne : ((if (1 : ℚ) / 2 ≤ finf i / fsup i then
        to_uint (finf i / fsup i * ((compute_outer_switch W N shape cat
          (if x_origin ≠ 0 then xs.map (fun v => v - x_origin) else xs) fsup outer_area : Nat) : ℚ))
        else 0 : Nat) : ℚ) ≠ 0 := by
      exact_mod_cast (Nat.pos_iff_ne_zero.mp h)
    exact div_mul_cancel₀ _ hne

theorem build_divisions_witness :
    ∃ t d, build 8 1 .asymmetric .bounded 0 [0, 1, 2] (fun _ => 3 / 4) (fun _ => 1) 0 = .ok t ∧
      t.data_[1]? = some d ∧
      d.scaled_fsup = (fun _ => (1 : ℚ)) 1 / (t.outer_switch : ℚ) ∧
      d.scaled_dx = (t.x_.getD (1 + 1) 0 - t.x_.getD 1 0) / (d.scaled_fratio : ℚ) ∧
      build_divisors t.outer_switch t.x_ (fun _ => 3 / 4) (fun _ => 1) 1
        = [(fun _ => (1 : ℚ)) 1, (t.outer_switch : ℚ), (d.scaled_fratio : ℚ)] ∧
      ((fun _ => (3 : ℚ) / 4) 1 / (fun _ => (1 : ℚ)) 1 < 1 / 2 → d.scaled_fratio = 0 ∧
        (0 : ℚ) ∈ build_divisors t.outer_switch t.x_ (fun _ => 3 / 4) (fun _ => 1) 1) ∧
      (0 < d.scaled_fratio →
        d.scaled_dx * (d.scaled_fratio : ℚ) = t.x_.getD (1 + 1) 0 - t.x_.getD 1 0) :=
  build_divisions 8 1 .asymmetric .bounded 0 [0, 1, 2] (fun _ => 3 / 4) (fun _ => 1) 0
    (by decide) 1 (by decide)

/-! ## Theorems on the samplers -/

theorem low_mask_eq (bits k : Nat) (h : k ≤ bits) : low_mask bits k = 2 ^ k - 1 := by
  unfold low_mask
  rw [Nat.shiftLeft_eq, one_mul]
  have hb : 0 < 2 ^ bits := Nat.pow_pos (by norm_num)
  have hk : 0 < 2 ^ k := Nat.pow_pos (by norm_num)
  rcases Nat.lt_or_ge k bits with h1 | h1
  · have h2 : 2 ^ k < 2 ^ bits := Nat.pow_lt_pow_right (by norm_num) h1
    rw [Nat.mod_eq_of_lt h2]
    have h3 : 2 ^ k + (2 ^ bits - 1) = (2 ^ k - 1) + 1 * 2 ^ bits := by omega
    rw [h3, Nat.add_mul_mod_self_right]
    exact Nat.mod_eq_of_lt (by omega)
  · have h2 : k = bits := le_antisymm h h1
    subst h2
    rw [Nat.mod_self, Nat.zero_add]
    exact Nat.mod_eq_of_lt (by omega)

theorem and_low_mask (bits k r : Nat) (h : k ≤ bits) : r &&& low_mask bits k = r % 2 ^ k := by
  rw [low_mask_eq bits k h, Nat.and_pow_two_sub_one_eq_mod]

theorem mantissa_asymmetric (S : Sampler) (r : Nat) (hs : S.shape = .asymmetric)
    (hb : S.W - S.N ≤ S.bits) : S.mantissa r = r % 2 ^ (S.W - S.N) := by
  simp only [Sampler.mantissa, hs]
  exact and_low_mask _ _ _ hb

theorem index_asymmetric (S : Sampler) (r : Nat) (hs : S.shape = .asymmetric) :
    S.index r = r / 2 ^ (S.W - S.N) := by
  simp only [Sampler.index, hs]
  exact Nat.shiftRight_eq_div_pow _ _

theorem mantissa_signed (S : Sampler) (r : Nat) (hs : S.shape ≠ .asymmetric)
    (hb : S.W - S.N - 1 ≤ S.bits) : S.mantissa r = r % 2 ^ (S.W - S.N - 1) := by
  cases h : S.shape with
  | asymmetric => exact absurd h hs
  | central =>
    simp only [Sampler.mantissa, h]
    exact and_low_mask _ _ _ hb
  | symmetric =>
    simp only [Sampler.mantissa, h]
    exact and_low_mask _ _ _ hb

theorem index_signed (S : Sampler) (r : Nat) (hs : S.shape ≠ .asymmetric)
    (hN : S.N ≤ size_t_bits) : S.index r = r / 2 ^ (S.W - S.N - 1) % 2 ^ S.N := by
  cases h : S.shape with
  | asymmetric => exact absurd h hs
  | central =>
    simp only [Sampler.index, h]
    rw [and_low_mask _ _ _ hN, Nat.shiftRight_eq_div_pow]
  | symmetric =>
    simp only [Sampler.index, h]
    rw [and_low_mask _ _ _ hN, Nat.shiftRight_eq_div_pow]

theorem sign_signed (S : Sampler) (r : Nat) (hs : S.shape ≠ .asymmetric) :
    S.sign r = if r / 2 ^ (S.W - 1) ≠ 0 then 1 else -1 := by
  cases h : S.shape with
  | asymmetric => exact absurd h hs
  | central =>
    simp only [Sampler.sign, h]
    rw [Nat.shiftRight_eq_div_pow]
  | symmetric =>
    simp only [Sampler.sign, h]
    rw [Nat.shiftRight_eq_div_pow]

theorem index_lt (S : Sampler) (r : Nat) (hr : r < 2 ^ S.W) (hN : S.N ≤ size_t_bits)
    (hNW : S.N ≤ S.W) : S.index r < 2 ^ S.N := by
  by_cases hs : S.shape = .asymmetric
  · rw [index_asymmetric S r hs]
    apply Nat.div_lt_of_lt_mul
    rw [← pow_add]
    have : S.W - S.N + S.N = S.W := by omega
    rw [this]
    exact hr
  · rw [index_signed S r hs hN]
    exact Nat.mod_lt _ (Nat.pow_pos (by norm_num))

theorem split_fields (k N r : Nat) (hr : r < 2 ^ (k + N + 1)) :
    r = r / 2 ^ (k + N) * 2 ^ (k + N) + r / 2 ^ k % 2 ^ N * 2 ^ k + r % 2 ^ k ∧
      r / 2 ^ (k + N) < 2 := by
  have h1 := Nat.div_add_mod r (2 ^ k)
  have h2 := Nat.div_add_mod (r / 2 ^ k) (2 ^ N)
  have h3 : r / 2 ^ k / 2 ^ N = r / 2 ^ (k + N) := by
    rw [Nat.div_div_eq_div_mul, ← pow_add]
  rw [h3] at h2
  constructor
  · have h4 : 2 ^ (k + N) = 2 ^ N * 2 ^ k := by rw [pow_add, mul_comm]
    calc r = 2 ^ k * (r / 2 ^ k) + r % 2 ^ k := h1.symm
      _ = 2 ^ k * (2 ^ N * (r / 2 ^ (k + N)) + r / 2 ^ k % 2 ^ N) + r % 2 ^ k := by rw [h2]
      _ = r / 2 ^ (k + N) * 2 ^ (k + N) + r / 2 ^ k % 2 ^ N * 2 ^ k + r % 2 ^ k := by
          rw [h4]; ring
  · apply Nat.div_lt_of_lt_mul
    have : 2 ^ (k + N) * 2 = 2 ^ (k + N + 1) := by rw [pow_succ]
    rw [this]
    exact hr

theorem join_fields (k N b i u : Nat) (hi : i < 2 ^ N) (hu : u < 2 ^ k) (hb : b < 2) :
    b * 2 ^ (k + N) + i * 2 ^ k + u < 2 ^ (k + N + 1) ∧
    (b * 2 ^ (k + N) + i * 2 ^ k + u) / 2 ^ (k + N) = b ∧
    (b * 2 ^ (k + N) + i * 2 ^ k + u) / 2 ^ k % 2 ^ N = i ∧
    (b * 2 ^ (k + N) + i * 2 ^ k + u) % 2 ^ k = u := by
  have hk : 0 < 2 ^ k := Nat.pow_pos (by norm_num)
  have hN : 0 < 2 ^ N := Nat.pow_pos (by norm_num)
  have hkN : 2 ^ (k + N) = 2 ^ N * 2 ^ k := by rw [pow_add, mul_comm]
  have e1 : b * 2 ^ (k + N) + i * 2 ^ k + u = u + (b * 2 ^ N + i) * 2 ^ k := by
    rw [hkN]; ring
  have hdiv : (b * 2 ^ (k + N) + i * 2 ^ k + u) / 2 ^ k = b * 2 ^ N + i := by
    rw [e1, Nat.add_mul_div_right _ _ hk, Nat.div_eq_of_lt hu, Nat.zero_add]
  have hlow : i * 2 ^ k + u < 2 ^ N * 2 ^ k := by
    have : (i + 1) * 2 ^ k ≤ 2 ^ N * 2 ^ k := Nat.mul_le_mul_right _ hi
    have h2 : (i + 1) * 2 ^ k = i * 2 ^ k + 2 ^ k := by ring
    omega
  refine ⟨?_, ?_, ?_, ?_⟩
  · have h2 : 2 ^ (k + N + 1) = 2 * 2 ^ (k + N) := by rw [pow_succ, mul_comm]
    have h3 : b * 2 ^ (k + N) ≤ 1 * 2 ^ (k + N) := Nat.mul_le_mul_right _ (by omega)
    rw [h2, hkN] at *
    omega
  · have e2 : b * 2 ^ (k + N) + i * 2 ^ k + u = (i * 2 ^ k + u) + b * 2 ^ (k + N) := by ring
    rw [e2, Nat.add_mul_div_right _ _ (Nat.pow_pos (by norm_num)), hkN,
      Nat.div_eq_of_lt hlow, Nat.zero_add]
  · rw [hdiv]
    have e3 : b * 2 ^ N + i = i + b * 2 ^ N := by ring
    rw [e3, Nat.add_mul_mod_self_right, Nat.mod_eq_of_lt hi]
  · rw [e1, Nat.add_mul_mod_self_right, Nat.mod_eq_of_lt hu]

/-- C29: for a `W`-bit integer `r` (with `UIntType` wide enough for `W` bits
and `N` at most the width of `std::size_t`), the asymmetric sampler splits `r`
as `i*2^(W-N) + u` with `i < 2^N`, `u < 2^(W-N)`; the central and symmetric
samplers split it as `b*2^(W-1) + i*2^(W-N-1) + u` with `b < 2`, `i < 2^N`,
`u < 2^(W-N-1)` and `s = +1` exactly when `b = 1` (`s = -1` otherwise).  Every
tuple of fields in range comes from exactly one `W`-bit integer. -/
theorem sampler_bit_layout (S : Sampler) (hWb : S.W ≤ S.bits) (hN : S.N ≤ size_t_bits)
    (hNW : S.N + (if S.shape.IsSymmetric then 1 else 0) ≤ S.W) :
    (S.shape = .asymmetric →
      (∀ r, r < 2 ^ S.W →
        r = S.index r * 2 ^ (S.W - S.N) + S.mantissa r ∧
        S.index r < 2 ^ S.N ∧ S.mantissa r < 2 ^ (S.W - S.N)) ∧
      (∀ i u, i < 2 ^ S.N → u < 2 ^ (S.W - S.N) →
        ∃ r, r < 2 ^ S.W ∧ S.index r = i ∧ S.mantissa r = u ∧
          ∀ r1, r1 < 2 ^ S.W → S.index r1 = i → S.mantissa r1 = u → r1 = r)) ∧
    (S.shape ≠ .asymmetric →
      (∀ r, r < 2 ^ S.W →
        r = r / 2 ^ (S.W - 1) * 2 ^ (S.W - 1) + S.index r * 2 ^ (S.W - S.N - 1)
              + S.mantissa r ∧
        r / 2 ^ (S.W - 1) < 2 ∧ S.index r < 2 ^ S.N ∧
        S.mantissa r < 2 ^ (S.W - S.N - 1) ∧
        (S.sign r = 1 ↔ r / 2 ^ (S.W - 1) = 1) ∧
        (S.sign r = -1 ↔ r / 2 ^ (S.W - 1) = 0)) ∧
      (∀ b i u, b < 2 → i < 2 ^ S.N → u < 2 ^ (S.W - S.N - 1) →
        ∃ r, r < 2 ^ S.W ∧ r / 2 ^ (S.W - 1) = b ∧ S.index r = i ∧ S.mantissa r = u ∧
          ∀ r1, r1 < 2 ^ S.W → r1 / 2 ^ (S.W - 1) = b → S.index r1 = i →
            S.mantissa r1 = u → r1 = r)) := by
  constructor
  · intro hs
    have hNW1 : S.N ≤ S.W := by omega
    have hpow : 2 ^ S.W = 2 ^ S.N * 2 ^ (S.W - S.N) := by
      rw [← pow_add]; congr 1; omega
    have hk : 0 < 2 ^ (S.W - S.N) := Nat.pow_pos (by norm_num)
    have hfield : ∀ r, r < 2 ^ S.W →
        r = S.index r * 2 ^ (S.W - S.N) + S.mantissa r ∧
        S.index r < 2 ^ S.N ∧ S.mantissa r < 2 ^ (S.W - S.N) := by
      intro r hr
      rw [index_asymmetric S r hs, mantissa_asymmetric S r hs (by omega)]
      refine ⟨?_, ?_, Nat.mod_lt _ hk⟩
      · have := Nat.div_add_mod r (2 ^ (S.W - S.N))
        rw [mul_comm] at this
        exact this.symm
      · apply Nat.div_lt_of_lt_mul
        rw [mul_comm, ← hpow]
        exact hr
    refine ⟨hfield, ?_⟩
    intro i u hi hu
    have hlt : i * 2 ^ (S.W - S.N) + u < 2 ^ S.W := by
      have : (i + 1) * 2 ^ (S.W - S.N) ≤ 2 ^ S.N * 2 ^ (S.W - S.N) :=
        Nat.mul_le_mul_right _ hi
      have h2 : (i + 1) * 2 ^ (S.W - S.N) = i * 2 ^ (S.W - S.N) + 2 ^ (S.W - S.N) := by ring
      rw [hpow]
      omega
    have hidx : S.index (i * 2 ^ (S.W - S.N) + u) = i := by
      rw [index_asymmetric S _ hs, add_comm, Nat.add_mul_div_right _ _ hk,
        Nat.div_eq_of_lt hu, Nat.zero_add]
    have hman : S.mantissa (i * 2 ^ (S.W - S.N) + u) = u := by
      rw [mantissa_asymmetric S _ hs (by omega), add_comm, Nat.add_mul_mod_self_right,
        Nat.mod_eq_of_lt hu]
    refine ⟨i * 2 ^ (S.W - S.N) + u, hlt, hidx, hman, ?_⟩
    intro r1 hr1 h1 h2
    have := (hfield r1 hr1).1
    rw [h1, h2] at this
    exact this
  · intro hs
    have hsym : S.shape.IsSymmetric = true := by
      cases h : S.shape with
      | asymmetric => exact absurd h hs
      | central => rfl
      | symmetric => rfl
    rw [hsym] at hNW
    simp only [if_true] at hNW
    have hW1 : S.W - 1 = (S.W - S.N - 1) + S.N := by omega
    have hW : S.W = (S.W - S.N - 1) + S.N + 1 := by omega
    have hfield : ∀ r, r < 2 ^ S.W →
        r = r / 2 ^ (S.W - 1) * 2 ^ (S.W - 1) + S.index r * 2 ^ (S.W - S.N - 1)
              + S.mantissa r ∧
        r / 2 ^ (S.W - 1) < 2 ∧ S.index r < 2 ^ S.N ∧
        S.mantissa r < 2 ^ (S.W - S.N - 1) ∧
        (S.sign r = 1 ↔ r / 2 ^ (S.W - 1) = 1) ∧
        (S.sign r = -1 ↔ r / 2 ^ (S.W - 1) = 0) := by
      intro r hr
      rw [index_signed S r hs hN, mantissa_signed S r hs (by omega), sign_signed S r hs]
      have hr2 : r < 2 ^ ((S.W - S.N - 1) + S.N + 1) := by rw [← hW]; exact hr
      obtain ⟨h1, h2⟩ := split_fields (S.W - S.N - 1) S.N r hr2
      rw [← hW1] at h1 h2
      refine ⟨h1, h2, Nat.mod_lt _ (Nat.pow_pos (by norm_num)),
        Nat.mod_lt _ (Nat.pow_pos (by norm_num)), ?_, ?_⟩
      · have hq : r / 2 ^ (S.W - 1) = 0 ∨ r / 2 ^ (S.W - 1) = 1 := by
          generalize r / 2 ^ (S.W - 1) = q at h2
          omega
        rcases hq with hz | hz <;> simp [hz]
      · have hq : r / 2 ^ (S.W - 1) = 0 ∨ r / 2 ^ (S.W - 1) = 1 := by
          generalize r / 2 ^ (S.W - 1) = q at h2
          omega
        rcases hq with hz | hz <;> simp [hz]
    refine ⟨hfield, ?_⟩
    intro b i u hb hi hu
    obtain ⟨j1, j2, j3, j4⟩ := join_fields (S.W - S.N - 1) S.N b i u hi hu hb
    rw [← hW1] at j1 j2 j3 j4
    have hW2 : S.W - 1 + 1 = S.W := by omega
    rw [hW2] at j1
    refine ⟨b * 2 ^ (S.W - 1) + i * 2 ^ (S.W - S.N - 1) + u, j1, j2, ?_, ?_, ?_⟩
    · rw [index_signed S _ hs hN]; exact j3
    · rw [mantissa_signed S _ hs (by omega)]; exact j4
    · intro r1 hr1 h1 h2 h3
      have := (hfield r1 hr1).1
      rw [h1, h2, h3] at this
      exact this

theorem sampler_bit_layout_witness :
    127 = example_sampler.index 127 * 2 ^ (example_sampler.W - example_sampler.N)
            + example_sampler.mantissa 127 ∧
      example_sampler.index 127 < 2 ^ example_sampler.N ∧
      example_sampler.mantissa 127 < 2 ^ (example_sampler.W - example_sampler.N) :=
  ((sampler_bit_layout example_sampler (by decide) (by decide) (by decide)).1 rfl).1 127
    (by decide)

theorem wedge_cases (S : Sampler) (R : RngType) (draws : Nat → Nat) (r : Nat)
    (st : List SamplerState) (pos : Nat) (a : Attempt)
    (h : S.wedge R draws r st pos = some a) :
    ∃ v, generate_random_real S.digits R S.real_bits S.W draws pos = some (v, a.pos) ∧
      a.r = r ∧
      a.x = S.x_.getD (S.index r) 0
              + v * (S.x_.getD (S.index r + 1) 0 - S.x_.getD (S.index r) 0) ∧
      (((S.mantissa r : ℚ) * (S.data_.getD (S.index r) ⟨0, 0, 0⟩).scaled_fsup
            < S.wedge_density a.x ∧
          a.states = st ++ [.wedge, .wedge_accept] ∧
          a.value = some (S.wedge_value (S.sign r) a.x)) ∨
       (¬ (S.mantissa r : ℚ) * (S.data_.getD (S.index r) ⟨0, 0, 0⟩).scaled_fsup
            < S.wedge_density a.x ∧
          a.states = st ++ [.wedge, .wedge_reject] ∧ a.value = none)) := by
  unfold Sampler.wedge at h
  cases hg : generate_random_real S.digits R S.real_bits S.W draws pos with
  | none => rw [hg] at h; exact absurd h (by simp)
  | some vp =>
    obtain ⟨v, pos1⟩ := vp
    rw [hg] at h
    simp only [] at h
    by_cases ht : (S.mantissa r : ℚ) * (S.data_.getD (S.index r) ⟨0, 0, 0⟩).scaled_fsup
        < S.wedge_density (S.x_.getD (S.index r) 0
              + v * (S.x_.getD (S.index r + 1) 0 - S.x_.getD (S.index r) 0))
    · rw [if_pos ht] at h
      have ha := Option.some.inj h
      subst ha
      exact ⟨v, rfl, rfl, rfl, Or.inl ⟨ht, rfl, rfl⟩⟩
    · rw [if_neg ht] at h
      have ha := Option.some.inj h
      subst ha
      exact ⟨v, rfl, rfl, rfl, Or.inr ⟨ht, rfl, rfl⟩⟩

/-- The four ways through the body of the loop of `operator()`. -/
theorem attempt_cases (S : Sampler) (R : RngType) (draws : Nat → Nat) (pos : Nat)
    (a : Attempt) (h : S.attempt R draws pos = some a) :
    ∃ r pos1, generate_random_integer R S.bits S.W draws pos = some (r, pos1) ∧ a.r = r ∧
      ((S.mantissa r < (S.data_.getD (S.index r) ⟨0, 0, 0⟩).scaled_fratio ∧
          a = { states := [.draw, .fast_accept], r := r,
                x := S.x_.getD (S.index r) 0
                  + (S.data_.getD (S.index r) ⟨0, 0, 0⟩).scaled_dx * (S.mantissa r : ℚ),
                value := some (S.fast_value (S.sign r) (S.index r) (S.mantissa r)),
                pos := pos1 }) ∨
       (¬ S.mantissa r < (S.data_.getD (S.index r) ⟨0, 0, 0⟩).scaled_fratio ∧
          (S.cat.HasOuter = true ∧ S.outer_switch_ ≤ S.mantissa r) ∧
          ∃ acceptance x pos2, S.sample_outer R draws pos1 = some (acceptance, x, pos2) ∧
            (S.cat.HasRejection = false ∨ acceptance = true) ∧
            a = { states := [.draw, .route_outer, .outer_accept], r := r, x := x,
                  value := some (S.outer_value (S.sign r) x), pos := pos2 }) ∨
       (¬ S.mantissa r < (S.data_.getD (S.index r) ⟨0, 0, 0⟩).scaled_fratio ∧
          (S.cat.HasOuter = true ∧ S.outer_switch_ ≤ S.mantissa r) ∧
          ∃ acceptance x pos2, S.sample_outer R draws pos1 = some (acceptance, x, pos2) ∧
            ¬ (S.cat.HasRejection = false ∨ acceptance = true) ∧
            S.wedge R draws r [.draw, .route_outer, .outer_reject] pos2 = some a) ∨
       (¬ S.mantissa r < (S.data_.getD (S.index r) ⟨0, 0, 0⟩).scaled_fratio ∧
          ¬ (S.cat.HasOuter = true ∧ S.outer_switch_ ≤ S.mantissa r) ∧
          S.wedge R draws r [.draw] pos1 = some a)) := by
  unfold Sampler.attempt at h
  cases hg : generate_random_integer R S.bits S.W draws pos with
  | none => rw [hg] at h; exact absurd h (by simp)
  | some rp =>
    obtain ⟨r, pos1⟩ := rp
    rw [hg] at h
    simp only [] at h
    refine ⟨r, pos1, rfl, ?_⟩
    by_cases hf : S.mantissa r < (S.data_.getD (S.index r) ⟨0, 0, 0⟩).scaled_fratio
    · rw [if_pos hf] at h
      have ha := Option.some.inj h
      subst ha
      exact ⟨rfl, Or.inl ⟨hf, rfl⟩⟩
    · rw [if_neg hf] at h
      by_cases ho : S.cat.HasOuter = true ∧ S.outer_switch_ ≤ S.mantissa r
      · rw [if_pos ho] at h
        cases hso : S.sample_outer R draws pos1 with
        | none => rw [hso] at h; exact absurd h (by simp)
        | some t =>
          obtain ⟨acceptance, x, pos2⟩ := t
          rw [hso] at h
          simp only [] at h
          by_cases hacc : S.cat.HasRejection = false ∨ acceptance = true
          · rw [if_pos hacc] at h
            have ha := Option.some.inj h
            subst ha
            exact ⟨rfl, Or.inr (Or.inl ⟨hf, ho, acceptance, x, pos2, rfl, hacc, rfl⟩)⟩
          · rw [if_neg hacc] at h
            obtain ⟨v, _, hr, _⟩ := wedge_cases S R draws r _ pos2 a h
            exact ⟨hr, Or.inr (Or.inr (Or.inl ⟨hf, ho, acceptance, x, pos2, rfl, hacc, h⟩))⟩
      · rw [if_neg ho] at h
        obtain ⟨v, _, hr, _⟩ := wedge_cases S R draws r _ pos1 a h
        exact ⟨hr, Or.inr (Or.inr (Or.inr ⟨hf, ho, h⟩))⟩

theorem sign_cases (S : Sampler) (r : Nat) : S.sign r = 1 ∨ S.sign r = -1 := by
  cases h : S.shape with
  | asymmetric => simp [Sampler.sign, h]
  | central =>
    simp only [Sampler.sign, h]
    split_ifs <;> simp
  | symmetric =>
    simp only [Sampler.sign, h]
    split_ifs <;> simp

theorem sign_eq_one_iff_testBit (S : Sampler) (r : Nat) (hs : S.shape ≠ .asymmetric)
    (hW : 1 ≤ S.W) (hr : r < 2 ^ S.W) :
    S.sign r = 1 ↔ r.testBit (S.W - 1) = true := by
  rw [sign_signed S r hs, Nat.testBit_to_div_mod]
  have h2 : r / 2 ^ (S.W - 1) < 2 := by
    apply Nat.div_lt_of_lt_mul
    have : 2 ^ (S.W - 1) * 2 = 2 ^ S.W := by
      rw [← pow_succ]; congr 1; omega
    rw [this]
    exact hr
  generalize r / 2 ^ (S.W - 1) = q at h2
  have hq : q = 0 ∨ q = 1 := by omega
  rcases hq with hz | hz <;> simp [hz]

/-- C12: when a pass through the loop of `operator()` returns a value `v`, it
returns through the fast path, the outer sample or the wedge, and `v` is the
shape transform of the accepted abscissa in the caller's coordinates:
the abscissa itself (asymmetric), `s` times it (central), or
`origin + s*(x - origin)` (symmetric), where `s` is `+1` or `-1`, and `+1`
exactly when bit `W-1` of the drawn `W`-bit integer is set.  The accepted
abscissa is `x_[i] + scaled_dx*u` on the fast path, the sample of the outer
distribution on the outer path, and the point `x_[i] + v*(x_[i+1] - x_[i])`
that passed the wedge test on the wedge path. -/
theorem attempt_returns_shape_transform (S : Sampler) (R : RngType) (draws : Nat → Nat)
    (pos : Nat) (a : Attempt) (v : ℚ)
    (h : S.attempt R draws pos = some a) (hv : a.value = some v) :
    (∃ pos1, generate_random_integer R S.bits S.W draws pos = some (a.r, pos1)) ∧
    v = shape_transform S.shape S.x_origin_ (S.sign a.r) (S.caller_abscissa a) ∧
    (S.sign a.r = 1 ∨ S.sign a.r = -1) ∧
    (S.shape ≠ .asymmetric → 1 ≤ S.W → a.r < 2 ^ S.W →
      (S.sign a.r = 1 ↔ a.r.testBit (S.W - 1) = true)) ∧
    ((a.states.getLast? = some .fast_accept ∧
        a.x = S.x_.getD (S.index a.r) 0
          + (S.data_.getD (S.index a.r) ⟨0, 0, 0⟩).scaled_dx * (S.mantissa a.r : ℚ)) ∨
     (a.states.getLast? = some .outer_accept ∧
        ∃ acceptance pos1, S.sample_outer R draws pos1 = some (acceptance, a.x, a.pos)) ∨
     (a.states.getLast? = some .wedge_accept ∧
        ∃ w pos1, generate_random_real S.digits R S.real_bits S.W draws pos1 = some (w, a.pos) ∧
          a.x = S.x_.getD (S.index a.r) 0
            + w * (S.x_.getD (S.index a.r + 1) 0 - S.x_.getD (S.index a.r) 0) ∧
          (S.mantissa a.r : ℚ) * (S.data_.getD (S.index a.r) ⟨0, 0, 0⟩).scaled_fsup
            < S.func_ (S.caller_abscissa a))) := by
  have hwedge : ∀ (st : List SamplerState) (p : Nat) (r : Nat),
      S.wedge R draws r st p = some a →
      v = shape_transform S.shape S.x_origin_ (S.sign a.r) (S.caller_abscissa a) ∧
      (a.states.getLast? = some .wedge_accept ∧
        ∃ w pos1, generate_random_real S.digits R S.real_bits S.W draws pos1 = some (w, a.pos) ∧
          a.x = S.x_.getD (S.index a.r) 0
            + w * (S.x_.getD (S.index a.r + 1) 0 - S.x_.getD (S.index a.r) 0) ∧
          (S.mantissa a.r : ℚ) * (S.data_.getD (S.index a.r) ⟨0, 0, 0⟩).scaled_fsup
            < S.func_ (S.caller_abscissa a)) := by
    intro st p r hw
    obtain ⟨w, hg, hr, hx, hcase⟩ := wedge_cases S R draws r st p a hw
    rcases hcase with ⟨ht, hst, hval⟩ | ⟨_, _, hval⟩
    · rw [hval] at hv
      have hv2 := Option.some.inj hv
      have hlast : a.states.getLast? = some .wedge_accept := by
        rw [hst]; simp
      have hca : S.caller_abscissa a = a.x + S.build_origin := by
        unfold Sampler.caller_abscissa
        rw [hlast]; simp
      have hden : S.wedge_density a.x = S.func_ (S.caller_abscissa a) := by
        rw [hca]
        cases hsh : S.shape <;> simp [Sampler.wedge_density, Sampler.build_origin, hsh]
      refine ⟨?_, hlast, w, p, hg, ?_, ?_⟩
      · rw [← hv2, hca, hr]
        cases hsh : S.shape <;>
          simp [Sampler.wedge_value, shape_transform, Sampler.build_origin, hsh]
      · rw [hr]; exact hx
      · rw [hr, ← hden]; exact ht
    · rw [hval] at hv
      exact absurd hv (by simp)
  obtain ⟨r, pos1, hg, hr, hcase⟩ := attempt_cases S R draws pos a h
  refine ⟨⟨pos1, by rw [hr]; exact hg⟩, ?_⟩
  have hsign := sign_cases S a.r
  have hbit : S.shape ≠ .asymmetric → 1 ≤ S.W → a.r < 2 ^ S.W →
      (S.sign a.r = 1 ↔ a.r.testBit (S.W - 1) = true) :=
    fun hs hW hlt => sign_eq_one_iff_testBit S a.r hs hW hlt
  rcases hcase with ⟨_, ha⟩ | ⟨_, _, acc, x, pos2, hso, _, ha⟩ | ⟨_, _, _, _, pos2, _, _, hw⟩ |
    ⟨_, _, hw⟩
  · have hlast : a.states.getLast? = some .fast_accept := by rw [ha]; simp
    have hca : S.caller_abscissa a = a.x + S.build_origin := by
      unfold Sampler.caller_abscissa
      rw [hlast]; simp
    have hval : a.value = some (S.fast_value (S.sign r) (S.index r) (S.mantissa r)) := by
      rw [ha]
    have hx : a.x = S.x_.getD (S.index r) 0
        + (S.data_.getD (S.index r) ⟨0, 0, 0⟩).scaled_dx * (S.mantissa r : ℚ) := by rw [ha]
    rw [hval] at hv
    have hv2 := Option.some.inj hv
    refine ⟨?_, hsign, hbit, Or.inl ⟨hlast, by rw [hr]; exact hx⟩⟩
    rw [← hv2, hca, hx, hr]
    cases hsh : S.shape <;>
      simp [Sampler.fast_value, shape_transform, Sampler.build_origin, hsh]
  · have hlast : a.states.getLast? = some .outer_accept := by rw [ha]; simp
    have hca : S.caller_abscissa a = a.x := by
      unfold Sampler.caller_abscissa
      rw [hlast]; simp
    have hval : a.value = some (S.outer_value (S.sign r) x) := by rw [ha]
    have hx : a.x = x := by rw [ha]
    have hp : a.pos = pos2 := by rw [ha]
    rw [hval] at hv
    have hv2 := Option.some.inj hv
    refine ⟨?_, hsign, hbit, Or.inr (Or.inl ⟨hlast, acc, pos1, by rw [hx, hp]; exact hso⟩)⟩
    rw [← hv2, hca, hx, hr]
    cases hsh : S.shape <;> simp [Sampler.outer_value, shape_transform, hsh]
  · obtain ⟨h1, h2⟩ := hwedge _ pos2 r hw
    exact ⟨h1, hsign, hbit, Or.inr (Or.inr h2)⟩
  · obtain ⟨h1, h2⟩ := hwedge _ pos1 r hw
    exact ⟨h1, hsign, hbit, Or.inr (Or.inr h2)⟩

theorem example_integer_draw :
    generate_random_integer ⟨0, 255⟩ 16 8 example_draws 0 = some (127, 1) := by
  decide

theorem example_real_draw (pos : Nat) (hpos : pos < 3) :
    generate_random_real 53 ⟨0, 255⟩ 64 8 example_draws pos
      = some ((example_draws pos : ℚ) / 256, pos + 1) := by
  have hi : generate_random_integer ⟨0, 255⟩ 64 8 example_draws pos
      = some (example_draws pos, pos + 1) := by
    interval_cases pos <;> decide
  unfold generate_random_real
  have hM : (if 53 < 8 then 53 else 8) = 8 := by decide
  simp only [hM, hi]
  norm_num [Nat.shiftLeft_eq]
  ring

set_option maxHeartbeats 1000000 in
theorem example_attempt :
    example_sampler.attempt ⟨0, 255⟩ example_draws 0
      = some { states := [.draw, .route_outer, .outer_reject, .wedge, .wedge_reject]
               r := 127, x := 77 / 256, value := none, pos := 3 } := by
  have h1 := example_real_draw 1 (by decide)
  have h2 := example_real_draw 2 (by decide)
  have hm : example_sampler.mantissa 127 = 127 := by decide
  have hi : example_sampler.index 127 = 0 := by decide
  have hso : example_sampler.sample_outer ⟨0, 255⟩ example_draws 1 = some (false, 3, 2) := by
    simp only [Sampler.sample_outer, example_sampler] at h1 ⊢
    rw [h1]
    norm_num [example_draws]
  have hw : example_sampler.wedge ⟨0, 255⟩ example_draws 127
      [.draw, .route_outer, .outer_reject] 2
      = some { states := [.draw, .route_outer, .outer_reject, .wedge, .wedge_reject]
               r := 127, x := 77 / 256, value := none, pos := 3 } := by
    unfold Sampler.wedge
    simp only [hm, hi]
    simp only [example_sampler] at h2 ⊢
    rw [h2]
    norm_num [example_draws, Sampler.wedge_density]
  unfold Sampler.attempt
  simp only [show example_sampler.bits = 16 from rfl, show example_sampler.W = 8 from rfl,
    example_integer_draw, hm, hi, hso, hw]
  norm_num [example_sampler, Category.HasOuter, Category.HasRejection]

theorem wedge_states (S : Sampler) (R : RngType) (draws : Nat → Nat) (r : Nat)
    (st : List SamplerState) (pos : Nat) (a : Attempt)
    (h : S.wedge R draws r st pos = some a) :
    (a.states = st ++ [.wedge, .wedge_accept] ∧ a.value.isSome = true) ∨
    (a.states = st ++ [.wedge, .wedge_reject] ∧ a.value = none) := by
  obtain ⟨_, _, _, _, hcase⟩ := wedge_cases S R draws r st pos a h
  rcases hcase with ⟨_, h1, h2⟩ | ⟨_, h1, h2⟩
  · exact Or.inl ⟨h1, by rw [h2]; rfl⟩
  · exact Or.inr ⟨h1, h2⟩

/-- C13 (counterexample): in the run of the rejection-composite example
sampler on the draws `127, 200, 77`, the mantissa `127` is routed to the outer
distribution (`127 ≥ 64`), the outer sample is rejected, and the same pass goes
on to the wedge: it reads the third draw for `v = 77/256` and performs the
wedge test before the loop starts again. -/
theorem outer_reject_reaches_wedge :
    example_sampler.cat = .rejection_composite ∧
    example_sampler.sample_outer ⟨0, 255⟩ example_draws 1 = some (false, 3, 2) ∧
    generate_random_real 53 ⟨0, 255⟩ 64 8 example_draws 2 = some (77 / 256, 3) ∧
    example_sampler.attempt ⟨0, 255⟩ example_draws 0
      = some { states := [.draw, .route_outer, .outer_reject, .wedge, .wedge_reject]
               r := 127, x := 77 / 256, value := none, pos := 3 } := by
  refine ⟨rfl, ?_, ?_, example_attempt⟩
  · have h1 := example_real_draw 1 (by decide)
    simp only [Sampler.sample_outer, example_sampler] at h1 ⊢
    rw [h1]
    norm_num [example_draws]
  · have h2 := example_real_draw 2 (by decide)
    rw [h2]
    norm_num [example_draws]

/-- C13 (amended): when a pass is routed to the outer distribution and the
outer sample is rejected (this happens for the rejection-composite category
only), the pass does not end there: it goes on to the wedge, draws the real
`v` after the outer sample, forms `x = x_[i] + v*(x_[i+1] - x_[i])` and
returns the transform of `x` if `u*scaled_fsup < func_(x)`; only when this
test fails as well does the loop start again. -/
theorem outer_reject_falls_through (S : Sampler) (R : RngType) (draws : Nat → Nat)
    (pos : Nat) (a : Attempt) (h : S.attempt R draws pos = some a)
    (hrej : SamplerState.outer_reject ∈ a.states) :
    S.cat = .rejection_composite ∧
    ∃ pos1 x pos2 w, generate_random_integer R S.bits S.W draws pos = some (a.r, pos1) ∧
      S.outer_switch_ ≤ S.mantissa a.r ∧
      S.sample_outer R draws pos1 = some (false, x, pos2) ∧
      generate_random_real S.digits R S.real_bits S.W draws pos2 = some (w, a.pos) ∧
      a.x = S.x_.getD (S.index a.r) 0
              + w * (S.x_.getD (S.index a.r + 1) 0 - S.x_.getD (S.index a.r) 0) ∧
      (((S.mantissa a.r : ℚ) * (S.data_.getD (S.index a.r) ⟨0, 0, 0⟩).scaled_fsup
            < S.wedge_density a.x ∧
          a.states = [.draw, .route_outer, .outer_reject, .wedge, .wedge_accept] ∧
          a.value = some (S.wedge_value (S.sign a.r) a.x)) ∨
       (¬ (S.mantissa a.r : ℚ) * (S.data_.getD (S.index a.r) ⟨0, 0, 0⟩).scaled_fsup
            < S.wedge_density a.x ∧
          a.states = [.draw, .route_outer, .outer_reject, .wedge, .wedge_reject] ∧
          a.value = none)) := by
  obtain ⟨r, pos1, hg, hr, hcase⟩ := attempt_cases S R draws pos a h
  rcases hcase with ⟨_, ha⟩ | ⟨_, _, acc, x, pos2, hso, _, ha⟩ |
    ⟨_, ho, acc, x, pos2, hso, hacc, hw⟩ | ⟨_, _, hw⟩
  · rw [ha] at hrej; simp at hrej
  · rw [ha] at hrej; simp at hrej
  · have hrc : S.cat.HasRejection = true := by
      by_contra hc
      exact hacc (Or.inl (by simpa using hc))
    have hfalse : acc = false := by
      by_contra hc
      exact hacc (Or.inr (by simpa using hc))
    have hcat : S.cat = .rejection_composite := by
      cases hc : S.cat <;> simp_all [Category.HasRejection]
    obtain ⟨w, hgw, hr2, hx, hcase2⟩ := wedge_cases S R draws r _ pos2 a hw
    subst hfalse
    refine ⟨hcat, pos1, x, pos2, w, by rw [hr]; exact hg, by rw [hr]; exact ho.2, hso, hgw,
      by rw [hr]; exact hx, ?_⟩
    rw [hr]
    simpa using hcase2
  · rcases wedge_states S R draws r _ pos1 a hw with ⟨h1, _⟩ | ⟨h1, _⟩ <;>
      (rw [h1] at hrej; simp at hrej)

theorem outer_reject_falls_through_witness :
    ∃ a, example_sampler.attempt ⟨0, 255⟩ example_draws 0 = some a ∧
      example_sampler.cat = .rejection_composite ∧
      ∃ pos1 x pos2 w,
        generate_random_integer ⟨0, 255⟩ example_sampler.bits example_sampler.W example_draws 0
          = some (a.r, pos1) ∧
        example_sampler.outer_switch_ ≤ example_sampler.mantissa a.r ∧
        example_sampler.sample_outer ⟨0, 255⟩ example_draws pos1 = some (false, x, pos2) ∧
        generate_random_real example_sampler.digits ⟨0, 255⟩ example_sampler.real_bits
          example_sampler.W example_draws pos2 = some (w, a.pos) ∧
        a.x = example_sampler.x_.getD (example_sampler.index a.r) 0
              + w * (example_sampler.x_.getD (example_sampler.index a.r + 1) 0
                      - example_sampler.x_.getD (example_sampler.index a.r) 0) ∧
        (((example_sampler.mantissa a.r : ℚ) *
              (example_sampler.data_.getD (example_sampler.index a.r) ⟨0, 0, 0⟩).scaled_fsup
              < example_sampler.wedge_density a.x ∧
            a.states = [.draw, .route_outer, .outer_reject, .wedge, .wedge_accept] ∧
            a.value = some (example_sampler.wedge_value (example_sampler.sign a.r) a.x)) ∨
         (¬ (example_sampler.mantissa a.r : ℚ) *
              (example_sampler.data_.getD (example_sampler.index a.r) ⟨0, 0, 0⟩).scaled_fsup
              < example_sampler.wedge_density a.x ∧
            a.states = [.draw, .route_outer, .outer_reject, .wedge, .wedge_reject] ∧
            a.value = none)) :=
  ⟨_, example_attempt,
    outer_reject_falls_through example_sampler ⟨0, 255⟩ example_draws 0 _ example_attempt
      (by simp)⟩

theorem attempt_returns_shape_transform_witness :
    ∃ a, example_sampler.attempt ⟨0, 255⟩ (fun _ => 3) 0 = some a ∧
      a.value = some (3 / 32) ∧
      (3 / 32 : ℚ) = shape_transform example_sampler.shape example_sampler.x_origin_
        (example_sampler.sign a.r) (example_sampler.caller_abscissa a) := by
  have hi : generate_random_integer ⟨0, 255⟩ 16 8 (fun _ => 3) 0 = some (3, 1) := by decide
  have hm : example_sampler.mantissa 3 = 3 := by decide
  have hx : example_sampler.index 3 = 0 := by decide
  have ha : example_sampler.attempt ⟨0, 255⟩ (fun _ => 3) 0
      = some { states := [.draw, .fast_accept], r := 3, x := 3 / 32, value := some (3 / 32),
               pos := 1 } := by
    unfold Sampler.attempt
    simp only [show example_sampler.bits = 16 from rfl, show example_sampler.W = 8 from rfl,
      hi, hm, hx]
    norm_num [example_sampler, Sampler.fast_value]
  exact ⟨_, ha, rfl,
    (attempt_returns_shape_transform example_sampler ⟨0, 255⟩ (fun _ => 3) 0 _ (3 / 32)
      ha rfl).2.1⟩

theorem build_inv (W N : Nat) (shape : Shape) (cat : Category) (x_origin : ℚ)
    (xs : List ℚ) (finf fsup : Nat → ℚ) (outer_area : ℚ) (t : Table)
    (h : build W N shape cat x_origin xs finf fsup outer_area = .ok t) :
    xs.length = 2 ^ N + 1 ∧
    t.x_ = (if x_origin ≠ 0 then xs.map (fun v => v - x_origin) else xs) ∧
    t.data_ = (List.range (2 ^ N)).map (build_datum t.outer_switch t.x_ finf fsup) ∧
    t.outer_switch = compute_outer_switch W N shape cat t.x_ fsup outer_area := by
  by_cases hlen : xs.length = 2 ^ N + 1
  · rw [build_ok W N shape cat x_origin xs finf fsup outer_area hlen] at h
    have ht := Except.ok.inj h
    subst ht
    exact ⟨hlen, rfl, rfl, rfl⟩
  · simp [build, hlen] at h

theorem built_length (W N : Nat) (shape : Shape) (cat : Category) (x_origin : ℚ)
    (xs : List ℚ) (finf fsup : Nat → ℚ) (outer_area : ℚ) (t : Table)
    (h : build W N shape cat x_origin xs finf fsup outer_area = .ok t) :
    t.x_.length = 2 ^ N + 1 := by
  obtain ⟨h1, h2, _, _⟩ := build_inv W N shape cat x_origin xs finf fsup outer_area t h
  rw [h2]
  split_ifs
  · rw [List.length_map]; exact h1
  · exact h1

theorem generate_random_real_unit (digits K bits W : Nat) (draws : Nat → Nat) (pos : Nat)
    (hK : 1 ≤ K) (hW : 1 ≤ W) (hdig : 1 ≤ digits) (hb : 2 ≤ bits)
    (hMb : min W digits ≤ bits) (hd : ∀ i, draws i < 2 ^ K) :
    ∃ v, generate_random_real digits ⟨0, 2 ^ K - 1⟩ bits W draws pos
        = some (v, pos + (min W digits + K - 1) / K) ∧ 0 ≤ v ∧ v < 1 := by
  have hM : (if digits < W then digits else W) = min W digits := by
    split_ifs with h <;> omega
  obtain ⟨k, hk, hlt⟩ := generate_random_integer_lt K bits (min W digits) draws pos hK
    (by omega) hMb hd
  refine ⟨(k : ℚ) / 2 ^ (min W digits), ?_, by positivity, ?_⟩
  · simp only [generate_random_real, hM, hk]
    have h1 : (1 <<< (min W digits / 2)) % 2 ^ bits = 2 ^ (min W digits / 2) := by
      rw [Nat.shiftLeft_eq, one_mul]
      exact Nat.mod_eq_of_lt (Nat.pow_lt_pow_right (by norm_num) (by omega))
    have h2 : (1 <<< (min W digits - min W digits / 2)) % 2 ^ bits
        = 2 ^ (min W digits - min W digits / 2) := by
      rw [Nat.shiftLeft_eq, one_mul]
      exact Nat.mod_eq_of_lt (Nat.pow_lt_pow_right (by norm_num) (by omega))
    rw [h1, h2]
    have h3 : ((2 ^ (min W digits / 2) : Nat) : ℚ)
          * ((2 ^ (min W digits - min W digits / 2) : Nat) : ℚ)
        = 2 ^ (min W digits) := by
      push_cast
      rw [← pow_add]
      congr 1
      omega
    rw [h3]
    congr 1
    field_simp
  · rw [div_lt_one (by positivity)]
    exact_mod_cast hlt

/-- C24: for an interval `i` with `finf[i]/fsup[i] < 0.5`, `build` stores
`scaled_fratio[i] = 0`; in a sampler that uses the records of this table no
pass whose index is `i` goes through the fast path, and a value returned by
such a pass comes from the wedge test or from the outer distribution. -/
theorem low_ratio_never_fast (W N : Nat) (shape : Shape) (cat : Category)
    (x_origin : ℚ) (xs : List ℚ) (finf fsup : Nat → ℚ) (outer_area : ℚ)
    (hlen : xs.length = 2 ^ N + 1) (i : Nat) (hi : i < 2 ^ N)
    (hratio : finf i / fsup i < 1 / 2) :
    ∃ t d, build W N shape cat x_origin xs finf fsup outer_area = .ok t ∧
      t.data_[i]? = some d ∧ d.scaled_fratio = 0 ∧
      ∀ (S : Sampler) (R : RngType) (draws : Nat → Nat) (pos : Nat) (a : Attempt),
        S.data_ = t.data_ → S.attempt R draws pos = some a → S.index a.r = i →
          SamplerState.fast_accept ∉ a.states ∧
          (∀ v, a.value = some v →
            a.states.getLast? = some .outer_accept ∨
            a.states.getLast? = some .wedge_accept) := by
  have h0 : (build_datum (compute_outer_switch W N shape cat
      (if x_origin ≠ 0 then xs.map (fun v => v - x_origin) else xs) fsup outer_area)
      (if x_origin ≠ 0 then xs.map (fun v => v - x_origin) else xs) finf fsup i).scaled_fratio
      = 0 := by
    unfold build_datum
    simp only [not_le.mpr hratio, if_false]
  refine ⟨_, _, build_ok W N shape cat x_origin xs finf fsup outer_area hlen,
    range_map_getElem? _ _ _ hi, h0, ?_⟩
  intro S R draws pos a hdata hatt hidx
  have hd0 : (S.data_.getD (S.index a.r) ⟨0, 0, 0⟩).scaled_fratio = 0 := by
    rw [hdata, hidx]
    simp only []
    rw [List.getD_eq_getElem?_getD, range_map_getElem? _ _ _ hi]
    exact h0
  obtain ⟨r, pos1, hg, hr, hcase⟩ := attempt_cases S R draws pos a hatt
  rw [← hr] at hcase
  have hw : ∀ (st : List SamplerState) (p : Nat), SamplerState.fast_accept ∉ st →
      S.wedge R draws a.r st p = some a →
      SamplerState.fast_accept ∉ a.states ∧
      (∀ v, a.value = some v →
        a.states.getLast? = some .outer_accept ∨
        a.states.getLast? = some .wedge_accept) := by
    intro st p hst hwe
    rcases wedge_states S R draws a.r st p a hwe with ⟨h1, _⟩ | ⟨h1, h2⟩
    · refine ⟨by rw [h1]; simpa using hst, fun v _ => Or.inr (by rw [h1]; simp)⟩
    · refine ⟨by rw [h1]; simpa using hst, fun v hv => ?_⟩
      rw [h2] at hv
      exact absurd hv (by simp)
  rcases hcase with ⟨hf, _⟩ | ⟨_, _, acc, x, pos2, _, _, ha⟩ | ⟨_, _, _, _, pos2, _, _, hwe⟩ |
    ⟨_, _, hwe⟩
  · rw [hd0] at hf
    exact absurd hf (Nat.not_lt_zero _)
  · refine ⟨by rw [ha]; simp, fun v _ => Or.inl (by rw [ha]; simp)⟩
  · exact hw _ pos2 (by simp) hwe
  · exact hw _ pos1 (by simp) hwe

theorem low_ratio_never_fast_witness :
    ∃ t d, build 8 1 .asymmetric .bounded 0 [0, 1, 2] (fun _ => 1 / 4) (fun _ => 1) 0 = .ok t ∧
      t.data_[1]? = some d ∧ d.scaled_fratio = 0 ∧
      ∀ (S : Sampler) (R : RngType) (draws : Nat → Nat) (pos : Nat) (a : Attempt),
        S.data_ = t.data_ → S.attempt R draws pos = some a → S.index a.r = 1 →
          SamplerState.fast_accept ∉ a.states ∧
          (∀ v, a.value = some v →
            a.states.getLast? = some .outer_accept ∨
            a.states.getLast? = some .wedge_accept) :=
  low_ratio_never_fast 8 1 .asymmetric .bounded 0 [0, 1, 2] (fun _ => 1 / 4) (fun _ => 1) 0
    (by decide) 1 (by decide) (by norm_num)

theorem outer_value_eq (S : Sampler) (s : ℤ) (x : ℚ) :
    S.outer_value s x = shape_transform S.shape S.x_origin_ s x := by
  cases hsh : S.shape <;> simp [Sampler.outer_value, shape_transform, hsh]

theorem example_table_built :
    build example_sampler.W example_sampler.N example_sampler.shape example_sampler.cat
        example_sampler.build_origin [0, 1, 2] (fun _ => 1 / 2) (fun _ => 1) 2
      = .ok ⟨example_sampler.x_, example_sampler.data_, 64⟩ := by
  have hA : upper_quadrature_area (2 ^ 1) [0, 1, 2] (fun _ => 1) = 2 := by
    norm_num [upper_quadrature_area, List.range, List.range.loop]
  have hos : compute_outer_switch 8 1 .asymmetric .rejection_composite [0, 1, 2]
      (fun _ => 1) 2 = 64 := by
    unfold compute_outer_switch
    simp only [Category.HasOuter, Shape.IsSymmetric, if_true]
    rw [hA, std_round_eq _ 64 (by norm_num) (by norm_num) (by norm_num)]
    rfl
  have hu : to_uint ((1 / 2 : ℚ) / 1 * ((64 : Nat) : ℚ)) = 32 :=
    to_uint_eq _ 32 (by norm_num) (by norm_num)
  have hd : ∀ i, i < 2 → build_datum 64 [0, 1, 2] (fun _ => 1 / 2) (fun _ => 1) i
      = { scaled_fratio := 32, scaled_fsup := 1 / 64, scaled_dx := 1 / 32 } := by
    intro i hi
    unfold build_datum
    have h12 : (1 : ℚ) / 2 ≤ 1 / 2 / 1 := by norm_num
    simp only [h12, if_true, hu]
    interval_cases i <;> norm_num
  show build 8 1 .asymmetric .rejection_composite 0 [0, 1, 2] (fun _ => 1 / 2) (fun _ => 1) 2
      = .ok ⟨[0, 1, 2], _, 64⟩
  rw [build_ok _ _ _ _ _ _ _ _ _ (by norm_num)]
  simp only [ne_eq, not_true_eq_false, if_false, hos]
  simp only [List.range, List.range.loop, List.map, hd 0 (by norm_num), hd 1 (by norm_num)]
  rfl

theorem sample_continue (S : Sampler) (R : RngType) (draws : Nat → Nat) (pos : Nat)
    (a : Attempt) (h : S.attempt R draws pos = some a) (hv : a.value = none) (fuel : Nat) :
    S.sample R draws (fuel + 1) pos = S.sample R draws fuel a.pos := by
  simp only [Sampler.sample, h, hv]

theorem sample_return (S : Sampler) (R : RngType) (draws : Nat → Nat) (pos : Nat)
    (a : Attempt) (v : ℚ) (h : S.attempt R draws pos = some a) (hv : a.value = some v)
    (fuel : Nat) :
    S.sample R draws (fuel + 1) pos = some (v, a.pos) := by
  simp only [Sampler.sample, h, hv]

theorem sample_outer_composite (S : Sampler) (R : RngType) (draws : Nat → Nat) (pos : Nat)
    (acc : Bool) (x : ℚ) (pos2 : Nat) (hc : S.cat = .composite)
    (h : S.sample_outer R draws pos = some (acc, x, pos2)) :
    acc = true ∧ S.outer_dist_ draws pos = some (x, pos2) := by
  simp only [Sampler.sample_outer, hc] at h
  cases ho : S.outer_dist_ draws pos with
  | none => rw [ho] at h; exact absurd h (by simp)
  | some t =>
    obtain ⟨x1, p1⟩ := t
    rw [ho] at h
    simp only [Option.some.injEq, Prod.mk.injEq] at h
    obtain ⟨h1, h2, h3⟩ := h
    subst h1 h2 h3
    exact ⟨rfl, rfl⟩

theorem sample_outer_rejection (S : Sampler) (R : RngType) (draws : Nat → Nat) (pos : Nat)
    (acc : Bool) (x : ℚ) (pos2 : Nat) (hc : S.cat = .rejection_composite)
    (h : S.sample_outer R draws pos = some (acc, x, pos2)) :
    ∃ r2 p, generate_random_real S.digits R S.real_bits S.W draws pos = some (r2, p) ∧
      S.outer_dist_ draws p = some (x, pos2) ∧
      (acc = true ↔ r2 * S.outer_func_ x ≤ S.func_ x) := by
  simp only [Sampler.sample_outer, hc] at h
  cases hg : generate_random_real S.digits R S.real_bits S.W draws pos with
  | none => rw [hg] at h; exact absurd h (by simp)
  | some t =>
    obtain ⟨r2, p⟩ := t
    rw [hg] at h
    simp only [] at h
    cases ho : S.outer_dist_ draws p with
    | none => rw [ho] at h; exact absurd h (by simp)
    | some t2 =>
      obtain ⟨x1, p1⟩ := t2
      rw [ho] at h
      simp only [Option.some.injEq, Prod.mk.injEq] at h
      obtain ⟨h1, h2, h3⟩ := h
      exact ⟨r2, p, rfl, by rw [ho, h2, h3], by rw [← h1, ← h2]; simp⟩

/-- C28: a pass calls the outer distribution (through `sample_outer`) exactly
when the category is not bounded, the fast-path test failed and
`u >= outer_switch`, and then once; the outer sample `x` is returned for the
composite category always, and for the rejection-composite category exactly
when `r2 * outer_func_(x) <= func_(x)`, where `r2` is a real of `[0, 1)` drawn
before `x` (generator of range `[0, 2^K - 1]`). -/
theorem outer_routing (S : Sampler) (K : Nat) (draws : Nat → Nat) (pos : Nat) (a : Attempt)
    (hK : 1 ≤ K) (hW : 1 ≤ S.W) (hdig : 1 ≤ S.digits) (hb : 2 ≤ S.real_bits)
    (hMb : min S.W S.digits ≤ S.real_bits) (hd : ∀ i, draws i < 2 ^ K)
    (h : S.attempt ⟨0, 2 ^ K - 1⟩ draws pos = some a) :
    (SamplerState.route_outer ∈ a.states ↔
      S.cat ≠ .bounded ∧
      ¬ S.mantissa a.r < (S.data_.getD (S.index a.r) ⟨0, 0, 0⟩).scaled_fratio ∧
      S.outer_switch_ ≤ S.mantissa a.r) ∧
    a.states.count .route_outer ≤ 1 ∧
    (SamplerState.route_outer ∈ a.states →
      ∃ pos1 acceptance x pos2,
        generate_random_integer ⟨0, 2 ^ K - 1⟩ S.bits S.W draws pos = some (a.r, pos1) ∧
        S.sample_outer ⟨0, 2 ^ K - 1⟩ draws pos1 = some (acceptance, x, pos2) ∧
        (SamplerState.outer_accept ∈ a.states ↔ S.cat = .composite ∨ acceptance = true) ∧
        (SamplerState.outer_accept ∈ a.states →
          a.value = some (shape_transform S.shape S.x_origin_ (S.sign a.r) x) ∧
          a.pos = pos2) ∧
        (S.cat = .composite → S.outer_dist_ draws pos1 = some (x, pos2)) ∧
        (S.cat = .rejection_composite →
          ∃ r2 p, generate_random_real S.digits ⟨0, 2 ^ K - 1⟩ S.real_bits S.W draws pos1
              = some (r2, p) ∧
            0 ≤ r2 ∧ r2 < 1 ∧ S.outer_dist_ draws p = some (x, pos2) ∧
            (acceptance = true ↔ r2 * S.outer_func_ x ≤ S.func_ x))) := by
  have hcatb : S.cat ≠ .bounded ↔ S.cat.HasOuter = true := by
    cases hc : S.cat <;> simp [Category.HasOuter]
  have hdetail : ∀ (pos1 : Nat) (acc : Bool) (x : ℚ) (pos2 : Nat),
      S.sample_outer ⟨0, 2 ^ K - 1⟩ draws pos1 = some (acc, x, pos2) →
      (S.cat = .composite → S.outer_dist_ draws pos1 = some (x, pos2)) ∧
      (S.cat = .rejection_composite →
        ∃ r2 p, generate_random_real S.digits ⟨0, 2 ^ K - 1⟩ S.real_bits S.W draws pos1
            = some (r2, p) ∧
          0 ≤ r2 ∧ r2 < 1 ∧ S.outer_dist_ draws p = some (x, pos2) ∧
          (acc = true ↔ r2 * S.outer_func_ x ≤ S.func_ x)) := by
    intro pos1 acc x pos2 hso
    constructor
    · intro hc
      exact (sample_outer_composite S _ draws pos1 acc x pos2 hc hso).2
    · intro hc
      obtain ⟨r2, p, hg, ho, hiff⟩ := sample_outer_rejection S _ draws pos1 acc x pos2 hc hso
      obtain ⟨v1, hg1, hv0, hv1⟩ := generate_random_real_unit S.digits K S.real_bits S.W
        draws pos1 hK hW hdig hb hMb hd
      rw [hg1] at hg
      have hvv : v1 = r2 := congrArg Prod.fst (Option.some.inj hg)
      subst hvv
      exact ⟨v1, p, by rw [hg1, hg], hv0, hv1, ho, hiff⟩
  obtain ⟨r, pos1, hg, hr, hcase⟩ := attempt_cases S _ draws pos a h
  rw [← hr] at hcase hg
  rcases hcase with ⟨hf, ha⟩ | ⟨hf, ho, acc, x, pos2, hso, hacc, ha⟩ |
    ⟨hf, ho, acc, x, pos2, hso, hacc, hwe⟩ | ⟨hf, ho, hwe⟩
  · have hst : a.states = [.draw, .fast_accept] := by rw [ha]
    clear ha
    have hno : SamplerState.route_outer ∉ a.states := by rw [hst]; simp
    refine ⟨⟨fun hc => absurd hc hno, fun hc => absurd hf hc.2.1⟩, ?_, fun hc => absurd hc hno⟩
    rw [hst]; decide
  · have hst : a.states = [.draw, .route_outer, .outer_accept] := by rw [ha]
    have hval : a.value = some (S.outer_value (S.sign a.r) x) := by rw [ha]
    have hp : a.pos = pos2 := by rw [ha]
    clear ha
    refine ⟨⟨fun _ => ⟨hcatb.mpr ho.1, hf, ho.2⟩, fun _ => by rw [hst]; simp⟩,
      by rw [hst]; decide, fun _ => ⟨pos1, acc, x, pos2, hg, hso, ?_, ?_,
        (hdetail pos1 acc x pos2 hso).1, (hdetail pos1 acc x pos2 hso).2⟩⟩
    · refine ⟨fun _ => ?_, fun _ => by rw [hst]; simp⟩
      rcases hacc with hrej | hacc
      · have : S.cat = .composite := by
          cases hc : S.cat <;> simp_all [Category.HasRejection, Category.HasOuter]
        exact Or.inl this
      · exact Or.inr hacc
    · intro _
      rw [outer_value_eq] at hval
      exact ⟨hval, hp⟩
  · have hrc : S.cat.HasRejection = true := by
      by_contra hc
      exact hacc (Or.inl (by simpa using hc))
    have hfalse : ¬ acc = true := fun hc => hacc (Or.inr hc)
    have hcat : S.cat = .rejection_composite := by
      cases hc : S.cat <;> simp_all [Category.HasRejection]
    have hst : a.states = [.draw, .route_outer, .outer_reject, .wedge, .wedge_accept] ∨
        a.states = [.draw, .route_outer, .outer_reject, .wedge, .wedge_reject] := by
      rcases wedge_states S _ draws a.r _ pos2 a hwe with ⟨h1, _⟩ | ⟨h1, _⟩
      · exact Or.inl (by rw [h1]; rfl)
      · exact Or.inr (by rw [h1]; rfl)
    have hmem : SamplerState.route_outer ∈ a.states := by
      rcases hst with h1 | h1 <;> (rw [h1]; simp)
    have hnacc : SamplerState.outer_accept ∉ a.states := by
      rcases hst with h1 | h1 <;> (rw [h1]; simp)
    refine ⟨⟨fun _ => ⟨hcatb.mpr ho.1, hf, ho.2⟩, fun _ => hmem⟩, ?_,
      fun _ => ⟨pos1, acc, x, pos2, hg, hso, ?_, fun hc => absurd hc hnacc,
        (hdetail pos1 acc x pos2 hso).1, (hdetail pos1 acc x pos2 hso).2⟩⟩
    · rcases hst with h1 | h1 <;> (rw [h1]; decide)
    · refine ⟨fun hc => absurd hc hnacc, fun hc => ?_⟩
      rcases hc with hc | hc
      · rw [hcat] at hc
        exact absurd hc (by simp)
      · exact absurd hc hfalse
  · have hst : a.states = [.draw, .wedge, .wedge_accept] ∨
        a.states = [.draw, .wedge, .wedge_reject] := by
      rcases wedge_states S _ draws a.r _ pos1 a hwe with ⟨h1, _⟩ | ⟨h1, _⟩
      · exact Or.inl (by rw [h1]; rfl)
      · exact Or.inr (by rw [h1]; rfl)
    have hno : SamplerState.route_outer ∉ a.states := by
      rcases hst with h1 | h1 <;> (rw [h1]; simp)
    refine ⟨⟨fun hc => absurd hc hno, fun hc => absurd ⟨hcatb.mp hc.1, hc.2.2⟩ ho⟩, ?_,
      fun hc => absurd hc hno⟩
    rcases hst with h1 | h1 <;> (rw [h1]; decide)

theorem example_draws_lt (i : Nat) : example_draws i < 2 ^ 8 := by
  unfold example_draws
  rcases i with _ | _ | _ | i <;> simp

theorem outer_routing_witness :
    SamplerState.route_outer ∈
        [SamplerState.draw, .route_outer, .outer_reject, .wedge, .wedge_reject] ↔
      example_sampler.cat ≠ .bounded ∧
      ¬ example_sampler.mantissa 127
          < (example_sampler.data_.getD (example_sampler.index 127) ⟨0, 0, 0⟩).scaled_fratio ∧
      example_sampler.outer_switch_ ≤ example_sampler.mantissa 127 :=
  (outer_routing example_sampler 8 example_draws 0
      { states := [.draw, .route_outer, .outer_reject, .wedge, .wedge_reject]
        r := 127, x := 77 / 256, value := none, pos := 3 }
      (by decide) (by decide) (by decide) (by decide) (by decide) example_draws_lt
      example_attempt).1

/-! ### The central shape as the symmetric shape with origin `0` -/

theorem wedge_central_symmetric (S : Sampler) (R : RngType) (draws : Nat → Nat) (r : Nat)
    (st : List SamplerState) (pos : Nat) :
    ({ S with shape := .symmetric, x_origin_ := 0 } : Sampler).wedge R draws r st pos
      = ({ S with shape := .central } : Sampler).wedge R draws r st pos := by
  simp only [Sampler.wedge, Sampler.mantissa, Sampler.index, Sampler.sign,
    Sampler.wedge_density, Sampler.wedge_value, add_zero, zero_add]

theorem attempt_central_symmetric (S : Sampler) (R : RngType) (draws : Nat → Nat)
    (pos : Nat) :
    ({ S with shape := .symmetric, x_origin_ := 0 } : Sampler).attempt R draws pos
      = ({ S with shape := .central } : Sampler).attempt R draws pos := by
  have hw := wedge_central_symmetric S R draws
  simp only [Sampler.attempt, hw]
  simp only [Sampler.mantissa, Sampler.index, Sampler.sign, Sampler.fast_value,
    Sampler.outer_value, Sampler.sample_outer, add_zero, zero_add, sub_zero]

/-- C15: with the same breakpoints, `finf`, `fsup` and outer area, the
constructor of `symmetric_distribution` with `x0 = 0` makes the table and the
outer switch that the constructor of `central_distribution` makes; and a
symmetric sampler with origin `0` and a central sampler with the same members
go through the same pass from every position of every draw sequence, return
the same value after the same draws, and report the same `min()` and
`max()`. -/
theorem central_is_symmetric_at_zero (W N : Nat) (cat : Category) (xs : List ℚ)
    (finf fsup : Nat → ℚ) (outer_area : ℚ) (S : Sampler) (R : RngType)
    (draws : Nat → Nat) :
    symmetric_distribution W N cat 0 xs finf fsup outer_area
      = central_distribution W N cat xs finf fsup outer_area ∧
    (∀ pos, ({ S with shape := .symmetric, x_origin_ := 0 } : Sampler).attempt R draws pos
      = ({ S with shape := .central } : Sampler).attempt R draws pos) ∧
    (∀ fuel pos,
      ({ S with shape := .symmetric, x_origin_ := 0 } : Sampler).sample R draws fuel pos
        = ({ S with shape := .central } : Sampler).sample R draws fuel pos) ∧
    ({ S with shape := .symmetric, x_origin_ := 0 } : Sampler).min
      = ({ S with shape := .central } : Sampler).min ∧
    ({ S with shape := .symmetric, x_origin_ := 0 } : Sampler).max
      = ({ S with shape := .central } : Sampler).max := by
  refine ⟨?_, attempt_central_symmetric S R draws, ?_, ?_, ?_⟩
  · simp [symmetric_distribution, central_distribution, build, compute_outer_switch,
      Shape.IsSymmetric]
  · intro fuel
    induction fuel with
    | zero => intro pos; rfl
    | succ fuel ih =>
      intro pos
      simp only [Sampler.sample, attempt_central_symmetric S R draws pos, ih]
  · simp only [Sampler.min, zero_add, zero_sub, mul_zero]
  · simp only [Sampler.max, zero_add, zero_sub, mul_zero]

/-! ### Support containment -/

theorem concatenate_draws_eq_sum (K : Nat) (draws : Nat → Nat) (q m : Nat) :
    ∀ pos, concatenate_draws K draws pos q m
      = (∑ j in Finset.range q, draws (pos + j) * 2 ^ ((q - 1 - j) * K + m))
        + (if m = 0 then 0 else draws (pos + q) >>> (K - m)) := by
  induction q with
  | zero => intro pos; simp [concatenate_draws]
  | succ q ih =>
    intro pos
    rw [concatenate_draws, ih (pos + 1), Finset.sum_range_succ']
    have h1 : ∀ j, pos + 1 + j = pos + (j + 1) := fun j => by omega
    have h2 : pos + 1 + q = pos + (q + 1) := by omega
    have h3 : ∀ j, q + 1 - 1 - (j + 1) = q - 1 - j := fun j => by omega
    have hsum : ∑ j in Finset.range q, draws (pos + 1 + j) * 2 ^ ((q - 1 - j) * K + m)
        = ∑ j in Finset.range q,
            draws (pos + (j + 1)) * 2 ^ ((q + 1 - 1 - (j + 1)) * K + m) :=
      Finset.sum_congr rfl (fun j _ => by rw [h1, h3])
    rw [hsum, h2]
    simp only [Nat.add_zero, Nat.sub_zero, Nat.add_sub_cancel]
    ring

theorem shiftLeft_or_eq (u i b : Nat) (hb : b < 2 ^ i) : (u <<< i) ||| b = u * 2 ^ i + b := by
  rw [Nat.shiftLeft_eq, Nat.mul_comm, ← Nat.mul_add_lt_is_or hb]

theorem generate_next_zero (N bits : Nat) (draws : Nat → Nat) (fuel u pos : Nat) :
    generate_next N bits draws fuel 0 u pos = some (u, pos) := by
  cases fuel <;> simp [generate_next]

theorem generate_next_concat (K bits : Nat) (draws : Nat → Nat) (hK : 1 ≤ K)
    (hKb : K ≤ bits) (hd : ∀ i, draws i < 2 ^ K) :
    ∀ q m fuel u a pos : Nat, m < K → q * K + m ≤ fuel → u < 2 ^ a → a + (q * K + m) ≤ bits →
      generate_next K bits draws fuel (q * K + m) u pos
        = some (u * 2 ^ (q * K + m) + concatenate_draws K draws pos q m,
                pos + (q + (if m = 0 then 0 else 1))) := by
  intro q
  induction q with
  | zero =>
    intro m fuel u a pos hm hfuel hu ha
    simp only [Nat.zero_mul, Nat.zero_add] at hfuel ha ⊢
    cases m with
    | zero => simp [generate_next_zero, concatenate_draws]
    | succ m =>
      obtain ⟨f, rfl⟩ : ∃ f, fuel = f + 1 := ⟨fuel - 1, by omega⟩
      rw [generate_next_succ]
      have hmin : min K (m + 1) = m + 1 := by omega
      rw [hmin, Nat.sub_self, generate_next_zero]
      have hu1 : u <<< (m + 1) < 2 ^ (a + (m + 1)) := by
        rw [Nat.shiftLeft_eq, pow_add 2 a (m + 1)]
        exact Nat.mul_lt_mul_of_lt_of_le hu (le_refl _) (Nat.pow_pos (by norm_num))
      have hm1 : (u <<< (m + 1)) % 2 ^ bits = u <<< (m + 1) :=
        Nat.mod_eq_of_lt (lt_of_lt_of_le hu1 (Nat.pow_le_pow_right (by norm_num) ha))
      have hm2 : draws pos % 2 ^ bits = draws pos :=
        Nat.mod_eq_of_lt (lt_of_lt_of_le (hd pos) (Nat.pow_le_pow_right (by norm_num) hKb))
      have hlow : draws pos >>> (K - (m + 1)) < 2 ^ (m + 1) :=
        shiftRight_lt_two_pow _ _ _ (hd pos) (by omega)
      rw [hm1, hm2, shiftLeft_or_eq _ _ _ hlow]
      simp [concatenate_draws]
  | succ q ih =>
    intro m fuel u a pos hm hfuel hu ha
    have hP : (q + 1) * K + m = (q * K + m + K - 1) + 1 := by
      have : (q + 1) * K = q * K + K := by ring
      omega
    obtain ⟨f, rfl⟩ : ∃ f, fuel = f + 1 := ⟨fuel - 1, by omega⟩
    have hPK : (q + 1) * K + m = q * K + m + K := by ring
    rw [hP, generate_next_succ, ← hP]
    have hmin : min K ((q + 1) * K + m) = K := by
      rw [hPK]; omega
    have hsub : (q + 1) * K + m - K = q * K + m := by omega
    rw [hmin, hsub, Nat.sub_self, Nat.shiftRight_zero]
    have hu1 : u <<< K < 2 ^ (a + K) := by
      rw [Nat.shiftLeft_eq, pow_add 2 a K]
      exact Nat.mul_lt_mul_of_lt_of_le hu (le_refl _) (Nat.pow_pos (by norm_num))
    have hm1 : (u <<< K) % 2 ^ bits = u <<< K :=
      Nat.mod_eq_of_lt (lt_of_lt_of_le hu1 (Nat.pow_le_pow_right (by norm_num) (by omega)))
    have hm2 : draws pos % 2 ^ bits = draws pos :=
      Nat.mod_eq_of_lt (lt_of_lt_of_le (hd pos) (Nat.pow_le_pow_right (by norm_num) hKb))
    rw [hm1, hm2, shiftLeft_or_eq _ _ _ (hd pos)]
    have hlt : u * 2 ^ K + draws pos < 2 ^ (a + K) := by
      rw [pow_add]
      have : (u + 1) * 2 ^ K ≤ 2 ^ a * 2 ^ K := Nat.mul_le_mul_right _ hu
      have h2 : (u + 1) * 2 ^ K = u * 2 ^ K + 2 ^ K := by ring
      have := hd pos
      omega
    rw [ih m f (u * 2 ^ K + draws pos) (a + K) (pos + 1) hm (by omega) hlt (by omega)]
    simp only [concatenate_draws, Option.some.injEq, Prod.mk.injEq]
    constructor
    · rw [hPK, pow_add]
      ring
    · omega

/-- C30: for a generator of range `[0, 2^K - 1]` and `UIntType` wide enough
for `W` bits: if `K >= W`, `generate_random_integer<_, W>` reads one draw `d`
and returns `d >> (K - W)`; if `K < W`, it reads `ceil(W/K)` draws and returns
their concatenation, the first draw in the most significant position: each of
the first `W / K` draws contributes its `K` bits, and when `W mod K != 0` one
more draw contributes its top `W mod K` bits. -/
theorem generate_random_integer_concatenates (K bits W : Nat) (draws : Nat → Nat)
    (pos : Nat) (hK : 1 ≤ K) (hW : 1 ≤ W) (hWb : W ≤ bits) (hd : ∀ i, draws i < 2 ^ K) :
    (W ≤ K →
      generate_random_integer ⟨0, 2 ^ K - 1⟩ bits W draws pos
        = some (draws pos >>> (K - W), pos + 1)) ∧
    (K < W →
      generate_random_integer ⟨0, 2 ^ K - 1⟩ bits W draws pos
        = some ((∑ j in Finset.range (W / K),
                    draws (pos + j) * 2 ^ ((W / K - 1 - j) * K + W % K))
                  + (if W % K = 0 then 0 else draws (pos + W / K) >>> (K - W % K)),
                pos + (W + K - 1) / K) ∧
      (W + K - 1) / K = W / K + (if W % K = 0 then 0 else 1)) := by
  have hgen : generate_random_integer ⟨0, 2 ^ K - 1⟩ bits W draws pos
      = generate_next K bits draws W (W - min K W)
          ((draws pos >>> (K - min K W)) % 2 ^ bits) (pos + 1) := by
    simp only [generate_random_integer, check_rng_range_full_range K hK, if_true,
      rng_digits_full_range K hK]
    exact random_bits_generate_eq _ _ _ _ _ hW
  constructor
  · intro hWK
    rw [hgen]
    have hmin : min K W = W := by omega
    rw [hmin, Nat.sub_self, generate_next_zero]
    have hlow : draws pos >>> (K - W) < 2 ^ W := shiftRight_lt_two_pow _ _ _ (hd pos) hWK
    rw [Nat.mod_eq_of_lt (lt_of_lt_of_le hlow (Nat.pow_le_pow_right (by norm_num) hWb))]
  · intro hKW
    have hmin : min K W = K := by omega
    have hq : 1 ≤ W / K := (Nat.one_le_div_iff (by omega)).mpr hKW.le
    have hdm := Nat.div_add_mod W K
    have hmlt : W % K < K := Nat.mod_lt _ (by omega)
    have hceil : (W + K - 1) / K = W / K + (if W % K = 0 then 0 else 1) := by
      have e : W + K - 1 = (W % K + K - 1) + W / K * K := by
        have : K * (W / K) = W / K * K := Nat.mul_comm _ _
        omega
      rw [e, Nat.add_mul_div_right _ _ (by omega)]
      split_ifs with h0
      · rw [h0, Nat.zero_add, Nat.div_eq_of_lt (by omega)]; omega
      · have e2 : W % K + K - 1 = (W % K - 1) + 1 * K := by omega
        rw [e2, Nat.add_mul_div_right _ _ (by omega), Nat.div_eq_of_lt (by omega)]
        omega
    refine ⟨?_, hceil⟩
    rw [hgen, hmin, Nat.sub_self, Nat.shiftRight_zero]
    have hm2 : draws pos % 2 ^ bits = draws pos :=
      Nat.mod_eq_of_lt (lt_of_lt_of_le (hd pos)
        (Nat.pow_le_pow_right (by norm_num) (by omega)))
    obtain ⟨q, hq1⟩ : ∃ q, W / K = q + 1 := ⟨W / K - 1, by omega⟩
    have hWq : W = (q + 1) * K + W % K := by
      rw [← hq1, Nat.mul_comm]; exact hdm.symm
    have hWK : W - K = q * K + W % K := by
      have : (q + 1) * K = q * K + K := by ring
      omega
    rw [hm2, hWK, generate_next_concat K bits draws hK (by omega) hd q (W % K) W (draws pos) K
      (pos + 1) hmlt (by omega) (hd pos) (by omega)]
    rw [← concatenate_draws_eq_sum, hq1, concatenate_draws, hceil, hq1]
    simp only [Option.some.injEq, Prod.mk.injEq]
    constructor
    · trivial
    · omega

theorem generate_random_integer_concatenates_witness :
    generate_random_integer ⟨0, 2 ^ 8 - 1⟩ 32 20 example_draws 0
      = some ((∑ j in Finset.range (20 / 8),
                  example_draws (0 + j) * 2 ^ ((20 / 8 - 1 - j) * 8 + 20 % 8))
                + (if 20 % 8 = 0 then 0 else example_draws (0 + 20 / 8) >>> (8 - 20 % 8)),
              0 + (20 + 8 - 1) / 8) ∧
      (20 + 8 - 1) / 8 = 20 / 8 + (if 20 % 8 = 0 then 0 else 1) :=
  (generate_random_integer_concatenates 8 32 20 example_draws 0 (by decide) (by decide)
    (by decide) example_draws_lt).2 (by decide)

/-! ## Theorems on `trapezoidal_rule_prepartition` -/

set_option maxHeartbeats 2000000 in
/-- C16 (failing input): for the constant function `1` on `[0, 3]` with four
grid points and two intervals the middle breakpoint is `1`: the loop that
accumulates the total area stops before `y[n-2]`, so `s` is `2` instead of
`3`, the target of the middle breakpoint is `1` instead of `3/2`, and
`C(xp[1]) = 1` differs from `(1/2) * C(x1) = 3/2`. -/
theorem prepartition_uneven_split :
    trapezoidal_rule_prepartition (fun _ => 1) 0 3 2 4 = .ok [0, 1, 3] ∧
    prepartition_total ((prepartition_grid 0 3 4).map (fun _ => (1 : ℚ))) 4 = 2 ∧
    cumulative_trapezoidal_area (fun _ => 1) 0 3 4 1 = 1 ∧
    cumulative_trapezoidal_area (fun _ => 1) 0 3 4 3 = 3 ∧
    cumulative_trapezoidal_area (fun _ => 1) 0 3 4 1
      ≠ (1 : ℚ) / 2 * cumulative_trapezoidal_area (fun _ => 1) 0 3 4 3 := by
  have hg : prepartition_grid 0 3 4 = [0, 1, 2, 3] := by
    norm_num [prepartition_grid, List.range, List.range.loop]
  have hs : prepartition_total ((prepartition_grid 0 3 4).map (fun _ => (1 : ℚ))) 4 = 2 := by
    rw [hg]
    norm_num [prepartition_total, List.range']
  have h1 : cumulative_trapezoidal_area (fun _ => 1) 0 3 4 1 = 1 := by
    unfold cumulative_trapezoidal_area
    rw [hg]
    norm_num [Finset.sum_range_succ]
  have h3 : cumulative_trapezoidal_area (fun _ => 1) 0 3 4 3 = 3 := by
    unfold cumulative_trapezoidal_area
    rw [hg]
    norm_num [Finset.sum_range_succ]
  refine ⟨?_, hs, h1, h3, by rw [h1, h3]; norm_num⟩
  have hs2 : prepartition_total [1, 1, 1, 1] 4 = 2 := by
    norm_num [prepartition_total, List.range']
  unfold trapezoidal_rule_prepartition
  simp only [hg]
  norm_num [prepartition_loop, prepartition_advance, hs2]

theorem foldl_update_getD (relax : ℚ) (dx : List ℚ) (k : Nat) :
    ∀ (s : Nat) (p : ℚ) (L : List ℚ) (j : Nat),
      ((List.range' s k).foldl
        (fun (st : ℚ × List ℚ) i =>
          (st.2.getD i 0,
           st.2.set i
            (min (max (st.2.getD i 0 + relax * dx.getD (i - 1) 0)
                      (min st.1 (st.2.getD (i + 1) 0)))
                 (max st.1 (st.2.getD (i + 1) 0)))))
        (p, L)).2.getD j 0
      = if (s ≤ j ∧ j < s + k) ∧ j < L.length then
          min (max (L.getD j 0 + relax * dx.getD (j - 1) 0)
                (min (if j = s then p else L.getD (j - 1) 0) (L.getD (j + 1) 0)))
              (max (if j = s then p else L.getD (j - 1) 0) (L.getD (j + 1) 0))
        else L.getD j 0 := by
  induction k with
  | zero =>
    intro s p L j
    have h0 : ¬ ((s ≤ j ∧ j < s + 0) ∧ j < L.length) := by omega
    rw [if_neg h0]
    rfl
  | succ k ih =>
    intro s p L j
    rw [List.range'_succ, List.foldl_cons, ih (s + 1)]
    simp only [List.length_set, getD_set]
    by_cases hjs : j = s
    · subst hjs
      have h1 : ¬ ((j + 1 ≤ j ∧ j < j + 1 + k) ∧ j < L.length) := by omega
      rw [if_neg h1]
      by_cases hl : j < L.length
      · have h2 : (j ≤ j ∧ j < j + (k + 1)) ∧ j < L.length := ⟨⟨le_refl _, by omega⟩, hl⟩
        simp [hl, h2]
      · have h2 : ¬ ((j ≤ j ∧ j < j + (k + 1)) ∧ j < L.length) := fun h => hl h.2
        simp [hl, h2]
    · by_cases hc : (s + 1 ≤ j ∧ j < s + 1 + k) ∧ j < L.length
      · have h2 : (s ≤ j ∧ j < s + (k + 1)) ∧ j < L.length := ⟨⟨by omega, by omega⟩, hc.2⟩
        rw [if_pos hc, if_pos h2]
        have e1 : ¬ (s = j ∧ j < L.length) := fun h => hjs h.1.symm
        have e2 : ¬ (s = j + 1 ∧ j + 1 < L.length) := by omega
        rw [if_neg e1, if_neg e2, if_neg hjs]
        by_cases hj1 : j = s + 1
        · subst hj1
          simp
        · have e3 : ¬ (s = j - 1 ∧ j - 1 < L.length) := by omega
          rw [if_neg hj1, if_neg e3]
      · have h2 : ¬ ((s ≤ j ∧ j < s + (k + 1)) ∧ j < L.length) := by omega
        have e1 : ¬ (s = j ∧ j < L.length) := fun h => hjs h.1.symm
        rw [if_neg hc, if_neg h2, if_neg e1]

theorem update_positions_getD (relax : ℚ) (n : Nat) (dx x : List ℚ)
    (hlen : x.length = n + 1) (i : Nat) (h1 : 1 ≤ i) (h2 : i < n) :
    (update_positions relax n dx x).getD i 0
      = min (max (x.getD i 0 + relax * dx.getD (i - 1) 0)
              (min (x.getD (i - 1) 0) (x.getD (i + 1) 0)))
            (max (x.getD (i - 1) 0) (x.getD (i + 1) 0)) := by
  unfold update_positions
  rw [foldl_update_getD]
  have hc : (1 ≤ i ∧ i < 1 + (n - 1)) ∧ i < x.length := ⟨⟨h1, by omega⟩, by omega⟩
  rw [if_pos hc]
  by_cases hi1 : i = 1
  · subst hi1
    simp
  · rw [if_neg hi1]

set_option maxHeartbeats 8000000 in
/-- C18 (counterexample): from the strictly increasing breakpoints
`[0, 1/2, 5/2, 3]` of the parabola `4 - (x - 3/2)^2/2` with the extremum `3/2`
supplied, the linear solve of the first pass gives the step `[25/48, -25/48]`,
and the update with `relax = 2` gives `[0, 37/24, 35/24, 3]`: the two interior
breakpoints have crossed. -/
theorem newton_update_breaks_order :
    ∃ s, newton_next parabola_density parabola_derivative (2 ^ 1023)
        (collect_extrema parabola_density [0, 1 / 2, 5 / 2, 3] [3 / 2]) 2 3
        (newton_initial parabola_density [0, 1 / 2, 5 / 2, 3]) = .ok s ∧
      s.dx = [25 / 48, -25 / 48] ∧
      s.x = [0, 37 / 24, 35 / 24, 3] ∧
      ((0 : ℚ) < 1 / 2 ∧ (1 : ℚ) / 2 < 5 / 2 ∧ (5 : ℚ) / 2 < 3) ∧
      ¬ ((37 : ℚ) / 24 ≤ 35 / 24) := by
  refine ⟨_, rfl, ?_, ?_, by norm_num, by norm_num⟩
  · norm_num [parabola_density, parabola_derivative, newton_initial, newton_sweep,
      solve_tridiagonal_system, eliminate_subdiagonal, back_substitution, jacobian_ds_dxl,
      jacobian_ds_dxc, jacobian_ds_dxr, jacobian_minus_s, update_positions, collect_extrema,
      inner_values, sup_sweep, sup_extrema, List.range', List.replicate, List.range,
      List.range.loop, abs_div, Nat.abs_ofNat, max_def, min_def]
  · norm_num [parabola_density, parabola_derivative, newton_initial, newton_sweep,
      solve_tridiagonal_system, eliminate_subdiagonal, back_substitution, jacobian_ds_dxl,
      jacobian_ds_dxc, jacobian_ds_dxr, jacobian_minus_s, update_positions, collect_extrema,
      inner_values, sup_sweep, sup_extrema, List.range', List.replicate, List.range,
      List.range.loop, abs_div, Nat.abs_ofNat, max_def, min_def]

/-- C18 (amended): an update step of `newton_partition` leaves the two end
breakpoints where they are and moves every interior breakpoint `x[i]` to
`x[i] + relax*dx[i-1]` clamped to the closed interval spanned by the former
positions of its two neighbours; so each updated breakpoint lies between
`min(x[i-1], x[i+1])` and `max(x[i-1], x[i+1])` of the former positions.  (The
order of two updated neighbours is not constrained.) -/
theorem update_positions_clamped (relax : ℚ) (n : Nat) (dx x : List ℚ)
    (hlen : x.length = n + 1) :
    (update_positions relax n dx x).length = n + 1 ∧
    (update_positions relax n dx x).getD 0 0 = x.getD 0 0 ∧
    (update_positions relax n dx x).getD n 0 = x.getD n 0 ∧
    ∀ i, 1 ≤ i → i < n →
      (update_positions relax n dx x).getD i 0
        = min (max (x.getD i 0 + relax * dx.getD (i - 1) 0)
                (min (x.getD (i - 1) 0) (x.getD (i + 1) 0)))
              (max (x.getD (i - 1) 0) (x.getD (i + 1) 0)) ∧
      min (x.getD (i - 1) 0) (x.getD (i + 1) 0) ≤ (update_positions relax n dx x).getD i 0 ∧
      (update_positions relax n dx x).getD i 0 ≤ max (x.getD (i - 1) 0) (x.getD (i + 1) 0) := by
  refine ⟨by rw [update_positions_length, hlen], (update_positions_ends relax n dx x).1,
    (update_positions_ends relax n dx x).2, ?_⟩
  intro i h1 h2
  have h := update_positions_getD relax n dx x hlen i h1 h2
  refine ⟨h, ?_, ?_⟩
  · rw [h]
    exact le_min (le_max_right _ _) (min_le_max)
  · rw [h]
    exact min_le_right _ _

theorem update_positions_clamped_witness :
    (update_positions 2 3 [25 / 48, -25 / 48] [0, 1 / 2, 5 / 2, 3]).length = 3 + 1 ∧
    (update_positions 2 3 [25 / 48, -25 / 48] [0, 1 / 2, 5 / 2, 3]).getD 0 0
      = ([0, 1 / 2, 5 / 2, 3] : List ℚ).getD 0 0 ∧
    (update_positions 2 3 [25 / 48, -25 / 48] [0, 1 / 2, 5 / 2, 3]).getD 3 0
      = ([0, 1 / 2, 5 / 2, 3] : List ℚ).getD 3 0 :=
  let h := update_positions_clamped 2 3 [25 / 48, -25 / 48] [0, 1 / 2, 5 / 2, 3] rfl
  ⟨h.1, h.2.1, h.2.2.1⟩

/-! ## Theorems on `weibull_pdf` -/

/-- For a positive scale `b` the tail area is `w * exp(-((x0 - c)/b)^a)`. -/
theorem weibull_tail_area_of_pos (a b c w x0 : ℝ) (ha : 0 < a) (hb : 0 < b) :
    (weibull_pdf.construct a b c w).tail_area x0
      = w * Real.exp (-(((x0 - c) / b) ^ a)) := by
  simp only [weibull_pdf.tail_area, weibull_pdf.construct]
  have hab : 0 < a / b := div_pos ha hb
  rw [abs_of_pos hab]
  have e : (x0 - c) * (1 / b) = (x0 - c) / b := by ring
  rw [e]
  field_simp
  ring

/-- For a negative scale `b` the value returned by `tail_area` is the opposite
of the area: `-w * exp(-((x0 - c)/b)^a)`. -/
theorem weibull_tail_area_of_neg (a b c w x0 : ℝ) (ha : 0 < a) (hb : b < 0) :
    (weibull_pdf.construct a b c w).tail_area x0
      = -(w * Real.exp (-(((x0 - c) / b) ^ a))) := by
  simp only [weibull_pdf.tail_area, weibull_pdf.construct]
  have hab : a / b < 0 := div_neg_of_pos_of_neg ha hb
  rw [abs_of_neg hab]
  have e : (x0 - c) * (1 / b) = (x0 - c) / b := by ring
  rw [e]
  have hb0 : b ≠ 0 := hb.ne
  have ha0 : a ≠ 0 := ha.ne'
  field_simp
  ring

/-- C20 (failing input): for `a = 1`, `b = -1`, `c = 0`, `w = 1` and `x0 = c = 0`
(so that `(x0 - c)/b = 0 >= 0`), `tail_area(x0)` is `-1`, whereas
`w * exp(-((x0 - c)/b)^a) = 1` and `total_area() = 1`: the value is negative
and differs from the total area. -/
theorem weibull_tail_area_negative :
    (weibull_pdf.construct 1 (-1) 0 1).tail_area 0 = -1 ∧
    (weibull_pdf.construct 1 (-1) 0 1).total_area = 1 ∧
    (0 : ℝ) ≤ (0 - 0) / (-1) ∧
    (1 : ℝ) * Real.exp (-((((0 : ℝ) - 0) / (-1)) ^ (1 : ℝ))) = 1 := by
  refine ⟨?_, ?_, by norm_num, by norm_num⟩
  · rw [weibull_tail_area_of_neg 1 (-1) 0 1 0 (by norm_num) (by norm_num)]
    norm_num
  · simp only [weibull_pdf.total_area, weibull_pdf.construct]
    norm_num

/-! ## Theorems on `right_pvalue` -/

theorem right_pvalue_loop (mean : ℝ) (hmean : 0 < mean) (j : Nat) :
    Real.exp ((List.range' 1 j).foldl
        (fun (sp : ℝ × ℝ) (i : Nat) =>
          (sp.1 + Real.log (mean / (i : ℝ)),
           sp.2 + Real.exp (-mean + (sp.1 + Real.log (mean / (i : ℝ))))))
        (0, Real.exp (-mean))).1
      = mean ^ j / (j.factorial : ℝ) ∧
    ((List.range' 1 j).foldl
        (fun (sp : ℝ × ℝ) (i : Nat) =>
          (sp.1 + Real.log (mean / (i : ℝ)),
           sp.2 + Real.exp (-mean + (sp.1 + Real.log (mean / (i : ℝ))))))
        (0, Real.exp (-mean))).2
      = ∑ i in Finset.range (j + 1), Real.exp (-mean) * mean ^ i / (i.factorial : ℝ) := by
  induction j with
  | zero => simp
  | succ j ih =>
    obtain ⟨ih1, ih2⟩ := ih
    rw [List.range'_1_concat, List.foldl_append]
    simp only [List.foldl_cons, List.foldl_nil]
    have hpos : 0 < mean / ((1 + j : Nat) : ℝ) := by
      apply div_pos hmean
      exact_mod_cast (show 0 < 1 + j by omega)
    have hs : Real.exp (((List.range' 1 j).foldl
        (fun (sp : ℝ × ℝ) (i : Nat) =>
          (sp.1 + Real.log (mean / (i : ℝ)),
           sp.2 + Real.exp (-mean + (sp.1 + Real.log (mean / (i : ℝ))))))
        (0, Real.exp (-mean))).1 + Real.log (mean / ((1 + j : Nat) : ℝ)))
        = mean ^ (j + 1) / ((j + 1).factorial : ℝ) := by
      rw [Real.exp_add, ih1, Real.exp_log hpos, Nat.factorial_succ]
      have hj : ((1 + j : Nat) : ℝ) ≠ 0 := by
        exact_mod_cast (show 1 + j ≠ 0 by omega)
      have hf : (j.factorial : ℝ) ≠ 0 := by exact_mod_cast Nat.factorial_ne_zero j
      push_cast at hj ⊢
      field_simp
      ring
    refine ⟨hs, ?_⟩
    rw [ih2, Finset.sum_range_succ _ (j + 1), Real.exp_add, hs]
    ring

theorem right_pvalue_sum_le_one (mean : ℝ) (hmean : 0 < mean) (k : Nat) :
    ∑ i in Finset.range k, Real.exp (-mean) * mean ^ i / (i.factorial : ℝ) ≤ 1 := by
  have h := Real.sum_le_exp_of_nonneg hmean.le k
  have he : 0 < Real.exp (-mean) := Real.exp_pos _
  have h2 : ∑ i in Finset.range k, Real.exp (-mean) * mean ^ i / (i.factorial : ℝ)
      = Real.exp (-mean) * ∑ i in Finset.range k, mean ^ i / (i.factorial : ℝ) := by
    rw [Finset.mul_sum]
    exact Finset.sum_congr rfl (fun i _ => by ring)
  rw [h2]
  have h3 := mul_le_mul_of_nonneg_left h he.le
  have h4 : Real.exp (-mean) * Real.exp mean = 1 := by
    rw [← Real.exp_add]; simp
  linarith

theorem right_pvalue_formula (mean : ℝ) (k : Nat) (hmean : 0 < mean) (hk : 1 ≤ k) :
    right_pvalue mean k
      = 1 - ∑ i in Finset.range k, Real.exp (-mean) * mean ^ i / (i.factorial : ℝ) := by
  unfold right_pvalue
  simp only []
  obtain ⟨_, h2⟩ := right_pvalue_loop mean hmean (k - 1)
  rw [h2]
  have hk1 : k - 1 + 1 = k := by omega
  rw [hk1, if_pos (right_pvalue_sum_le_one mean hmean k)]

theorem exp_neg_two_bounds :
    (947345 : ℝ) / 1000000 < 7 * Real.exp (-2) ∧ 7 * Real.exp (-2) ≤ 947355 / 1000000 := by
  have h1 := Real.exp_one_gt_d9
  have h2 := Real.exp_one_lt_d9
  have he : Real.exp 2 = Real.exp 1 * Real.exp 1 := by
    rw [← Real.exp_add]; norm_num
  have hpos : 0 < Real.exp 1 := Real.exp_pos 1
  rw [Real.exp_neg, he]
  have hlo : (73890560 : ℝ) / 10000000 < Real.exp 1 * Real.exp 1 := by nlinarith
  have hhi : Real.exp 1 * Real.exp 1 < 73890562 / 10000000 := by nlinarith
  have hp : 0 < Real.exp 1 * Real.exp 1 := mul_pos hpos hpos
  constructor
  · rw [← div_eq_mul_inv, lt_div_iff₀ hp]
    nlinarith
  · rw [← div_eq_mul_inv, div_le_iff₀ hp]
    nlinarith

/-- C19: for `mean > 0` and `k >= 1`, `right_pvalue(mean, k)` is
`1 - sum_{i<k} e^(-mean) * mean^i / i!`, the probability that a Poisson variable
of this mean is at least `k`; in particular `right_pvalue(2, 5) = 1 - 7*e^(-2)`,
which lies in `[0.052645, 0.052655)`, that is `0.05265` to five decimal places
(exponential and logarithm of the real numbers). -/
theorem right_pvalue_poisson_tail (mean : ℝ) (k : Nat) (hmean : 0 < mean) (hk : 1 ≤ k) :
    right_pvalue mean k
      = 1 - ∑ i in Finset.range k, Real.exp (-mean) * mean ^ i / (i.factorial : ℝ) ∧
    right_pvalue 2 5 = 1 - 7 * Real.exp (-2) ∧
    (52645 : ℝ) / 1000000 ≤ right_pvalue 2 5 ∧ right_pvalue 2 5 < 52655 / 1000000 := by
  have h25 : right_pvalue 2 5 = 1 - 7 * Real.exp (-2) := by
    rw [right_pvalue_formula 2 5 (by norm_num) (by norm_num)]
    simp only [Finset.sum_range_succ, Finset.sum_range_zero, Nat.factorial]
    norm_num
    ring
  obtain ⟨b1, b2⟩ := exp_neg_two_bounds
  refine ⟨right_pvalue_formula mean k hmean hk, h25, ?_, ?_⟩
  · rw [h25]; linarith
  · rw [h25]; linarith

theorem right_pvalue_poisson_tail_witness :
    right_pvalue 2 5
      = 1 - ∑ i in Finset.range 5, Real.exp (-2) * (2 : ℝ) ^ i / (i.factorial : ℝ) ∧
    right_pvalue 2 5 = 1 - 7 * Real.exp (-2) ∧
    (52645 : ℝ) / 1000000 ≤ right_pvalue 2 5 ∧ right_pvalue 2 5 < 52655 / 1000000 :=
  right_pvalue_poisson_tail 2 5 (by norm_num) (by norm_num)

/-! ## Theorems on the tail position of `EtfNormalDistribution` -/

theorem xtail_index_seven (W : Nat) (hW : 11 ≤ W) :
    ∃ i v, EtfNormalDistribution.xtail_index W 7 = some i ∧ i ≤ 7 ∧
      i < magic_xtail_7.length ∧ EtfNormalDistribution.xtail W 7 = .ok v := by
  have hlen : magic_xtail_7.length = 8 := rfl
  have hi : min (W - 11) 7 < magic_xtail_7.length := by
    rw [hlen]
    exact lt_of_le_of_lt (Nat.min_le_right _ _) (by decide)
  refine ⟨min (W - 11) 7, magic_xtail_7[min (W - 11) 7], ?_, Nat.min_le_right _ _, hi, ?_⟩
  · simp [EtfNormalDistribution.xtail_index, hW]
  · unfold EtfNormalDistribution.xtail
    rw [if_pos ⟨rfl, hW⟩, List.getElem?_eq_getElem hi]

theorem xtail_index_eight_low (W : Nat) (hW : 12 ≤ W) (hW2 : W ≤ 19) :
    ∃ i v, EtfNormalDistribution.xtail_index W 8 = some i ∧ i ≤ 7 ∧
      i < magic_xtail_8.length ∧ EtfNormalDistribution.xtail W 8 = .ok v := by
  have hlen : magic_xtail_8.length = 8 := rfl
  have hm : min (W - 12) 8 = W - 12 := Nat.min_eq_left (by omega)
  have hi : min (W - 12) 8 < magic_xtail_8.length := by
    rw [hlen, hm]
    omega
  refine ⟨min (W - 12) 8, magic_xtail_8[min (W - 12) 8], ?_, by rw [hm]; omega, hi, ?_⟩
  · simp [EtfNormalDistribution.xtail_index, hW]
  · unfold EtfNormalDistribution.xtail
    rw [if_neg (fun h => absurd h.1 (by decide)), if_pos ⟨rfl, hW⟩, List.getElem?_eq_getElem hi]

theorem xtail_index_eight_high (W : Nat) (hW : 20 ≤ W) :
    EtfNormalDistribution.xtail_index W 8 = some 8 ∧
      EtfNormalDistribution.xtail W 8 = .error .out_of_range := by
  have hm : min (W - 12) 8 = 8 := Nat.min_eq_right (by omega)
  have h12 : W ≥ 12 := by omega
  constructor
  · unfold EtfNormalDistribution.xtail_index
    rw [if_neg (fun h => absurd h.1 (by decide)), if_pos ⟨rfl, h12⟩, hm]
  · unfold EtfNormalDistribution.xtail
    rw [if_neg (fun h => absurd h.1 (by decide)), if_pos ⟨rfl, h12⟩, hm]
    rfl

/-- C40 (failing input): in the constructor of `EtfNormalDistribution<RealType,
32, 8>` the index `std::min(W - 12, N)` is `8`, one past the last entry of the
8-entry array `magic_xtail` (valid indices `0` to `7`); the same holds for
`W = 20` and `W = 64`.  For `N = 7` the index `std::min(W - 11, N)` at the same
widths is `7` and the look-up succeeds. -/
theorem xtail_index_outside_array :
    magic_xtail_8.length = 8 ∧
    EtfNormalDistribution.xtail_index 32 8 = some 8 ∧
    EtfNormalDistribution.xtail 32 8 = .error .out_of_range ∧
    EtfNormalDistribution.xtail_index 20 8 = some 8 ∧
    EtfNormalDistribution.xtail 20 8 = .error .out_of_range ∧
    EtfNormalDistribution.xtail_index 64 8 = some 8 ∧
    EtfNormalDistribution.xtail 64 8 = .error .out_of_range ∧
    EtfNormalDistribution.xtail_index 32 7 = some 7 ∧
    EtfNormalDistribution.xtail 32 7 = .ok (3292145211 / 10 ^ 9) := by
  refine ⟨rfl, (xtail_index_eight_high 32 (by decide)).1,
    (xtail_index_eight_high 32 (by decide)).2, (xtail_index_eight_high 20 (by decide)).1,
    (xtail_index_eight_high 20 (by decide)).2, (xtail_index_eight_high 64 (by decide)).1,
    (xtail_index_eight_high 64 (by decide)).2, by decide, ?_⟩
  simp [EtfNormalDistribution.xtail, magic_xtail_7]

/-! ## Theorems on the table accesses of the samplers -/

/-- C34: after a successful `build` (`x_` has `2^N + 1` entries, `data_` has
`2^N`), for every `W`-bit draw `r` and each of the three shapes (with
`N ≤ W` and `N` at most the width of `std::size_t`) the index `i` computed by
`operator()` is below `2^N`, so `data_[i]`, `x_[i]` and `x_[i+1]` exist. -/
theorem table_access_in_range (S : Sampler) (xs : List ℚ) (finf fsup : Nat → ℚ)
    (outer_area : ℚ) (os : Nat)
    (hb : build S.W S.N S.shape S.cat S.build_origin xs finf fsup outer_area
      = .ok ⟨S.x_, S.data_, os⟩)
    (hN : S.N ≤ size_t_bits) (hNW : S.N ≤ S.W) (r : Nat) (hr : r < 2 ^ S.W) :
    S.x_.length = 2 ^ S.N + 1 ∧ S.data_.length = 2 ^ S.N ∧
    S.index r < 2 ^ S.N ∧
    (∃ d, S.data_[S.index r]? = some d) ∧
    (∃ v, S.x_[S.index r]? = some v) ∧
    (∃ v, S.x_[S.index r + 1]? = some v) := by
  have hx : S.x_.length = 2 ^ S.N + 1 := built_length _ _ _ _ _ _ _ _ _ _ hb
  have hd : S.data_.length = 2 ^ S.N := by
    have h := (build_inv _ _ _ _ _ _ _ _ _ _ hb).2.2.1
    have h2 : S.data_ = _ := h
    rw [h2]
    simp
  have hi := index_lt S r hr hN hNW
  refine ⟨hx, hd, hi, ?_, ?_, ?_⟩
  · exact ⟨S.data_[S.index r], List.getElem?_eq_getElem (by omega)⟩
  · exact ⟨S.x_[S.index r], List.getElem?_eq_getElem (by omega)⟩
  · exact ⟨S.x_[S.index r + 1], List.getElem?_eq_getElem (by omega)⟩

/-- C34 (witness): the example sampler, whose table `build` makes, at the draw
`r = 200`. -/
theorem table_access_in_range_witness :
    example_sampler.x_.length = 2 ^ example_sampler.N + 1 ∧
    example_sampler.data_.length = 2 ^ example_sampler.N ∧
    example_sampler.index 200 < 2 ^ example_sampler.N ∧
    (∃ d, example_sampler.data_[example_sampler.index 200]? = some d) ∧
    (∃ v, example_sampler.x_[example_sampler.index 200]? = some v) ∧
    (∃ v, example_sampler.x_[example_sampler.index 200 + 1]? = some v) :=
  table_access_in_range example_sampler [0, 1, 2] (fun _ => 1 / 2) (fun _ => 1) 2 64
    example_table_built (by decide) (by decide) 200 (by decide)

/-! ## Theorems on the share of the outer distribution -/

theorem head?_eq_getD (l : List ℚ) (h : 0 < l.length) :
    l.head? = some (l.getD 0 0) := by
  rw [List.head?_eq_getElem?, List.getD_eq_getElem?_getD, List.getElem?_eq_getElem h]
  rfl

theorem getLast?_eq_getD (l : List ℚ) (h : 0 < l.length) :
    l.getLast? = some (l.getD (l.length - 1) 0) := by
  rw [List.getLast?_eq_getElem?, List.getD_eq_getElem?_getD,
    List.getElem?_eq_getElem (by omega)]
  rfl

theorem newton_partition_first_pass (f df : ℚ → ℚ) (real_max : ℚ)
    (x_initial x_extremum : List ℚ) (tol relax : ℚ) (max_iter : Nat)
    (hlen : 2 ≤ x_initial.length)
    (hc : converged tol (x_initial.length - 1)
      (newton_sweep f df real_max (collect_extrema f x_initial x_extremum)
        (x_initial.length - 1) (newton_initial f x_initial)).2 = true) :
    newton_partition f df real_max x_initial x_extremum tol relax max_iter
      = .ok (newton_result f df real_max (collect_extrema f x_initial x_extremum)
          (x_initial.length - 1) (newton_initial f x_initial)) := by
  unfold newton_partition
  rw [if_neg (by omega), newton_loop_succ, if_pos hc]

/-- C37: every non-empty result of `newton_partition` has as many breakpoints
as the initial partition (`n + 1`), `finf` and `fsup` of size `n`, and the
first and last initial breakpoints as `x.front()` and `x.back()`; and when the
initial partition meets the convergence criterion, the function returns and
the returned `x` is the initial partition. -/
theorem newton_partition_frame (f df : ℚ → ℚ) (real_max : ℚ)
    (x_initial x_extremum : List ℚ) (tol relax : ℚ) (max_iter : Nat) :
    (∀ p, newton_partition f df real_max x_initial x_extremum tol relax max_iter = .ok p →
      p.x ≠ [] →
      p.x.length = x_initial.length ∧
      p.finf.length = x_initial.length - 1 ∧ p.fsup.length = x_initial.length - 1 ∧
      p.x.head? = x_initial.head? ∧ p.x.getLast? = x_initial.getLast?) ∧
    (2 ≤ x_initial.length →
      converged tol (x_initial.length - 1)
        (newton_sweep f df real_max (collect_extrema f x_initial x_extremum)
          (x_initial.length - 1) (newton_initial f x_initial)).2 = true →
      ∃ p, newton_partition f df real_max x_initial x_extremum tol relax max_iter = .ok p ∧
        p.x = x_initial) := by
  constructor
  · intro p h hne
    have hlen : 2 ≤ x_initial.length := by
      by_contra hlt
      unfold newton_partition at h
      rw [if_pos (by omega)] at h
      cases h
    unfold newton_partition at h
    rw [if_neg (by omega)] at h
    obtain ⟨k, s1, _, hit, hc, hp, _⟩ := newton_loop_nonempty f df real_max
      (collect_extrema f x_initial x_extremum) tol relax max_iter (x_initial.length - 1)
      (max_iter + 1) 0 (newton_initial f x_initial) p h hne
    have he := newton_iterate_ends f df real_max (collect_extrema f x_initial x_extremum)
      relax (x_initial.length - 1) (x_initial.getD 0 0)
      (x_initial.getD (x_initial.length - 1) 0) k _ _ hit
      (newton_initial_ends f x_initial hlen)
    obtain ⟨h1, _, h3, h4, _, _⟩ := he
    obtain ⟨c1, c2, _⟩ := newton_result_criterion f df real_max
      (collect_extrema f x_initial x_extremum) tol (x_initial.length - 1) s1 hc
    have hx : p.x = s1.x := by rw [hp]; rfl
    have hl : p.x.length = x_initial.length := by rw [hx, h1]; omega
    refine ⟨hl, by rw [hp]; exact c2, by rw [hp]; exact c1, ?_, ?_⟩
    · rw [hx, head?_eq_getD s1.x (by omega), head?_eq_getD x_initial (by omega), h3]
    · have hl1 : s1.x.length - 1 = x_initial.length - 1 := by omega
      rw [hx, getLast?_eq_getD s1.x (by omega), getLast?_eq_getD x_initial (by omega), hl1, h4]
  · intro hlen hc
    exact ⟨_, newton_partition_first_pass f df real_max x_initial x_extremum tol relax
      max_iter hlen hc, rfl⟩

set_option maxHeartbeats 4000000 in
theorem newton_partition_constant :
    newton_partition (fun _ => 1) (fun _ => 0) (2 ^ 1023) [0, 1, 2] [] (1 / 10) 1 100
      = .ok { x := [0, 1, 2], finf := [1, 1], fsup := [1, 1] } := by
  rw [newton_partition_first_pass _ _ _ _ _ _ _ _ (by decide)]
  · norm_num [newton_initial, newton_sweep, newton_result,
      collect_extrema, inner_values, sup_sweep, sup_extrema, inf_sweep, inf_extrema,
      List.range', List.replicate, List.range, List.range.loop, abs_div,
      Nat.abs_ofNat, max_def, min_def]
  · norm_num [newton_initial, newton_sweep,
      collect_extrema, inner_values, sup_sweep, sup_extrema,
      converged, List.range', List.replicate, List.range, List.range.loop, abs_div,
      Nat.abs_ofNat, max_def, min_def]

/-- C37 (witness): the constant density `1` on the initial partition
`0, 1, 2`, which meets the criterion at once. -/
theorem newton_partition_frame_witness :
    ({ x := [0, 1, 2], finf := [1, 1], fsup := [1, 1] } : partition_data).x.length
      = ([0, 1, 2] : List ℚ).length ∧
    ({ x := [0, 1, 2], finf := [1, 1], fsup := [1, 1] } : partition_data).finf.length
      = ([0, 1, 2] : List ℚ).length - 1 ∧
    ({ x := [0, 1, 2], finf := [1, 1], fsup := [1, 1] } : partition_data).fsup.length
      = ([0, 1, 2] : List ℚ).length - 1 ∧
    ({ x := [0, 1, 2], finf := [1, 1], fsup := [1, 1] } : partition_data).x.head?
      = ([0, 1, 2] : List ℚ).head? ∧
    ({ x := [0, 1, 2], finf := [1, 1], fsup := [1, 1] } : partition_data).x.getLast?
      = ([0, 1, 2] : List ℚ).getLast? :=
  (newton_partition_frame (fun _ => 1) (fun _ => 0) (2 ^ 1023) [0, 1, 2] [] (1 / 10) 1 100).1
    _ newton_partition_constant (by simp)

/-! ## Theorems on the accesses of `solve_tridiagonal_system` -/

theorem size_minus_two_eq (m : Nat) (h2 : 2 ≤ m) (hm : m < 2 ^ size_t_bits) :
    size_minus_two m = m - 2 := by
  unfold size_minus_two
  have h : m + (2 ^ size_t_bits - 2) = (m - 2) + 2 ^ size_t_bits := by
    have : 2 ≤ 2 ^ size_t_bits := by decide
    omega
  rw [h, Nat.add_mod_right, Nat.mod_eq_of_lt (by omega)]

theorem back_substitution_loop_succ (b c rhs : List ℚ) (fuel i : Nat) (sol : List ℚ) :
    back_substitution_loop b c rhs (fuel + 1) i sol =
      if i < sol.length ∧ i < rhs.length ∧ i < c.length ∧ i < b.length ∧
          (i + 1) % 2 ^ size_t_bits < sol.length then
        if i = 0 then
          .ok (sol.set i
            ((rhs.getD i 0 - c.getD i 0 * sol.getD ((i + 1) % 2 ^ size_t_bits) 0)
              / b.getD i 0))
        else
          back_substitution_loop b c rhs fuel (i - 1)
            (sol.set i
              ((rhs.getD i 0 - c.getD i 0 * sol.getD ((i + 1) % 2 ^ size_t_bits) 0)
                / b.getD i 0))
      else .error .out_of_range := rfl

theorem back_substitution_loop_eq (b c rhs : List ℚ) :
    ∀ (k fuel : Nat) (sol : List ℚ), k < fuel → k + 1 < sol.length →
      k < rhs.length → k < c.length → k < b.length → k + 1 < 2 ^ size_t_bits →
      back_substitution_loop b c rhs fuel k sol
        = .ok ((List.range (k + 1)).reverse.foldl
            (fun (sol : List ℚ) i =>
              sol.set i ((rhs.getD i 0 - c.getD i 0 * sol.getD (i + 1) 0) / b.getD i 0))
            sol) := by
  intro k
  induction k with
  | zero =>
    intro fuel sol hf hs hr hc hb h64
    obtain ⟨fuel, rfl⟩ : ∃ f, fuel = f + 1 := ⟨fuel - 1, by omega⟩
    have hmod : (0 + 1) % 2 ^ size_t_bits = 0 + 1 := Nat.mod_eq_of_lt h64
    rw [back_substitution_loop_succ, hmod, if_pos ⟨by omega, hr, hc, hb, hs⟩, if_pos rfl]
    rfl
  | succ k ih =>
    intro fuel sol hf hs hr hc hb h64
    obtain ⟨fuel, rfl⟩ : ∃ f, fuel = f + 1 := ⟨fuel - 1, by omega⟩
    have hmod : (k + 1 + 1) % 2 ^ size_t_bits = k + 1 + 1 := Nat.mod_eq_of_lt h64
    rw [back_substitution_loop_succ, hmod, if_pos ⟨by omega, hr, hc, hb, hs⟩,
      if_neg (by omega)]
    have hk : k + 1 - 1 = k := by omega
    rw [hk, ih fuel _ (by omega) (by rw [List.length_set]; omega) (by omega) (by omega)
      (by omega) (by omega)]
    rw [List.range_succ (n := k + 1), List.reverse_append, List.reverse_singleton,
      List.singleton_append, List.foldl_cons]

theorem back_substitution_checked (m : Nat) (b c rhs sol : List ℚ) (h2 : 2 ≤ m)
    (hm : m < 2 ^ size_t_bits) (hb : b.length = m) (hc : c.length = m)
    (hr : rhs.length = m) (hs : sol.length = m) :
    back_substitution_loop b c rhs (m - 1) (size_minus_two m)
        (sol.set (m - 1) (rhs.getD (m - 1) 0 / b.getD (m - 1) 0))
      = .ok (back_substitution m b c rhs sol) := by
  rw [size_minus_two_eq m h2 hm, back_substitution_loop_eq b c rhs (m - 2) (m - 1) _
    (by omega) (by rw [List.length_set]; omega) (by omega) (by omega) (by omega) (by omega)]
  have h : m - 2 + 1 = m - 1 := by omega
  rw [h]
  rfl

theorem back_substitution_wraps (b c rhs sol : List ℚ) (hs : sol.length = 1) (fuel : Nat) :
    back_substitution_loop b c rhs (fuel + 1) (size_minus_two 1) sol
      = .error .out_of_range := by
  have h : size_minus_two 1 = 2 ^ 64 - 1 := by decide
  rw [back_substitution_loop_succ, h, hs, if_neg]
  intro h1
  exact absurd h1.1 (by decide)

set_option maxHeartbeats 4000000 in
/-- C38 (failing input): for the positive constant density `1`, the three
initial breakpoints `0, 1, 3` (`n = 2` intervals) and `tol = 1/10`, the first
pass of `newton_partition` does not meet the criterion and calls
`solve_tridiagonal_system` with a system of size `m = n - 1 = 1`
(`a = [1]`, `b = [-2]`, `c = [1]`, `rhs = [-1]`, `sol = [0]`): the loop
`for (size_type i=m-2; ; --i)` starts at `i = 2^64 - 1` and its first pass
accesses `sol[i]`, `rhs[i]`, `c[i]`, `b[i]` outside the vectors of size `1`. -/
theorem newton_partition_three_breakpoints :
    newton_partition (fun _ => 1) (fun _ => 0) (2 ^ 1023) [0, 1, 3] [] (1 / 10)
      = .error .out_of_range ∧
    converged (1 / 10) 2 (newton_sweep (fun _ => 1) (fun _ => 0) (2 ^ 1023) [] 2
      (newton_initial (fun _ => 1) [0, 1, 3])).2 = false ∧
    jacobian_ds_dxl 2 [0, 1, 3] [1, 1] [0, 0] = [1] ∧
    jacobian_ds_dxc 2 [0, 1, 3] [1, 1] [0, 0] [0, 0] = [-2] ∧
    jacobian_ds_dxr 2 [0, 1, 3] [1, 1] [0, 0] = [1] ∧
    jacobian_minus_s 2 [0, 1, 3] [1, 1] = [-1] ∧
    solve_tridiagonal_system [1] [-2] [1] [-1] [0] = .error .out_of_range ∧
    size_minus_two 1 = 2 ^ 64 - 1 ∧
    ∀ fuel, back_substitution_loop [-2] [1] [-1] (fuel + 1) (size_minus_two 1)
      (([0] : List ℚ).set 0 (-1 / -2)) = .error .out_of_range := by
  have hc : converged (1 / 10) 2 (newton_sweep (fun _ => 1) (fun _ => 0) (2 ^ 1023) [] 2
      (newton_initial (fun _ => 1) [0, 1, 3])).2 = false := by
    norm_num [newton_initial, newton_sweep, inner_values, sup_sweep, sup_extrema,
      converged, List.range', List.replicate, List.range, List.range.loop, abs_div,
      Nat.abs_ofNat, max_def, min_def]
  have hn : newton_next (fun _ => 1) (fun _ => 0) (2 ^ 1023) [] 1 2
      (newton_initial (fun _ => 1) [0, 1, 3]) = .error .out_of_range := by
    simp [newton_next, solve_tridiagonal_system, jacobian_ds_dxl]
  refine ⟨?_, hc, ?_, ?_, ?_, ?_, ?_, by decide, ?_⟩
  · unfold newton_partition
    rw [if_neg (by decide)]
    have hl : ([0, 1, 3] : List ℚ).length - 1 = 2 := rfl
    have he : collect_extrema (fun _ => (1 : ℚ)) [0, 1, 3] [] = [] := rfl
    rw [hl, he, newton_loop_succ, hc, hn]
    simp
  · norm_num [jacobian_ds_dxl, List.range, List.range.loop]
  · norm_num [jacobian_ds_dxc, List.range, List.range.loop]
  · norm_num [jacobian_ds_dxr, List.range, List.range.loop]
  · norm_num [jacobian_minus_s, List.range, List.range.loop]
  · simp [solve_tridiagonal_system]
  · intro fuel
    exact back_substitution_wraps _ _ _ _ (by simp) fuel

/-! ## Theorems on the Newton update of the breakpoints -/

theorem clamp_strict_iff (v lo hi : ℚ) :
    (lo < min (max v lo) hi ∧ min (max v lo) hi < hi) ↔ (lo < v ∧ v < hi) := by
  constructor
  · rintro ⟨h1, h2⟩
    have h3 : max v lo < hi := by
      rcases min_choice (max v lo) hi with e | e
      · rw [e] at h2; exact h2
      · rw [e] at h2; exact absurd h2 (lt_irrefl _)
    have h4 : min (max v lo) hi = max v lo := min_eq_left h3.le
    rw [h4] at h1
    have h5 : v < hi := lt_of_le_of_lt (le_max_left _ _) h3
    refine ⟨?_, h5⟩
    rcases max_choice v lo with e | e
    · rw [e] at h1; exact h1
    · rw [e] at h1; exact absurd h1 (lt_irrefl _)
  · rintro ⟨h1, h2⟩
    rw [max_eq_left h1.le, min_eq_left h2.le]
    exact ⟨h1, h2⟩

set_option maxHeartbeats 8000000 in
/-- C32 (counterexample): from the strictly increasing breakpoints
`[0, 1/10, 1/5, 3]` of the constant density `1`, the linear solve gives the
step `[9/10, 9/5]`, and the update with `relax = 1` moves `x[1] = 1/10` to
`1/5`, the former position of its right neighbour `x[2]`: the new position
is on the boundary of the interval of the former neighbours, not strictly
inside. -/
theorem newton_update_reaches_neighbour :
    ∃ s, newton_next (fun _ => 1) (fun _ => 0) (2 ^ 1023) [] 1 3
        (newton_initial (fun _ => 1) [0, 1 / 10, 1 / 5, 3]) = .ok s ∧
      s.dx = [9 / 10, 9 / 5] ∧
      s.x = [0, 1 / 5, 2, 3] ∧
      s.x.getD 1 0 = (newton_initial (fun _ => 1) [0, 1 / 10, 1 / 5, 3]).x.getD 2 0 ∧
      ¬ (s.x.getD 1 0 < (newton_initial (fun _ => 1) [0, 1 / 10, 1 / 5, 3]).x.getD 2 0) := by
  have hdx : ∀ s, newton_next (fun _ => 1) (fun _ => 0) (2 ^ 1023) [] 1 3
      (newton_initial (fun _ => 1) [0, 1 / 10, 1 / 5, 3]) = .ok s →
      s.dx = [9 / 10, 9 / 5] ∧ s.x = [0, 1 / 5, 2, 3] := by
    intro s hs
    have h1 : newton_next (fun _ => 1) (fun _ => 0) (2 ^ 1023) [] 1 3
        (newton_initial (fun _ => 1) [0, 1 / 10, 1 / 5, 3])
        = .ok { x := [0, 1 / 5, 2, 3], y := [1, 1, 1, 1], dy_dx := [0, 0, 0, 0],
                dx := [9 / 10, 9 / 5] } := by
      norm_num [newton_next, newton_initial, newton_sweep,
        solve_tridiagonal_system, eliminate_subdiagonal, back_substitution, jacobian_ds_dxl,
        jacobian_ds_dxc, jacobian_ds_dxr, jacobian_minus_s, update_positions,
        inner_values, sup_sweep, sup_extrema, List.range', List.replicate, List.range,
        List.range.loop, abs_div, Nat.abs_ofNat, max_def, min_def]
    rw [h1] at hs
    cases hs
    exact ⟨rfl, rfl⟩
  obtain ⟨s, hs⟩ := newton_next_ok (fun _ => 1) (fun _ => 0) (2 ^ 1023) [] 1 3 (le_refl _)
    (newton_initial (fun _ => 1) [0, 1 / 10, 1 / 5, 3])
  obtain ⟨e1, e2⟩ := hdx s hs
  refine ⟨s, hs, e1, e2, ?_, ?_⟩
  · rw [e2]
    norm_num [newton_initial]
  · rw [e2]
    norm_num [newton_initial]

/-- C32 (amended): in a Newton update of `newton_partition` on `n + 1`
breakpoints, the two end breakpoints are not moved, the step `dx` is the
solution returned by `solve_tridiagonal_system` for the assembled system, and
every interior breakpoint `x[i]` (`0 < i < n`) is moved to
`x[i] + relax*dx[i-1]` clamped to the closed interval spanned by the former
positions of `x[i-1]` and `x[i+1]`; the new position is strictly between
these former positions exactly when `x[i] + relax*dx[i-1]` is. -/
theorem newton_update_clamps (f df : ℚ → ℚ) (real_max : ℚ) (extrema : List (ℚ × ℚ))
    (relax : ℚ) (n : Nat) (s s1 : newton_state)
    (h : newton_next f df real_max extrema relax n s = .ok s1)
    (hlen : s.x.length = n + 1) :
    s1.x.length = n + 1 ∧
    s1.x.getD 0 0 = s.x.getD 0 0 ∧ s1.x.getD n 0 = s.x.getD n 0 ∧
    (∃ r, solve_tridiagonal_system
        (jacobian_ds_dxl n s.x ((newton_sweep f df real_max extrema n s).1.map (fun t => t.1))
          ((newton_sweep f df real_max extrema n s).1.map (fun t => t.2.1)))
        (jacobian_ds_dxc n s.x ((newton_sweep f df real_max extrema n s).1.map (fun t => t.1))
          ((newton_sweep f df real_max extrema n s).1.map (fun t => t.2.1))
          ((newton_sweep f df real_max extrema n s).1.map (fun t => t.2.2)))
        (jacobian_ds_dxr n s.x ((newton_sweep f df real_max extrema n s).1.map (fun t => t.1))
          ((newton_sweep f df real_max extrema n s).1.map (fun t => t.2.2)))
        (jacobian_minus_s n s.x ((newton_sweep f df real_max extrema n s).1.map (fun t => t.1)))
        s.dx = .ok r ∧ s1.dx = r.2.2) ∧
    ∀ i, 1 ≤ i → i < n →
      s1.x.getD i 0
        = min (max (s.x.getD i 0 + relax * s1.dx.getD (i - 1) 0)
                (min (s.x.getD (i - 1) 0) (s.x.getD (i + 1) 0)))
              (max (s.x.getD (i - 1) 0) (s.x.getD (i + 1) 0)) ∧
      min (s.x.getD (i - 1) 0) (s.x.getD (i + 1) 0) ≤ s1.x.getD i 0 ∧
      s1.x.getD i 0 ≤ max (s.x.getD (i - 1) 0) (s.x.getD (i + 1) 0) ∧
      ((min (s.x.getD (i - 1) 0) (s.x.getD (i + 1) 0) < s1.x.getD i 0 ∧
          s1.x.getD i 0 < max (s.x.getD (i - 1) 0) (s.x.getD (i + 1) 0)) ↔
        (min (s.x.getD (i - 1) 0) (s.x.getD (i + 1) 0)
            < s.x.getD i 0 + relax * s1.dx.getD (i - 1) 0 ∧
          s.x.getD i 0 + relax * s1.dx.getD (i - 1) 0
            < max (s.x.getD (i - 1) 0) (s.x.getD (i + 1) 0))) := by
  simp only [newton_next] at h
  split at h
  · cases h
  · rename_i r hr
    cases h
    refine ⟨by rw [update_positions_length, hlen], (update_positions_ends relax n _ s.x).1,
      (update_positions_ends relax n _ s.x).2, ⟨r, hr, rfl⟩, ?_⟩
    intro i h1 h2
    have hle : min (s.x.getD (i - 1) 0) (s.x.getD (i + 1) 0)
        ≤ max (s.x.getD (i - 1) 0) (s.x.getD (i + 1) 0) :=
      le_trans (min_le_left _ _) (le_max_left _ _)
    have hv := update_positions_getD relax n r.2.2 s.x hlen i h1 h2
    refine ⟨hv, ?_, ?_, ?_⟩
    · show _ ≤ (update_positions relax n r.2.2 s.x).getD i 0
      rw [hv]
      exact le_min (le_max_right _ _) hle
    · show (update_positions relax n r.2.2 s.x).getD i 0 ≤ _
      rw [hv]
      exact min_le_right _ _
    · show (_ < (update_positions relax n r.2.2 s.x).getD i 0 ∧
        (update_positions relax n r.2.2 s.x).getD i 0 < _) ↔ _
      rw [hv]
      exact clamp_strict_iff _ _ _

theorem newton_next_constant :
    ∃ s, newton_next (fun _ => 1) (fun _ => 0) (2 ^ 1023) [] 1 3
        (newton_initial (fun _ => 1) [0, 1, 2, 3]) = .ok s :=
  newton_next_ok (fun _ => 1) (fun _ => 0) (2 ^ 1023) [] 1 3 (le_refl _) _

/-- C32 (witness): an update of the breakpoints `0, 1, 2, 3` of the constant
density `1`. -/
theorem newton_update_clamps_witness :
    ∃ s1, newton_next (fun _ => 1) (fun _ => 0) (2 ^ 1023) [] 1 3
        (newton_initial (fun _ => 1) [0, 1, 2, 3]) = .ok s1 ∧
      s1.x.length = 3 + 1 ∧
      s1.x.getD 0 0 = (newton_initial (fun _ => 1) [0, 1, 2, 3]).x.getD 0 0 ∧
      s1.x.getD 3 0 = (newton_initial (fun _ => 1) [0, 1, 2, 3]).x.getD 3 0 :=
  newton_next_constant.elim (fun s1 h1 =>
    ⟨s1, h1,
      (newton_update_clamps (fun _ => 1) (fun _ => 0) (2 ^ 1023) [] 1 3 _ s1 h1 rfl).1,
      (newton_update_clamps (fun _ => 1) (fun _ => 0) (2 ^ 1023) [] 1 3 _ s1 h1 rfl).2.1,
      (newton_update_clamps (fun _ => 1) (fun _ => 0) (2 ^ 1023) [] 1 3 _ s1 h1 rfl).2.2.1⟩)

/-! ## Theorems on the accesses of `trapezoidal_rule_prepartition` -/

theorem prepartition_total_loop_succ (y : List ℚ) (stop fuel i : Nat) (s : ℚ) :
    prepartition_total_loop y stop (fuel + 1) i s =
      if i = stop then .ok s
      else if i < y.length then
        prepartition_total_loop y stop fuel ((i + 1) % 2 ^ size_t_bits) (s + y.getD i 0)
      else .error .out_of_range := rfl

theorem prepartition_total_loop_eq (y : List ℚ) (stop : Nat) (hstop : stop < y.length)
    (h64 : stop < 2 ^ size_t_bits) :
    ∀ (k fuel i : Nat) (s : ℚ), i + k = stop → k < fuel →
      prepartition_total_loop y stop fuel i s
        = .ok ((List.range' i k).foldl (fun s i => s + y.getD i 0) s) := by
  intro k
  induction k with
  | zero =>
    intro fuel i s hi hf
    obtain ⟨fuel, rfl⟩ : ∃ f, fuel = f + 1 := ⟨fuel - 1, by omega⟩
    rw [prepartition_total_loop_succ, if_pos (by omega)]
    rfl
  | succ k ih =>
    intro fuel i s hi hf
    obtain ⟨fuel, rfl⟩ : ∃ f, fuel = f + 1 := ⟨fuel - 1, by omega⟩
    rw [prepartition_total_loop_succ, if_neg (by omega), if_pos (by omega),
      Nat.mod_eq_of_lt (by omega), ih fuel (i + 1) _ (by omega) (by omega)]
    rfl

theorem prepartition_total_checked (y : List ℚ) (n : Nat) (hn : 3 ≤ n)
    (h64 : n < 2 ^ size_t_bits) (hy : y.length = n) :
    prepartition_total_loop y (size_minus_two n) (n - 2) 1
        (1 / 2 * (y.getD 0 0 + y.getD (n - 1) 0))
      = .ok (prepartition_total y n) := by
  rw [size_minus_two_eq n (by omega) h64,
    prepartition_total_loop_eq y (n - 2) (by omega) (by omega) (n - 3) (n - 2) 1 _
      (by omega) (by omega)]
  rfl

theorem prepartition_total_two_points (y : List ℚ) (hy : y.length = 2) (s : ℚ) (fuel : Nat) :
    prepartition_total_loop y (size_minus_two 2) (fuel + 2) 1 s = .error .out_of_range := by
  have h : size_minus_two 2 = 0 := by decide
  have h2 : (1 + 1) % 2 ^ size_t_bits = 2 := by decide
  rw [h, prepartition_total_loop_succ, if_neg (by decide), hy, if_pos (by decide), h2,
    prepartition_total_loop_succ, if_neg (by decide), hy, if_neg (by decide)]

/-- C39 (failing input): for the positive constant function `1`, `x0 = 0`,
`x1 = 1` and `nb_points = nb_intervals = 2` (the three-argument overload with
two intervals) the grid arrays are `x = [0, 1]`, `y = [1, 1]`; the bound
`n-2` of the loop `for (i=1; i!=(n-2); ++i) s += y[i]` is `0`, so the loop
starting at `i = 1` does not stop at once and its second pass reads `y[2]`,
outside `y`. -/
theorem prepartition_two_points_out_of_range :
    trapezoidal_rule_prepartition (fun _ => 1) 0 1 2 2 = .error .out_of_range ∧
    prepartition_grid 0 1 2 = [0, 1] ∧
    size_minus_two 2 = 0 ∧
    ∀ fuel, prepartition_total_loop ((prepartition_grid 0 1 2).map (fun _ => (1 : ℚ)))
        (size_minus_two 2) (fuel + 2) 1 (1 / 2 * (1 + 1)) = .error .out_of_range := by
  have hg : prepartition_grid 0 1 2 = [0, 1] := by
    norm_num [prepartition_grid, List.range, List.range.loop]
  refine ⟨by simp [trapezoidal_rule_prepartition], hg, by decide, ?_⟩
  intro fuel
  exact prepartition_total_two_points _ (by rw [hg]; rfl) _ fuel

/-! ## Theorems on the wedge test after a rejected outer sample -/

theorem eliminate_fold_spec (a c b rhs : List ℚ) (hlen : rhs.length = b.length) :
    ∀ k : Nat,
      (((List.range' 1 k).foldl
        (fun (st : List ℚ × List ℚ) i =>
          (st.1.set i (st.1.getD i 0 - a.getD i 0 / st.1.getD (i - 1) 0 * c.getD (i - 1) 0),
           st.2.set i (st.2.getD i 0 - a.getD i 0 / st.1.getD (i - 1) 0 * st.2.getD (i - 1) 0)))
        (b, rhs)).1.length = b.length ∧
       ((List.range' 1 k).foldl
        (fun (st : List ℚ × List ℚ) i =>
          (st.1.set i (st.1.getD i 0 - a.getD i 0 / st.1.getD (i - 1) 0 * c.getD (i - 1) 0),
           st.2.set i (st.2.getD i 0 - a.getD i 0 / st.1.getD (i - 1) 0 * st.2.getD (i - 1) 0)))
        (b, rhs)).2.length = b.length) ∧
      (∀ j, j = 0 ∨ k < j →
        ((List.range' 1 k).foldl
          (fun (st : List ℚ × List ℚ) i =>
            (st.1.set i (st.1.getD i 0 - a.getD i 0 / st.1.getD (i - 1) 0 * c.getD (i - 1) 0),
             st.2.set i (st.2.getD i 0 - a.getD i 0 / st.1.getD (i - 1) 0 * st.2.getD (i - 1) 0)))
          (b, rhs)).1.getD j 0 = b.getD j 0 ∧
        ((List.range' 1 k).foldl
          (fun (st : List ℚ × List ℚ) i =>
            (st.1.set i (st.1.getD i 0 - a.getD i 0 / st.1.getD (i - 1) 0 * c.getD (i - 1) 0),
             st.2.set i (st.2.getD i 0 - a.getD i 0 / st.1.getD (i - 1) 0 * st.2.getD (i - 1) 0)))
          (b, rhs)).2.getD j 0 = rhs.getD j 0) ∧
      (∀ j, 1 ≤ j → j ≤ k → j < b.length →
        ((List.range' 1 k).foldl
          (fun (st : List ℚ × List ℚ) i =>
            (st.1.set i (st.1.getD i 0 - a.getD i 0 / st.1.getD (i - 1) 0 * c.getD (i - 1) 0),
             st.2.set i (st.2.getD i 0 - a.getD i 0 / st.1.getD (i - 1) 0 * st.2.getD (i - 1) 0)))
          (b, rhs)).1.getD j 0
          = b.getD j 0 - a.getD j 0 /
              ((List.range' 1 k).foldl
                (fun (st : List ℚ × List ℚ) i =>
                  (st.1.set i (st.1.getD i 0 - a.getD i 0 / st.1.getD (i - 1) 0 * c.getD (i - 1) 0),
                   st.2.set i (st.2.getD i 0 - a.getD i 0 / st.1.getD (i - 1) 0 * st.2.getD (i - 1) 0)))
                (b, rhs)).1.getD (j - 1) 0 * c.getD (j - 1) 0 ∧
        ((List.range' 1 k).foldl
          (fun (st : List ℚ × List ℚ) i =>
            (st.1.set i (st.1.getD i 0 - a.getD i 0 / st.1.getD (i - 1) 0 * c.getD (i - 1) 0),
             st.2.set i (st.2.getD i 0 - a.getD i 0 / st.1.getD (i - 1) 0 * st.2.getD (i - 1) 0)))
          (b, rhs)).2.getD j 0
          = rhs.getD j 0 - a.getD j 0 /
              ((List.range' 1 k).foldl
                (fun (st : List ℚ × List ℚ) i =>
                  (st.1.set i (st.1.getD i 0 - a.getD i 0 / st.1.getD (i - 1) 0 * c.getD (i - 1) 0),
                   st.2.set i (st.2.getD i 0 - a.getD i 0 / st.1.getD (i - 1) 0 * st.2.getD (i - 1) 0)))
                (b, rhs)).1.getD (j - 1) 0 *
              ((List.range' 1 k).foldl
                (fun (st : List ℚ × List ℚ) i =>
                  (st.1.set i (st.1.getD i 0 - a.getD i 0 / st.1.getD (i - 1) 0 * c.getD (i - 1) 0),
                   st.2.set i (st.2.getD i 0 - a.getD i 0 / st.1.getD (i - 1) 0 * st.2.getD (i - 1) 0)))
                (b, rhs)).2.getD (j - 1) 0) := by
  intro k
  induction k with
  | zero =>
    refine ⟨⟨rfl, hlen⟩, fun j _ => ⟨rfl, rfl⟩, ?_⟩
    intro j h1 h2
    omega
  | succ k ih =>
    rw [List.range'_1_concat, List.foldl_append, List.foldl_cons, List.foldl_nil]
    generalize (List.range' 1 k).foldl
        (fun (st : List ℚ × List ℚ) i =>
          (st.1.set i (st.1.getD i 0 - a.getD i 0 / st.1.getD (i - 1) 0 * c.getD (i - 1) 0),
           st.2.set i (st.2.getD i 0 - a.getD i 0 / st.1.getD (i - 1) 0 * st.2.getD (i - 1) 0)))
        (b, rhs) = st at ih
    obtain ⟨⟨l1, l2⟩, hb, hc⟩ := ih
    have hk1 : 1 + k - 1 = k := by omega
    refine ⟨⟨by simp only [List.length_set]; exact l1,
      by simp only [List.length_set]; exact l2⟩, ?_, ?_⟩
    · intro j hj
      have hne : ¬ (1 + k = j ∧ j < st.1.length) := by omega
      have hne2 : ¬ (1 + k = j ∧ j < st.2.length) := by omega
      simp only [getD_set, if_neg hne, if_neg hne2]
      exact hb j (by omega)
    · intro j h1 h2 h3
      have hjm : ¬ (1 + k = j - 1 ∧ j - 1 < st.1.length) := by omega
      have hjm2 : ¬ (1 + k = j - 1 ∧ j - 1 < st.2.length) := by omega
      by_cases hj : j = 1 + k
      · subst hj
        have hp : (1 + k = 1 + k ∧ 1 + k < st.1.length) := ⟨rfl, by omega⟩
        have hp2 : (1 + k = 1 + k ∧ 1 + k < st.2.length) := ⟨rfl, by omega⟩
        obtain ⟨e1, e2⟩ := hb (1 + k) (Or.inr (by omega))
        constructor
        · rw [getD_set, if_pos hp, getD_set, if_neg hjm, e1]
        · rw [getD_set, if_pos hp2, getD_set, if_neg hjm, getD_set, if_neg hjm2, e2]
      · have hne : ¬ (1 + k = j ∧ j < st.1.length) := by omega
        have hne2 : ¬ (1 + k = j ∧ j < st.2.length) := by omega
        simp only [getD_set, if_neg hne, if_neg hne2, if_neg hjm, if_neg hjm2]
        exact hc j h1 (by omega) h3

theorem eliminate_subdiagonal_spec (m : Nat) (a c b rhs : List ℚ) (hb : b.length = m)
    (hr : rhs.length = m) :
    (eliminate_subdiagonal m a c b rhs).1.getD 0 0 = b.getD 0 0 ∧
    (eliminate_subdiagonal m a c b rhs).2.getD 0 0 = rhs.getD 0 0 ∧
    ∀ j, 1 ≤ j → j < m →
      (eliminate_subdiagonal m a c b rhs).1.getD j 0
        = b.getD j 0 - a.getD j 0 / (eliminate_subdiagonal m a c b rhs).1.getD (j - 1) 0
            * c.getD (j - 1) 0 ∧
      (eliminate_subdiagonal m a c b rhs).2.getD j 0
        = rhs.getD j 0 - a.getD j 0 / (eliminate_subdiagonal m a c b rhs).1.getD (j - 1) 0
            * (eliminate_subdiagonal m a c b rhs).2.getD (j - 1) 0 := by
  obtain ⟨_, h0, hc⟩ := eliminate_fold_spec a c b rhs (by rw [hr, hb]) (m - 1)
  refine ⟨(h0 0 (Or.inl rfl)).1, (h0 0 (Or.inl rfl)).2, ?_⟩
  intro j h1 h2
  exact hc j h1 (by omega) (by omega)

theorem back_fold_spec (b c rhs : List ℚ) :
    ∀ (n : Nat) (s0 : List ℚ), n < s0.length →
      ((List.range n).reverse.foldl
        (fun (sol : List ℚ) i =>
          sol.set i ((rhs.getD i 0 - c.getD i 0 * sol.getD (i + 1) 0) / b.getD i 0))
        s0).length = s0.length ∧
      (∀ j, n ≤ j →
        ((List.range n).reverse.foldl
          (fun (sol : List ℚ) i =>
            sol.set i ((rhs.getD i 0 - c.getD i 0 * sol.getD (i + 1) 0) / b.getD i 0))
          s0).getD j 0 = s0.getD j 0) ∧
      (∀ i, i < n →
        ((List.range n).reverse.foldl
          (fun (sol : List ℚ) i =>
            sol.set i ((rhs.getD i 0 - c.getD i 0 * sol.getD (i + 1) 0) / b.getD i 0))
          s0).getD i 0
          = (rhs.getD i 0 - c.getD i 0 *
              ((List.range n).reverse.foldl
                (fun (sol : List ℚ) i =>
                  sol.set i ((rhs.getD i 0 - c.getD i 0 * sol.getD (i + 1) 0) / b.getD i 0))
                s0).getD (i + 1) 0) / b.getD i 0) := by
  intro n
  induction n with
  | zero =>
    intro s0 _
    refine ⟨rfl, fun j _ => rfl, ?_⟩
    intro i hi
    omega
  | succ n ih =>
    intro s0 hn
    rw [List.range_succ, List.reverse_append, List.reverse_singleton, List.singleton_append,
      List.foldl_cons]
    obtain ⟨l1, hj, hi⟩ := ih (s0.set n
      ((rhs.getD n 0 - c.getD n 0 * s0.getD (n + 1) 0) / b.getD n 0))
      (by rw [List.length_set]; omega)
    refine ⟨by rw [l1, List.length_set], ?_, ?_⟩
    · intro j hjn
      rw [hj j (by omega), getD_set, if_neg (by omega)]
    · intro i hin
      by_cases hi2 : i = n
      · subst hi2
        rw [hj i (le_refl _), hj (i + 1) (by omega), getD_set, if_pos ⟨rfl, by omega⟩,
          getD_set, if_neg (by omega)]
      · exact hi i (by omega)

theorem back_substitution_spec (m : Nat) (b c rhs sol : List ℚ) (hm : 1 ≤ m)
    (hs : sol.length = m) :
    (back_substitution m b c rhs sol).length = m ∧
    (back_substitution m b c rhs sol).getD (m - 1) 0 = rhs.getD (m - 1) 0 / b.getD (m - 1) 0 ∧
    ∀ i, i + 1 < m →
      (back_substitution m b c rhs sol).getD i 0
        = (rhs.getD i 0 - c.getD i 0 * (back_substitution m b c rhs sol).getD (i + 1) 0)
            / b.getD i 0 := by
  obtain ⟨l1, hj, hi⟩ := back_fold_spec b c rhs (m - 1)
    (sol.set (m - 1) (rhs.getD (m - 1) 0 / b.getD (m - 1) 0))
    (by rw [List.length_set]; omega)
  refine ⟨by unfold back_substitution; rw [l1, List.length_set, hs], ?_, ?_⟩
  · unfold back_substitution
    rw [hj (m - 1) (le_refl _), getD_set, if_pos ⟨rfl, by omega⟩]
  · intro i him
    exact hi i (by omega)

theorem row_last (p r : ℚ) (hp : p ≠ 0) : p * (r / p) + 0 = r := by
  field_simp

theorem row_inner (p r c x : ℚ) (hp : p ≠ 0) : p * ((r - c * x) / p) + c * x = r := by
  field_simp

theorem row_original (ai p cm xm xi b1i rest r1i r1m : ℚ) (hp : p ≠ 0)
    (hu : b1i * xi + rest = r1i) (hu1 : p * xm + cm * xi = r1m) :
    ai * xm + (b1i + ai / p * cm) * xi + rest = r1i + ai / p * r1m := by
  rw [← hu, ← hu1]
  field_simp
  ring

/-- C33: for a system of size `m ≥ 2` (five vectors of size `m`) in which no
divisor met by the algorithm is zero (the entries of the diagonal as modified
by the elimination), `solve_tridiagonal_system` returns, and the returned
`sol` satisfies `a[i]*sol[i-1] + b[i]*sol[i] + c[i]*sol[i+1] = rhs[i]` in every
row `i`, the first term being absent in row `0` and the last in row `m - 1`,
with `b` and `rhs` as on entry. -/
theorem solve_tridiagonal_system_solves (a b c rhs sol : List ℚ) (hm : 2 ≤ a.length)
    (hb : b.length = a.length) (_hc : c.length = a.length) (hr : rhs.length = a.length)
    (hs : sol.length = a.length)
    (hpiv : ∀ i, i < a.length → (eliminate_subdiagonal a.length a c b rhs).1.getD i 0 ≠ 0) :
    ∃ r, solve_tridiagonal_system a b c rhs sol = .ok r ∧
      r.1 = (eliminate_subdiagonal a.length a c b rhs).1 ∧
      r.2.2.length = a.length ∧
      ∀ i, i < a.length →
        (if i = 0 then 0 else a.getD i 0 * r.2.2.getD (i - 1) 0)
          + b.getD i 0 * r.2.2.getD i 0
          + (if i + 1 = a.length then 0 else c.getD i 0 * r.2.2.getD (i + 1) 0)
        = rhs.getD i 0 := by
  refine ⟨_, by unfold solve_tridiagonal_system; rw [if_neg (by omega)], rfl, ?_, ?_⟩
  · exact (back_substitution_spec a.length _ c _ sol (by omega) hs).1
  · obtain ⟨e0, f0, he⟩ := eliminate_subdiagonal_spec a.length a c b rhs hb hr
    obtain ⟨_, hlast, hrow⟩ := back_substitution_spec a.length
      (eliminate_subdiagonal a.length a c b rhs).1 c
      (eliminate_subdiagonal a.length a c b rhs).2 sol (by omega) hs
    show ∀ i, i < a.length →
      (if i = 0 then 0 else a.getD i 0 *
          (back_substitution a.length (eliminate_subdiagonal a.length a c b rhs).1 c
            (eliminate_subdiagonal a.length a c b rhs).2 sol).getD (i - 1) 0)
        + b.getD i 0 *
          (back_substitution a.length (eliminate_subdiagonal a.length a c b rhs).1 c
            (eliminate_subdiagonal a.length a c b rhs).2 sol).getD i 0
        + (if i + 1 = a.length then 0 else c.getD i 0 *
          (back_substitution a.length (eliminate_subdiagonal a.length a c b rhs).1 c
            (eliminate_subdiagonal a.length a c b rhs).2 sol).getD (i + 1) 0)
      = rhs.getD i 0
    generalize back_substitution a.length (eliminate_subdiagonal a.length a c b rhs).1 c
      (eliminate_subdiagonal a.length a c b rhs).2 sol = x at hlast hrow
    generalize (eliminate_subdiagonal a.length a c b rhs).1 = b1 at *
    generalize (eliminate_subdiagonal a.length a c b rhs).2 = r1 at *
    -- the rows of the upper bidiagonal system
    have hupper : ∀ i, i < a.length →
        b1.getD i 0 * x.getD i 0
          + (if i + 1 = a.length then 0 else c.getD i 0 * x.getD (i + 1) 0)
        = r1.getD i 0 := by
      intro i hi
      have hp := hpiv i hi
      by_cases hl : i + 1 = a.length
      · have hi1 : i = a.length - 1 := by omega
        rw [if_pos hl, hi1, hlast]
        rw [← hi1]
        exact row_last _ _ hp
      · rw [if_neg hl, hrow i (by omega)]
        exact row_inner _ _ _ _ hp
    intro i hi
    by_cases h0 : i = 0
    · subst h0
      have h := hupper 0 hi
      rw [e0, f0] at h
      rw [if_pos rfl, zero_add]
      exact h
    · rw [if_neg h0]
      obtain ⟨eb, er⟩ := he i (by omega) hi
      have hu := hupper i hi
      have hu1 := hupper (i - 1) (by omega)
      have hi1 : i - 1 + 1 = i := by omega
      rw [if_neg (by omega), hi1] at hu1
      have hp := hpiv (i - 1) (by omega)
      have hbi : b.getD i 0 = b1.getD i 0 + a.getD i 0 / b1.getD (i - 1) 0 * c.getD (i - 1) 0 := by
        rw [eb]; ring
      have hri : rhs.getD i 0
          = r1.getD i 0 + a.getD i 0 / b1.getD (i - 1) 0 * r1.getD (i - 1) 0 := by
        rw [er]; ring
      rw [hbi, hri]
      exact row_original _ _ _ _ _ _ _ _ _ hp hu hu1

/-- C33 (witness): the system `2*s0 + s1 = 3`, `s0 + 3*s1 = 4`. -/
theorem solve_tridiagonal_system_solves_witness :
    ∃ r, solve_tridiagonal_system [0, 1] [2, 3] [1, 0] [3, 4] [0, 0] = .ok r ∧
      r.1 = (eliminate_subdiagonal ([0, 1] : List ℚ).length [0, 1] [1, 0] [2, 3] [3, 4]).1 ∧
      r.2.2.length = ([0, 1] : List ℚ).length ∧
      ∀ i, i < ([0, 1] : List ℚ).length →
        (if i = 0 then 0 else ([0, 1] : List ℚ).getD i 0 * r.2.2.getD (i - 1) 0)
          + ([2, 3] : List ℚ).getD i 0 * r.2.2.getD i 0
          + (if i + 1 = ([0, 1] : List ℚ).length then 0
              else ([1, 0] : List ℚ).getD i 0 * r.2.2.getD (i + 1) 0)
        = ([3, 4] : List ℚ).getD i 0 :=
  solve_tridiagonal_system_solves [0, 1] [2, 3] [1, 0] [3, 4] [0, 0] (by decide) rfl rfl rfl rfl
    (by
      intro i hi
      have h2 : i < 2 := hi
      interval_cases i <;>
        norm_num [eliminate_subdiagonal, List.range'])

/-! ## Theorems on the sign bit of the central and symmetric samplers -/

theorem draws_agree_from_mono (p q : Nat) (d1 d2 : Nat → Nat) (hpq : p ≤ q)
    (h : draws_agree_from p d1 d2) : draws_agree_from q d1 d2 :=
  fun i hi => h i (le_trans hpq hi)

theorem generate_next_congr (N bits : Nat) (d1 d2 : Nat → Nat) :
    ∀ (fuel P u pos : Nat), draws_agree_from pos d1 d2 →
      generate_next N bits d1 fuel P u pos = generate_next N bits d2 fuel P u pos := by
  intro fuel
  induction fuel with
  | zero =>
    intro P u pos _
    cases P <;> rfl
  | succ fuel ih =>
    intro P u pos h
    cases P with
    | zero => rfl
    | succ P =>
      rw [generate_next_succ, generate_next_succ, h pos (le_refl _)]
      exact ih _ _ _ (draws_agree_from_mono pos (pos + 1) d1 d2 (by omega) h)

theorem generate_next_pos_le (N bits : Nat) (d : Nat → Nat) :
    ∀ (fuel P u pos r p : Nat), generate_next N bits d fuel P u pos = some (r, p) →
      pos ≤ p := by
  intro fuel
  induction fuel with
  | zero =>
    intro P u pos r p h
    cases P with
    | zero =>
      simp only [generate_next, Option.some.injEq, Prod.mk.injEq] at h
      omega
    | succ P => simp [generate_next] at h
  | succ fuel ih =>
    intro P u pos r p h
    cases P with
    | zero =>
      simp only [generate_next, Option.some.injEq, Prod.mk.injEq] at h
      omega
    | succ P =>
      rw [generate_next_succ] at h
      have := ih _ _ _ _ _ h
      omega

theorem random_bits_generate_congr (N bits : Nat) (d1 d2 : Nat → Nat) (P pos : Nat)
    (h : draws_agree_from pos d1 d2) :
    random_bits_generate N bits d1 P pos = random_bits_generate N bits d2 P pos := by
  by_cases hP : P = 0
  · simp [random_bits_generate, hP]
  · rw [random_bits_generate_eq _ _ _ _ _ (by omega), random_bits_generate_eq _ _ _ _ _ (by omega),
      h pos (le_refl _)]
    exact generate_next_congr _ _ d1 d2 _ _ _ _
      (draws_agree_from_mono pos (pos + 1) d1 d2 (by omega) h)

theorem random_bits_generate_pos_le (N bits : Nat) (d : Nat → Nat) (P pos r p : Nat)
    (h : random_bits_generate N bits d P pos = some (r, p)) : pos ≤ p := by
  by_cases hP : P = 0
  · simp [random_bits_generate, hP] at h
  · rw [random_bits_generate_eq _ _ _ _ _ (by omega)] at h
    have := generate_next_pos_le _ _ _ _ _ _ _ _ _ h
    omega

theorem generate_random_integer_congr (R : RngType) (bits W : Nat) (d1 d2 : Nat → Nat)
    (pos : Nat) (h : draws_agree_from pos d1 d2) :
    generate_random_integer R bits W d1 pos = generate_random_integer R bits W d2 pos := by
  unfold generate_random_integer
  rw [random_bits_generate_congr _ _ d1 d2 _ _ h]

theorem generate_random_integer_pos_le (R : RngType) (bits W : Nat) (d : Nat → Nat)
    (pos r p : Nat) (h : generate_random_integer R bits W d pos = some (r, p)) :
    pos ≤ p := by
  unfold generate_random_integer at h
  split_ifs at h
  exact random_bits_generate_pos_le _ _ _ _ _ _ _ h

theorem generate_random_real_congr (digits : Nat) (R : RngType) (bits W : Nat)
    (d1 d2 : Nat → Nat) (pos : Nat) (h : draws_agree_from pos d1 d2) :
    generate_random_real digits R bits W d1 pos
      = generate_random_real digits R bits W d2 pos := by
  simp only [generate_random_real]
  rw [generate_random_integer_congr R bits _ d1 d2 pos h]

theorem generate_random_real_pos_le (digits : Nat) (R : RngType) (bits W : Nat)
    (d : Nat → Nat) (pos : Nat) (v : ℚ) (p : Nat)
    (h : generate_random_real digits R bits W d pos = some (v, p)) : pos ≤ p := by
  simp only [generate_random_real] at h
  split at h
  · rename_i k p1 hk
    have := generate_random_integer_pos_le _ _ _ _ _ _ _ hk
    simp only [Option.some.injEq, Prod.mk.injEq] at h
    omega
  · cases h

theorem sample_outer_congr (S : Sampler) (R : RngType) (d1 d2 : Nat → Nat) (pos : Nat)
    (hout : S.outer_reads_forward) (h : draws_agree_from pos d1 d2) :
    S.sample_outer R d1 pos = S.sample_outer R d2 pos := by
  unfold Sampler.sample_outer
  cases S.cat with
  | bounded => rfl
  | composite =>
    simp only
    rw [hout.1 d1 d2 pos h]
  | rejection_composite =>
    simp only
    rw [generate_random_real_congr _ R _ _ d1 d2 pos h]
    cases hg : generate_random_real S.digits R S.real_bits S.W d2 pos with
    | none => rfl
    | some rp =>
      obtain ⟨r, p⟩ := rp
      simp only
      have hp := generate_random_real_pos_le _ _ _ _ _ _ _ _ hg
      rw [hout.1 d1 d2 p (draws_agree_from_mono pos p d1 d2 hp h)]

theorem sample_outer_pos_le (S : Sampler) (R : RngType) (d : Nat → Nat) (pos : Nat)
    (hout : S.outer_reads_forward) (acc : Bool) (x : ℚ) (p : Nat)
    (h : S.sample_outer R d pos = some (acc, x, p)) : pos ≤ p := by
  unfold Sampler.sample_outer at h
  cases hc : S.cat with
  | bounded =>
    rw [hc] at h
    simp only [Option.some.injEq, Prod.mk.injEq] at h
    omega
  | composite =>
    rw [hc] at h
    simp only at h
    cases ho : S.outer_dist_ d pos with
    | none => rw [ho] at h; cases h
    | some xp =>
      obtain ⟨x1, p1⟩ := xp
      rw [ho] at h
      simp only [Option.some.injEq, Prod.mk.injEq] at h
      have := hout.2 d pos x1 p1 ho
      omega
  | rejection_composite =>
    rw [hc] at h
    simp only at h
    cases hg : generate_random_real S.digits R S.real_bits S.W d pos with
    | none => rw [hg] at h; cases h
    | some rp =>
      obtain ⟨r, p0⟩ := rp
      rw [hg] at h
      simp only at h
      have h0 := generate_random_real_pos_le _ _ _ _ _ _ _ _ hg
      cases ho : S.outer_dist_ d p0 with
      | none => rw [ho] at h; cases h
      | some xp =>
        obtain ⟨x1, p1⟩ := xp
        rw [ho] at h
        simp only [Option.some.injEq, Prod.mk.injEq] at h
        have := hout.2 d p0 x1 p1 ho
        omega

theorem wedge_congr (S : Sampler) (R : RngType) (d1 d2 : Nat → Nat) (r : Nat)
    (st : List SamplerState) (pos : Nat) (h : draws_agree_from pos d1 d2) :
    S.wedge R d1 r st pos = S.wedge R d2 r st pos := by
  unfold Sampler.wedge
  rw [generate_random_real_congr _ R _ _ d1 d2 pos h]

theorem wedge_pos_le (S : Sampler) (R : RngType) (d : Nat → Nat) (r : Nat)
    (st : List SamplerState) (pos : Nat) (a : Attempt)
    (h : S.wedge R d r st pos = some a) : pos ≤ a.pos := by
  obtain ⟨v, hg, _⟩ := wedge_cases S R d r st pos a h
  exact generate_random_real_pos_le _ _ _ _ _ _ _ _ hg

theorem attempt_pos_le (S : Sampler) (R : RngType) (d : Nat → Nat) (pos : Nat)
    (hout : S.outer_reads_forward) (a : Attempt) (h : S.attempt R d pos = some a) :
    ∃ r p1, generate_random_integer R S.bits S.W d pos = some (r, p1) ∧ pos ≤ p1 ∧
      p1 ≤ a.pos := by
  obtain ⟨r, pos1, hgi, _, hcase⟩ := attempt_cases S R d pos a h
  have h1 := generate_random_integer_pos_le _ _ _ _ _ _ _ hgi
  refine ⟨r, pos1, hgi, h1, ?_⟩
  rcases hcase with ⟨_, ha⟩ | ⟨_, _, acc, x, pos2, hso, _, ha⟩ |
      ⟨_, _, acc, x, pos2, hso, _, hw⟩ | ⟨_, _, hw⟩
  · have : a.pos = pos1 := by rw [ha]
    omega
  · have : a.pos = pos2 := by rw [ha]
    have := sample_outer_pos_le S R d pos1 hout acc x pos2 hso
    omega
  · have := sample_outer_pos_le S R d pos1 hout acc x pos2 hso
    have := wedge_pos_le S R d r _ pos2 a hw
    omega
  · exact wedge_pos_le S R d r _ pos1 a hw

theorem attempt_congr (S : Sampler) (R : RngType) (d1 d2 : Nat → Nat) (pos : Nat)
    (hout : S.outer_reads_forward) (h : draws_agree_from pos d1 d2) :
    S.attempt R d1 pos = S.attempt R d2 pos := by
  unfold Sampler.attempt
  rw [generate_random_integer_congr R _ _ d1 d2 pos h]
  cases hg : generate_random_integer R S.bits S.W d2 pos with
  | none => rfl
  | some rp =>
    obtain ⟨r, p1⟩ := rp
    have hp1 := generate_random_integer_pos_le _ _ _ _ _ _ _ hg
    have h1 := draws_agree_from_mono pos p1 d1 d2 hp1 h
    simp only
    rw [sample_outer_congr S R d1 d2 p1 hout h1, wedge_congr S R d1 d2 r _ p1 h1]
    cases hso : S.sample_outer R d2 p1 with
    | none => rfl
    | some t =>
      obtain ⟨acc, x, p2⟩ := t
      have hp2 := sample_outer_pos_le S R d2 p1 hout acc x p2 hso
      simp only
      rw [wedge_congr S R d1 d2 r _ p2 (draws_agree_from_mono p1 p2 d1 d2 hp2 h1)]

theorem sample_congr (S : Sampler) (R : RngType) (d1 d2 : Nat → Nat)
    (hout : S.outer_reads_forward) :
    ∀ (fuel pos : Nat), draws_agree_from pos d1 d2 →
      S.sample R d1 fuel pos = S.sample R d2 fuel pos := by
  intro fuel
  induction fuel with
  | zero => intro pos _; rfl
  | succ fuel ih =>
    intro pos h
    have hc := attempt_congr S R d1 d2 pos hout h
    cases ha : S.attempt R d2 pos with
    | none =>
      rw [ha] at hc
      simp only [Sampler.sample, ha, hc]
    | some a =>
      rw [ha] at hc
      cases hv : a.value with
      | some v =>
        rw [sample_return S R d1 pos a v hc hv, sample_return S R d2 pos a v ha hv]
      | none =>
        rw [sample_continue S R d1 pos a hc hv, sample_continue S R d2 pos a ha hv]
        obtain ⟨_, _, _, q1, q2⟩ := attempt_pos_le S R d2 pos hout a ha
        exact ih a.pos (draws_agree_from_mono pos a.pos d1 d2 (by omega) h)

theorem sign_bit_fields (S : Sampler) (r1 r2 : Nat) (hs : S.shape ≠ .asymmetric)
    (hNW : S.N + 1 ≤ S.W) (hWb : S.W ≤ S.bits) (hN : S.N ≤ size_t_bits)
    (hr : differ_in_sign_bit S.W r1 r2) :
    S.mantissa r2 = S.mantissa r1 ∧ S.index r2 = S.index r1 ∧ S.sign r2 = -S.sign r1 := by
  obtain ⟨h1, h2, hmod, hdiv⟩ := hr
  have hW : S.W - 1 = (S.W - S.N - 1) + S.N := by omega
  have hpow : 2 ^ (S.W - 1) = 2 ^ (S.W - S.N - 1) * 2 ^ S.N := by rw [hW, pow_add]
  have hdvd : 2 ^ (S.W - S.N - 1) ∣ 2 ^ (S.W - 1) := ⟨2 ^ S.N, hpow⟩
  refine ⟨?_, ?_, ?_⟩
  · rw [mantissa_signed S r1 hs (by omega), mantissa_signed S r2 hs (by omega),
      ← Nat.mod_mod_of_dvd r1 hdvd, ← Nat.mod_mod_of_dvd r2 hdvd, hmod]
  · rw [index_signed S r1 hs hN, index_signed S r2 hs hN,
      ← Nat.mod_mul_right_div_self r1, ← Nat.mod_mul_right_div_self r2, ← hpow, hmod]
  · rw [sign_signed S r1 hs, sign_signed S r2 hs]
    have hW2 : 2 ^ S.W = 2 ^ (S.W - 1) * 2 := by
      rw [← pow_succ]
      congr 1
      omega
    have q1 : r1 / 2 ^ (S.W - 1) < 2 := Nat.div_lt_of_lt_mul (by rw [← hW2]; exact h1)
    have q2 : r2 / 2 ^ (S.W - 1) < 2 := Nat.div_lt_of_lt_mul (by rw [← hW2]; exact h2)
    generalize r1 / 2 ^ (S.W - 1) = a at *
    generalize r2 / 2 ^ (S.W - 1) = b at *
    interval_cases a <;> interval_cases b <;> simp_all

theorem mirror_values (S : Sampler) (s : ℤ) (hs : S.shape ≠ .asymmetric) (i u : Nat) (x : ℚ) :
    S.fast_value (-s) i u = S.mirror (S.fast_value s i u) ∧
    S.outer_value (-s) x = S.mirror (S.outer_value s x) ∧
    S.wedge_value (-s) x = S.mirror (S.wedge_value s x) := by
  unfold Sampler.fast_value Sampler.outer_value Sampler.wedge_value Sampler.mirror
  cases hsh : S.shape with
  | asymmetric => exact absurd hsh hs
  | central =>
    simp only
    push_cast
    refine ⟨by ring, by ring, by ring⟩
  | symmetric =>
    simp only
    push_cast
    refine ⟨by ring, by ring, by ring⟩

theorem wedge_mirror (S : Sampler) (R : RngType) (d : Nat → Nat) (r1 r2 : Nat)
    (st : List SamplerState) (pos : Nat) (hs : S.shape ≠ .asymmetric)
    (hm : S.mantissa r2 = S.mantissa r1) (hi : S.index r2 = S.index r1)
    (hsg : S.sign r2 = -S.sign r1) :
    S.wedge R d r2 st pos = (S.wedge R d r1 st pos).map (S.mirror_attempt r2) := by
  unfold Sampler.wedge
  cases generate_random_real S.digits R S.real_bits S.W d pos with
  | none => rfl
  | some vp =>
    obtain ⟨v, p⟩ := vp
    simp only [hm, hi, hsg]
    split_ifs
    · simp only [Option.map_some', Sampler.mirror_attempt, Option.some.injEq]
      rw [(mirror_values S (S.sign r1) hs 0 0 _).2.2]
    · rfl

theorem attempt_mirror (S : Sampler) (R : RngType) (d1 d2 : Nat → Nat)
    (pos r1 r2 p1 : Nat) (hs : S.shape ≠ .asymmetric)
    (hNW : S.N + 1 ≤ S.W) (hWb : S.W ≤ S.bits) (hN : S.N ≤ size_t_bits)
    (hout : S.outer_reads_forward)
    (h1 : generate_random_integer R S.bits S.W d1 pos = some (r1, p1))
    (h2 : generate_random_integer R S.bits S.W d2 pos = some (r2, p1))
    (hr : differ_in_sign_bit S.W r1 r2) (hd : draws_agree_from p1 d1 d2) :
    S.attempt R d2 pos = (S.attempt R d1 pos).map (S.mirror_attempt r2) := by
  obtain ⟨hm, hi, hsg⟩ := sign_bit_fields S r1 r2 hs hNW hWb hN hr
  have hw := fun st p => wedge_mirror S R d1 r1 r2 st p hs hm hi hsg
  unfold Sampler.attempt
  rw [h1, h2]
  simp only [hm, hi, hsg]
  rw [← sample_outer_congr S R d1 d2 p1 hout hd, ← wedge_congr S R d1 d2 r2 _ p1 hd, hw]
  split_ifs with c1 c2
  · simp only [Option.map_some', Sampler.mirror_attempt, Option.some.injEq]
    rw [(mirror_values S (S.sign r1) hs _ _ 0).1]
  · cases hso : S.sample_outer R d1 p1 with
    | none => rfl
    | some t =>
      obtain ⟨acc, x, p2⟩ := t
      have hp2 := sample_outer_pos_le S R d1 p1 hout acc x p2 hso
      simp only
      rw [← wedge_congr S R d1 d2 r2 _ p2 (draws_agree_from_mono p1 p2 d1 d2 hp2 hd), hw]
      split_ifs
      · simp only [Option.map_some', Sampler.mirror_attempt, Option.some.injEq]
        rw [(mirror_values S (S.sign r1) hs 0 0 _).2.1]
      · rfl
  · rfl

theorem central_example_reads_forward : central_example.outer_reads_forward :=
  ⟨fun _ _ _ _ => rfl, fun _ pos _ pos1 h => by
    simp only [central_example, Option.some.injEq, Prod.mk.injEq] at h
    omega⟩

theorem central_example_table_built :
    build central_example.W central_example.N central_example.shape central_example.cat
        central_example.build_origin [0, 1, 2] (fun _ => 1 / 2) (fun _ => 1) 0
      = .ok ⟨central_example.x_, central_example.data_, central_example.outer_switch_⟩ := by
  have hos : compute_outer_switch 8 1 .central .bounded [0, 1, 2] (fun _ => 1) 0 = 64 := by
    simp [compute_outer_switch, Category.HasOuter, Shape.IsSymmetric]
  have hu : to_uint ((1 / 2 : ℚ) / 1 * ((64 : Nat) : ℚ)) = 32 :=
    to_uint_eq _ 32 (by norm_num) (by norm_num)
  have hd : ∀ i, i < 2 → build_datum 64 [0, 1, 2] (fun _ => 1 / 2) (fun _ => 1) i
      = { scaled_fratio := 32, scaled_fsup := 1 / 64, scaled_dx := 1 / 32 } := by
    intro i hi
    unfold build_datum
    have h12 : (1 : ℚ) / 2 ≤ 1 / 2 / 1 := by norm_num
    simp only [h12, if_true, hu]
    interval_cases i <;> norm_num
  show build 8 1 .central .bounded 0 [0, 1, 2] (fun _ => 1 / 2) (fun _ => 1) 0
      = .ok ⟨[0, 1, 2], _, 64⟩
  rw [build_ok _ _ _ _ _ _ _ _ _ (by norm_num)]
  simp only [ne_eq, not_true_eq_false, if_false, hos]
  simp only [List.range, List.range.loop, List.map, hd 0 (by norm_num), hd 1 (by norm_num)]
  rfl

theorem sign_draws_agree (first pos : Nat) (hpos : 1 ≤ pos) :
    draws_agree_from pos (sign_draws first) (sign_draws 0) := by
  intro i hi
  obtain ⟨j, rfl⟩ : ∃ j, i = j + 1 := ⟨i - 1, by omega⟩
  rfl

theorem sign_draws_integer (first pos bits : Nat) (hpos : 1 ≤ pos) (hpos2 : pos < 3)
    (hb : bits = 16 ∨ bits = 64) :
    generate_random_integer ⟨0, 255⟩ bits 8 (sign_draws first) pos
      = some (sign_draws first pos, pos + 1) := by
  rw [generate_random_integer_congr _ _ _ _ _ pos (sign_draws_agree first pos hpos),
    sign_draws_agree first pos hpos pos (le_refl _)]
  rcases hb with rfl | rfl <;> interval_cases pos <;> decide

theorem sign_draws_real (first pos : Nat) (hpos : 1 ≤ pos) (hpos2 : pos < 3) :
    generate_random_real 53 ⟨0, 255⟩ 64 8 (sign_draws first) pos
      = some ((sign_draws first pos : ℚ) / 256, pos + 1) := by
  have hi := sign_draws_integer first pos 64 hpos hpos2 (Or.inr rfl)
  unfold generate_random_real
  have hM : (if 53 < 8 then 53 else 8) = 8 := by decide
  simp only [hM, hi]
  norm_num [Nat.shiftLeft_eq]
  ring

theorem central_example_rejects (first : Nat) (hf : first = 63 ∨ first = 191) :
    central_example.attempt ⟨0, 255⟩ (sign_draws first) 0
      = some { states := [.draw, .wedge, .wedge_reject], r := first, x := 77 / 256,
               value := none, pos := 2 } := by
  have h1 := sign_draws_real first 1 (by decide) (by decide)
  have hi : generate_random_integer ⟨0, 255⟩ 16 8 (sign_draws first) 0 = some (first, 1) := by
    rcases hf with rfl | rfl <;> decide
  have hm : central_example.mantissa first = 63 := by
    rcases hf with rfl | rfl <;> decide
  have hx : central_example.index first = 0 := by
    rcases hf with rfl | rfl <;> decide
  have hw : central_example.wedge ⟨0, 255⟩ (sign_draws first) first [.draw] 1
      = some { states := [.draw, .wedge, .wedge_reject], r := first, x := 77 / 256,
               value := none, pos := 2 } := by
    unfold Sampler.wedge
    simp only [hm, hx]
    simp only [central_example] at h1 ⊢
    rw [h1]
    norm_num [sign_draws, Sampler.wedge_density]
  unfold Sampler.attempt
  simp only [show central_example.bits = 16 from rfl, show central_example.W = 8 from rfl,
    hi, hm, hx, hw]
  norm_num [central_example, Category.HasOuter]

theorem central_example_accepts (d : Nat → Nat) (pos r : Nat) (u : Nat) (i : Nat)
    (hi : generate_random_integer ⟨0, 255⟩ 16 8 d pos = some (r, pos + 1))
    (hm : central_example.mantissa r = u) (hx : central_example.index r = i)
    (hu : u < 32) (hi2 : i < 2) :
    central_example.attempt ⟨0, 255⟩ d pos
      = some { states := [.draw, .fast_accept], r := r,
               x := (i : ℚ) + 1 / 32 * (u : ℚ),
               value := some ((central_example.sign r : ℚ) * ((i : ℚ) + 1 / 32 * (u : ℚ))),
               pos := pos + 1 } := by
  unfold Sampler.attempt
  simp only [show central_example.bits = 16 from rfl, show central_example.W = 8 from rfl,
    hi, hm, hx]
  interval_cases i <;> norm_num [central_example, Sampler.fast_value, hu]

/-- C36 (counterexample): in the central sampler `central_example` (`W = 8`,
table made by `build`) the draws `63, 77, 3` and `191, 77, 3` differ in bit 7 of the first integer
only.  In both runs the first pass is rejected at the wedge test, the second
pass reads the same integer `3` and `operator()` returns `-3/32` in both runs:
the two returned values are equal, not mirror images (`3/32` is the mirror
image of `-3/32`). -/
theorem sign_bit_rejected_first_pass :
    build central_example.W central_example.N central_example.shape central_example.cat
        central_example.build_origin [0, 1, 2] (fun _ => 1 / 2) (fun _ => 1) 0
      = .ok ⟨central_example.x_, central_example.data_, central_example.outer_switch_⟩ ∧
    differ_in_sign_bit central_example.W 63 191 ∧
    generate_random_integer ⟨0, 255⟩ central_example.bits central_example.W (sign_draws 63) 0
      = some (63, 1) ∧
    generate_random_integer ⟨0, 255⟩ central_example.bits central_example.W (sign_draws 191) 0
      = some (191, 1) ∧
    draws_agree_from 1 (sign_draws 63) (sign_draws 191) ∧
    central_example.sample ⟨0, 255⟩ (sign_draws 63) 2 0 = some (-3 / 32, 3) ∧
    central_example.sample ⟨0, 255⟩ (sign_draws 191) 2 0 = some (-3 / 32, 3) ∧
    central_example.mirror (-3 / 32) = 3 / 32 ∧
    (-3 / 32 : ℚ) ≠ central_example.mirror (-3 / 32) := by
  have hagree : draws_agree_from 1 (sign_draws 63) (sign_draws 191) := by
    intro i hi
    obtain ⟨j, rfl⟩ : ∃ j, i = j + 1 := ⟨i - 1, by omega⟩
    rfl
  have hmir : central_example.mirror (-3 / 32) = 3 / 32 := by
    norm_num [Sampler.mirror, central_example]
  have hrun : ∀ first, first = 63 ∨ first = 191 →
      central_example.sample ⟨0, 255⟩ (sign_draws first) 2 0 = some (-3 / 32, 3) := by
    intro first hf
    have h1 := central_example_rejects first hf
    have h2 := central_example_accepts (sign_draws first) 2 3 3 0
      (sign_draws_integer first 2 16 (by decide) (by decide) (Or.inl rfl)) (by decide)
      (by decide) (by decide) (by decide)
    rw [sample_continue _ _ _ 0 _ h1 rfl 1]
    rw [sample_return _ _ _ 2 _ _ h2 rfl 0]
    have hs : central_example.sign 3 = -1 := by decide
    rw [hs]
    norm_num
  refine ⟨central_example_table_built,
    ⟨by decide, by decide, by decide, by decide⟩, by decide, by decide, hagree,
    hrun 63 (Or.inl rfl), hrun 191 (Or.inr rfl), hmir, ?_⟩
  rw [hmir]
  norm_num

/-- C36 (amended): for a central or symmetric sampler, let two runs start at
the same position of two streams of draws whose first `W`-bit integers differ
in bit `W - 1` only and which agree afterwards (the outer distribution reading
its stream forwards).  Then the first pass of the second run goes through the
same points as the first pass of the first run, forms the same abscissa and
reads the same number of draws; if the first pass returns `v`, the first run
returns `v` and the second its mirror image (`-v` for the central shape,
`2*origin - v` for the symmetric shape); if the first pass is rejected, the two
runs continue with the same draws and return the same value, not mirror
images. -/
theorem sign_bit_mirrors_first_pass (S : Sampler) (R : RngType) (d1 d2 : Nat → Nat)
    (pos r1 r2 p1 : Nat) (a1 : Attempt) (hs : S.shape ≠ .asymmetric)
    (hNW : S.N + 1 ≤ S.W) (hWb : S.W ≤ S.bits) (hN : S.N ≤ size_t_bits)
    (hout : S.outer_reads_forward)
    (h1 : generate_random_integer R S.bits S.W d1 pos = some (r1, p1))
    (h2 : generate_random_integer R S.bits S.W d2 pos = some (r2, p1))
    (hr : differ_in_sign_bit S.W r1 r2) (hd : draws_agree_from p1 d1 d2)
    (ha : S.attempt R d1 pos = some a1) :
    ∃ a2, S.attempt R d2 pos = some a2 ∧
      a2.states = a1.states ∧ a2.x = a1.x ∧ a2.pos = a1.pos ∧ a1.r = r1 ∧ a2.r = r2 ∧
      S.mantissa r2 = S.mantissa r1 ∧ S.index r2 = S.index r1 ∧ S.sign r2 = -S.sign r1 ∧
      a2.value = a1.value.map S.mirror ∧
      (∀ v, a1.value = some v → ∀ fuel,
        S.sample R d1 (fuel + 1) pos = some (v, a1.pos) ∧
        S.sample R d2 (fuel + 1) pos = some (S.mirror v, a1.pos)) ∧
      (a1.value = none → ∀ fuel,
        S.sample R d2 (fuel + 1) pos = S.sample R d1 (fuel + 1) pos) := by
  have hm := attempt_mirror S R d1 d2 pos r1 r2 p1 hs hNW hWb hN hout h1 h2 hr hd
  rw [ha] at hm
  obtain ⟨f1, f2, f3⟩ := sign_bit_fields S r1 r2 hs hNW hWb hN hr
  obtain ⟨r, q, hq, har, _⟩ := attempt_cases S R d1 pos a1 ha
  rw [h1] at hq
  have hrr : r1 = r := (Prod.mk.inj (Option.some.inj hq)).1
  refine ⟨S.mirror_attempt r2 a1, hm, rfl, rfl, rfl, by rw [har, hrr], rfl, f1, f2, f3, rfl,
    ?_, ?_⟩
  · intro v hv fuel
    refine ⟨sample_return S R d1 pos a1 v ha hv fuel, ?_⟩
    have hv2 : (S.mirror_attempt r2 a1).value = some (S.mirror v) := by
      show a1.value.map S.mirror = _
      rw [hv]
      rfl
    exact sample_return S R d2 pos _ _ hm hv2 fuel
  · intro hv fuel
    have hv2 : (S.mirror_attempt r2 a1).value = none := by
      show a1.value.map S.mirror = _
      rw [hv]
      rfl
    rw [sample_continue S R d2 pos _ hm hv2 fuel, sample_continue S R d1 pos a1 ha hv fuel]
    obtain ⟨r0, q1, hq1, _, hle⟩ := attempt_pos_le S R d1 pos hout a1 ha
    rw [h1] at hq1
    have hpq : p1 = q1 := (Prod.mk.inj (Option.some.inj hq1)).2
    have hag : draws_agree_from a1.pos d1 d2 :=
      draws_agree_from_mono p1 a1.pos d1 d2 (by omega) hd
    exact (sample_congr S R d1 d2 hout fuel a1.pos hag).symm

theorem central_example_fast :
    central_example.attempt ⟨0, 255⟩ (fun _ => 3) 0
      = some { states := [.draw, .fast_accept], r := 3, x := 3 / 32,
               value := some (-3 / 32), pos := 1 } := by
  have h := central_example_accepts (fun _ => 3) 0 3 3 0 (by decide) (by decide) (by decide)
    (by decide) (by decide)
  rw [h]
  have hs : central_example.sign 3 = -1 := by decide
  rw [hs]
  norm_num

/-- C36 (witness): the central example on the first integers `3` and
`131 = 3 + 2^7`: the first run returns `-3/32`, the second its mirror image. -/
theorem sign_bit_mirrors_first_pass_witness :
    ∃ a2, central_example.attempt ⟨0, 255⟩ (fun i => if i = 0 then 131 else 3) 0 = some a2 ∧
      a2.states = [.draw, .fast_accept] ∧ a2.x = 3 / 32 ∧ a2.pos = 1 ∧
      a2.value = (some (-3 / 32 : ℚ)).map central_example.mirror :=
  let ⟨a2, h1, h2, h3, h4, _, _, _, _, _, h5, _⟩ :=
    sign_bit_mirrors_first_pass central_example ⟨0, 255⟩ (fun _ => 3)
      (fun i => if i = 0 then 131 else 3) 0 3 131 1
      { states := [.draw, .fast_accept], r := 3, x := 3 / 32, value := some (-3 / 32),
        pos := 1 }
      (by decide) (by decide) (by decide) (by decide) central_example_reads_forward
      (by decide) (by decide) ⟨by decide, by decide, by decide, by decide⟩
      (fun i hi => by
        have h0 : i ≠ 0 := by omega
        simp [h0])
      central_example_fast
  ⟨a2, h1, h2, h3, h4, h5⟩

/-! ## Theorems on `build` in a floating-point `RealType` -/

theorem round_half_even_near (m : ℚ) : |((round_half_even m : ℤ) : ℚ) - m| ≤ 1 / 2 := by
  have h1 := Int.floor_le m
  have h2 := Int.lt_floor_add_one m
  unfold round_half_even
  split_ifs with c1 c2 c3
  · rw [abs_le]; constructor <;> linarith
  · push_cast; rw [abs_le]; constructor <;> linarith
  · rw [abs_le]; constructor <;> linarith
  · push_cast; rw [abs_le]; constructor <;> linarith

theorem round_half_even_eq (m : ℚ) (k : ℤ) (h : |(k : ℚ) - m| < 1 / 2) :
    round_half_even m = k := by
  have h1 := Int.floor_le m
  have h2 := Int.lt_floor_add_one m
  obtain ⟨h3, h4⟩ := abs_lt.mp h
  have hk : (⌊m⌋ : ℚ) - 1 < k ∧ (k : ℚ) < ⌊m⌋ + 2 := by constructor <;> linarith
  have hk1 : ⌊m⌋ - 1 < k := by exact_mod_cast hk.1
  have hk2 : k < ⌊m⌋ + 2 := by exact_mod_cast hk.2
  have hcases : k = ⌊m⌋ ∨ k = ⌊m⌋ + 1 := by omega
  unfold round_half_even
  rcases hcases with e | e
  · have e2 : (k : ℚ) = (⌊m⌋ : ℚ) := by exact_mod_cast e
    rw [if_pos (by linarith), e]
  · have e2 : (k : ℚ) = (⌊m⌋ : ℚ) + 1 := by exact_mod_cast e
    rw [if_neg (by linarith), if_pos (by linarith), e]

theorem round_to_digits_error (p : Nat) (q : ℚ) :
    |round_to_digits p q - q| ≤ (1 / 2) ^ p * |q| := by
  unfold round_to_digits
  by_cases h0 : q = 0
  · rw [if_pos h0, h0]
    simp
  · rw [if_neg h0]
    have ha : 0 < |q| := abs_pos.mpr h0
    have hsign : q = (if q < 0 then -1 else 1) * |q| := by
      by_cases hneg : q < 0
      · rw [if_pos hneg, abs_of_neg hneg]; ring
      · rw [if_neg hneg, abs_of_nonneg (not_lt.mp hneg), one_mul]
    have hsabs : |(if q < 0 then (-1 : ℚ) else 1)| = 1 := by
      split_ifs <;> simp
    have hlog : (2 : ℚ) ^ Int.log 2 |q| ≤ |q| := by
      have := Int.zpow_log_le_self (b := 2) (by norm_num) ha
      exact_mod_cast this
    generalize |q| = a at ha hsign hlog ⊢
    generalize Int.log 2 a = e at hlog ⊢
    have hs : (0 : ℚ) < (2 : ℚ) ^ (e - ((p : ℤ) - 1)) := zpow_pos (by norm_num) _
    have hnear := round_half_even_near (a / (2 : ℚ) ^ (e - ((p : ℤ) - 1)))
    generalize round_half_even (a / (2 : ℚ) ^ (e - ((p : ℤ) - 1))) = k at hnear ⊢
    have hks : |(k : ℚ) * (2 : ℚ) ^ (e - ((p : ℤ) - 1)) - a|
        ≤ 1 / 2 * (2 : ℚ) ^ (e - ((p : ℤ) - 1)) := by
      have e1 : (k : ℚ) * (2 : ℚ) ^ (e - ((p : ℤ) - 1)) - a
          = ((k : ℚ) - a / (2 : ℚ) ^ (e - ((p : ℤ) - 1))) * (2 : ℚ) ^ (e - ((p : ℤ) - 1)) := by
        field_simp
      rw [e1, abs_mul, abs_of_pos hs]
      exact mul_le_mul_of_nonneg_right hnear hs.le
    have hhalf : 1 / 2 * (2 : ℚ) ^ (e - ((p : ℤ) - 1)) = (1 / 2) ^ p * (2 : ℚ) ^ e := by
      have e2 : e - ((p : ℤ) - 1) = e + (-(p : ℤ)) + 1 := by ring
      rw [e2, zpow_add₀ (by norm_num : (2 : ℚ) ≠ 0), zpow_add₀ (by norm_num : (2 : ℚ) ≠ 0),
        zpow_neg, zpow_natCast, zpow_one, one_div, inv_pow]
      ring
    have hbound : 1 / 2 * (2 : ℚ) ^ (e - ((p : ℤ) - 1)) ≤ (1 / 2) ^ p * a := by
      rw [hhalf]
      exact mul_le_mul_of_nonneg_left hlog (by positivity)
    refine le_trans ?_ hbound
    refine le_trans (le_of_eq ?_) hks
    generalize (if q < 0 then (-1 : ℚ) else 1) = sg at hsign hsabs ⊢
    have e3 : sg * (k : ℚ) * (2 : ℚ) ^ (e - ((p : ℤ) - 1)) - q
        = sg * ((k : ℚ) * (2 : ℚ) ^ (e - ((p : ℤ) - 1)) - a) := by
      rw [hsign]; ring
    rw [e3, abs_mul, hsabs, one_mul]

theorem round_to_digits_eq (p : Nat) (q : ℚ) (e k : ℤ) (hq : 0 < q)
    (h1 : (2 : ℚ) ^ e ≤ q) (h2 : q < (2 : ℚ) ^ (e + 1))
    (h3 : |(k : ℚ) - q / (2 : ℚ) ^ (e - ((p : ℤ) - 1))| < 1 / 2) :
    round_to_digits p q = (k : ℚ) * (2 : ℚ) ^ (e - ((p : ℤ) - 1)) := by
  have hlog : Int.log 2 q = e := by
    apply le_antisymm
    · have := (Int.lt_zpow_iff_log_lt (b := 2) (by norm_num) hq (x := e + 1)).mp
        (by exact_mod_cast h2)
      omega
    · exact (Int.zpow_le_iff_le_log (b := 2) (by norm_num) hq).mp (by exact_mod_cast h1)
  unfold round_to_digits
  rw [if_neg hq.ne', if_neg (not_lt.mpr hq.le), abs_of_pos hq, hlog,
    round_half_even_eq _ k h3, one_mul]

theorem build_rounded_ok (fl : ℚ → ℚ) (W N : Nat) (shape : Shape) (cat : Category)
    (x_origin : ℚ) (xs : List ℚ) (finf fsup : Nat → ℚ) (outer_area : ℚ)
    (h : xs.length = 2 ^ N + 1) :
    build_rounded fl W N shape cat x_origin xs finf fsup outer_area =
      .ok { x_ := if x_origin ≠ 0 then xs.map (fun v => fl (v - x_origin)) else xs
            data_ := (List.range (2 ^ N)).map
              (build_datum_rounded fl
                (compute_outer_switch_rounded fl W N shape cat
                  (if x_origin ≠ 0 then xs.map (fun v => fl (v - x_origin)) else xs)
                  fsup outer_area)
                (if x_origin ≠ 0 then xs.map (fun v => fl (v - x_origin)) else xs) finf fsup)
            outer_switch := compute_outer_switch_rounded fl W N shape cat
              (if x_origin ≠ 0 then xs.map (fun v => fl (v - x_origin)) else xs)
              fsup outer_area } := by
  simp only [build_rounded, h, ne_eq, not_true_eq_false, if_false]

theorem build_rounded_exact (W N : Nat) (shape : Shape) (cat : Category)
    (x_origin : ℚ) (xs : List ℚ) (finf fsup : Nat → ℚ) (outer_area : ℚ) :
    build_rounded (fun q => q) W N shape cat x_origin xs finf fsup outer_area
      = build W N shape cat x_origin xs finf fsup outer_area := rfl

theorem rounded_bounds (fl : ℚ → ℚ) (u q : ℚ) (hq : 0 ≤ q)
    (hfl : ∀ q, |fl q - q| ≤ u * |q|) :
    (1 - u) * q ≤ fl q ∧ fl q ≤ (1 + u) * q := by
  have h := hfl q
  rw [abs_of_nonneg hq, abs_le] at h
  constructor <;> linarith [h.1, h.2]

theorem build_datum_rounded_bounds (fl : ℚ → ℚ) (u : ℚ) (os : Nat) (x : List ℚ)
    (finf fsup : Nat → ℚ) (i : Nat) (hu0 : 0 ≤ u) (hu1 : u < 1)
    (hfl : ∀ q, |fl q - q| ≤ u * |q|)
    (hratio : (1 : ℚ) / 2 ≤ fl (finf i / fsup i)) :
    ((build_datum_rounded fl os x finf fsup i).scaled_fratio : ℤ)
      = ⌊fl (fl (finf i / fsup i) * fl (os : ℚ))⌋ ∧
    ((build_datum_rounded fl os x finf fsup i).scaled_fratio : ℚ)
      ≤ (1 + u) ^ 3 * (finf i / fsup i * (os : ℚ)) ∧
    (1 - u) ^ 3 * (finf i / fsup i * (os : ℚ)) - 1
      < ((build_datum_rounded fl os x finf fsup i).scaled_fratio : ℚ) := by
  have ho : (0 : ℚ) ≤ (os : ℚ) := Nat.cast_nonneg _
  have hr : 0 < finf i / fsup i := by
    by_contra hneg
    have hle : finf i / fsup i ≤ 0 := not_lt.mp hneg
    have h := hfl (finf i / fsup i)
    rw [abs_of_nonpos hle] at h
    have h2 := (abs_le.mp h).2
    nlinarith
  obtain ⟨a1, a2⟩ := rounded_bounds fl u _ hr.le hfl
  obtain ⟨b1, b2⟩ := rounded_bounds fl u _ ho hfl
  have ha0 : 0 ≤ fl (finf i / fsup i) := by linarith
  have hb0 : 0 ≤ fl (os : ℚ) := le_trans (mul_nonneg (by linarith) ho) b1
  have hab0 : 0 ≤ fl (finf i / fsup i) * fl (os : ℚ) := mul_nonneg ha0 hb0
  obtain ⟨c1, c2⟩ := rounded_bounds fl u _ hab0 hfl
  have hc0 : 0 ≤ fl (fl (finf i / fsup i) * fl (os : ℚ)) :=
    le_trans (mul_nonneg (by linarith) hab0) c1
  have hu1' : 0 ≤ 1 - u := by linarith
  have hu2 : 0 ≤ 1 + u := by linarith
  have hup : fl (finf i / fsup i) * fl (os : ℚ)
      ≤ (1 + u) * (finf i / fsup i) * ((1 + u) * (os : ℚ)) :=
    mul_le_mul a2 b2 hb0 (mul_nonneg hu2 hr.le)
  have hlo : (1 - u) * (finf i / fsup i) * ((1 - u) * (os : ℚ))
      ≤ fl (finf i / fsup i) * fl (os : ℚ) :=
    mul_le_mul a1 b1 (mul_nonneg hu1' ho) ha0
  have hst : ((build_datum_rounded fl os x finf fsup i).scaled_fratio : ℤ)
      = ⌊fl (fl (finf i / fsup i) * fl (os : ℚ))⌋ := by
    unfold build_datum_rounded
    simp only [hratio, if_true]
    unfold to_uint
    exact Int.toNat_of_nonneg (Int.floor_nonneg.mpr hc0)
  have hstq : ((build_datum_rounded fl os x finf fsup i).scaled_fratio : ℚ)
      = ((⌊fl (fl (finf i / fsup i) * fl (os : ℚ))⌋ : ℤ) : ℚ) := by
    rw [← hst]
    simp
  refine ⟨hst, ?_, ?_⟩
  · rw [hstq]
    have h1 := Int.floor_le (fl (fl (finf i / fsup i) * fl (os : ℚ)))
    have h2 : (1 + u) * (fl (finf i / fsup i) * fl (os : ℚ))
        ≤ (1 + u) * ((1 + u) * (finf i / fsup i) * ((1 + u) * (os : ℚ))) :=
      mul_le_mul_of_nonneg_left hup hu2
    calc ((⌊fl (fl (finf i / fsup i) * fl (os : ℚ))⌋ : ℤ) : ℚ)
        ≤ fl (fl (finf i / fsup i) * fl (os : ℚ)) := h1
      _ ≤ (1 + u) * (fl (finf i / fsup i) * fl (os : ℚ)) := c2
      _ ≤ (1 + u) * ((1 + u) * (finf i / fsup i) * ((1 + u) * (os : ℚ))) := h2
      _ = (1 + u) ^ 3 * (finf i / fsup i * (os : ℚ)) := by ring
  · rw [hstq]
    have h1 := Int.lt_floor_add_one (fl (fl (finf i / fsup i) * fl (os : ℚ)))
    have h2 : (1 - u) * ((1 - u) * (finf i / fsup i) * ((1 - u) * (os : ℚ)))
        ≤ (1 - u) * (fl (finf i / fsup i) * fl (os : ℚ)) :=
      mul_le_mul_of_nonneg_left hlo hu1'
    have h3 : (1 - u) ^ 3 * (finf i / fsup i * (os : ℚ))
        = (1 - u) * ((1 - u) * (finf i / fsup i) * ((1 - u) * (os : ℚ))) := by ring
    rw [h3]
    linarith

theorem rounded_exact (fl : ℚ → ℚ) (hfl : ∀ q, |fl q - q| ≤ 0 * |q|) (q : ℚ) : fl q = q := by
  have h := hfl q
  rw [zero_mul] at h
  have := abs_nonpos_iff.mp h
  linarith

/-- C23 (amended): let every operation of `RealType` round its exact result
with a relative error of at most `u < 1` (`u = 2^-53` for `double`).  For every
interval `i` whose computed ratio `finf[i]/fsup[i]` is at least `0.5`, `build`
stores in `scaled_fratio[i]` the computed product `fratio*outer_switch` with
its fractional part discarded, not the nearest integer; the stored value is at
most `(1+u)^3 * ratio * outer_switch` and above
`(1-u)^3 * ratio * outer_switch - 1`, and in exact arithmetic (`u = 0`) it is
the largest integer not above `ratio * outer_switch`. -/
theorem build_scaled_fratio_truncated (fl : ℚ → ℚ) (u : ℚ) (W N : Nat) (shape : Shape)
    (cat : Category) (x_origin : ℚ) (xs : List ℚ) (finf fsup : Nat → ℚ) (outer_area : ℚ)
    (hu0 : 0 ≤ u) (hu1 : u < 1) (hfl : ∀ q, |fl q - q| ≤ u * |q|)
    (hlen : xs.length = 2 ^ N + 1) (i : Nat) (hi : i < 2 ^ N)
    (hratio : (1 : ℚ) / 2 ≤ fl (finf i / fsup i)) :
    ∃ t d, build_rounded fl W N shape cat x_origin xs finf fsup outer_area = .ok t ∧
      t.data_[i]? = some d ∧
      (d.scaled_fratio : ℤ) = ⌊fl (fl (finf i / fsup i) * fl (t.outer_switch : ℚ))⌋ ∧
      (d.scaled_fratio : ℚ) ≤ fl (fl (finf i / fsup i) * fl (t.outer_switch : ℚ)) ∧
      fl (fl (finf i / fsup i) * fl (t.outer_switch : ℚ)) < (d.scaled_fratio : ℚ) + 1 ∧
      (d.scaled_fratio : ℚ) ≤ (1 + u) ^ 3 * (finf i / fsup i * (t.outer_switch : ℚ)) ∧
      (1 - u) ^ 3 * (finf i / fsup i * (t.outer_switch : ℚ)) - 1 < (d.scaled_fratio : ℚ) ∧
      (u = 0 → (d.scaled_fratio : ℤ) = ⌊finf i / fsup i * (t.outer_switch : ℚ)⌋) := by
  refine ⟨_, _, build_rounded_ok fl W N shape cat x_origin xs finf fsup outer_area hlen,
    range_map_getElem? _ _ _ hi, ?_⟩
  generalize compute_outer_switch_rounded fl W N shape cat
    (if x_origin ≠ 0 then xs.map (fun v => fl (v - x_origin)) else xs) fsup outer_area = os
  generalize (if x_origin ≠ 0 then xs.map (fun v => fl (v - x_origin)) else xs) = x
  obtain ⟨h1, h2, h3⟩ := build_datum_rounded_bounds fl u os x finf fsup i hu0 hu1 hfl hratio
  have hq : ((build_datum_rounded fl os x finf fsup i).scaled_fratio : ℚ)
      = ((⌊fl (fl (finf i / fsup i) * fl (os : ℚ))⌋ : ℤ) : ℚ) := by
    rw [← h1]
    simp
  refine ⟨h1, ?_, ?_, h2, h3, ?_⟩
  · rw [hq]
    exact Int.floor_le _
  · rw [hq]
    exact Int.lt_floor_add_one _
  · intro hu
    subst hu
    rw [h1, rounded_exact fl hfl, rounded_exact fl hfl, rounded_exact fl hfl]

/-- C23 (witness): `double` arithmetic (53 digits) on the table over `0, 1, 2`
with `finf = 7`, `fsup = 10`. -/
theorem build_scaled_fratio_truncated_witness :
    ∃ t d, build_rounded (round_to_digits 53) 8 1 .asymmetric .bounded 0 [0, 1, 2]
        (fun _ => 7) (fun _ => 10) 0 = .ok t ∧
      t.data_[1]? = some d ∧
      (d.scaled_fratio : ℤ)
        = ⌊round_to_digits 53 (round_to_digits 53 ((fun _ => (7 : ℚ)) 1 / (fun _ => (10 : ℚ)) 1)
            * round_to_digits 53 (t.outer_switch : ℚ))⌋ :=
  let ⟨t, d, h1, h2, h3, _⟩ :=
    build_scaled_fratio_truncated (round_to_digits 53) ((1 / 2) ^ 53) 8 1 .asymmetric .bounded 0
      [0, 1, 2] (fun _ => 7) (fun _ => 10) 0 (by norm_num) (by norm_num)
      (round_to_digits_error 53) (by decide) 1 (by decide)
      (by
        have h := round_to_digits_error 53 ((7 : ℚ) / 10)
        have h2 := (abs_le.mp h).1
        rw [abs_of_pos (by norm_num : (0 : ℚ) < 7 / 10)] at h2
        norm_num at h2 ⊢
        linarith)
  ⟨t, d, h1, h2, h3⟩

theorem round_to_digits_seven_tenths :
    round_to_digits 53 (7 / 10) = 6305039478318694 / 2 ^ 53 := by
  rw [round_to_digits_eq 53 (7 / 10) (-1) 6305039478318694 (by norm_num) (by norm_num)
    (by norm_num) (by norm_num [abs_lt])]
  norm_num

theorem round_to_digits_ninety : round_to_digits 53 90 = 90 := by
  rw [round_to_digits_eq 53 90 6 (90 * 2 ^ 46) (by norm_num) (by norm_num)
    (by norm_num) (by norm_num [abs_lt])]
  norm_num

theorem round_to_digits_product :
    round_to_digits 53 (6305039478318694 / 2 ^ 53 * 90) = 8866461766385663 / 2 ^ 47 := by
  rw [round_to_digits_eq 53 _ 5 8866461766385663 (by norm_num) (by norm_num)
    (by norm_num) (by norm_num [abs_lt])]
  norm_num

theorem build_datum_double_below_floor (x : List ℚ) (i : Nat) :
    (build_datum_rounded (round_to_digits 53) 90 x (fun _ => 7) (fun _ => 10) i).scaled_fratio
      = 62 ∧
    (build_datum 90 x (fun _ => 7) (fun _ => 10) i).scaled_fratio = 63 ∧
    ⌊(7 : ℚ) / 10 * 90⌋ = 63 := by
  have hr : (1 : ℚ) / 2 ≤ round_to_digits 53 (7 / 10) := by
    rw [round_to_digits_seven_tenths]
    norm_num
  have h63 : ⌊(7 : ℚ) / 10 * 90⌋ = 63 := by
    rw [Int.floor_eq_iff]
    norm_num
  refine ⟨?_, ?_, h63⟩
  · unfold build_datum_rounded
    simp only [hr, if_true]
    have h90 : round_to_digits 53 ((90 : Nat) : ℚ) = 90 := by
      rw [show ((90 : Nat) : ℚ) = 90 by norm_num]
      exact round_to_digits_ninety
    rw [h90, round_to_digits_seven_tenths, round_to_digits_product]
    exact to_uint_eq _ 62 (by norm_num) (by norm_num)
  · unfold build_datum
    have h12 : (1 : ℚ) / 2 ≤ 7 / 10 := by norm_num
    simp only [h12, if_true]
    exact to_uint_eq _ 63 (by norm_num) (by norm_num)

end etf
